import Mathlib

/-!
Verification of the lonelybot Klondike solitaire engine.

The definitions below are a shallow embedding of the Rust sources:
`card.rs`, `deck.rs`, `hidden.rs`, `pruning.rs`, `convert.rs`,
`analysis.rs`, `solver.rs` and `traverse.rs`.  Machine integers are
modelled as `Nat` (the arithmetic involved stays far below the width of
the corresponding Rust types, which is noted where it matters); slices
and fixed arrays are modelled as `List`s; fallible operations return
`Option`/`Except`.

The game-state type `Solitaire` (Rust modules `engine`/`state`/`standard`,
declared in `lib.rs` but not present in the source tree) is modelled from
the specification, as noted in the doc comments of those definitions.
-/

namespace Lonelybot

/-- A card is a 6-bit value `rank * 4 + suit`, from `card.rs` (`Card(u8)`). -/
structure Card where
  v : Nat
deriving DecidableEq, Repr

/-- `N_RANKS` from `card.rs`. -/
def N_RANKS : Nat := 13

/-- `Card::rank`: `value / N_SUITS`. -/
def Card.rank (c : Card) : Nat := c.v / 4

/-- `Card::suit`: `value % N_SUITS`. -/
def Card.suit (c : Card) : Nat := c.v % 4

/-- `Card::new(rank, suit)` from `card.rs`: `rank * N_SUITS + suit`. -/
def Card.mk2 (rank suit : Nat) : Card := ⟨rank * 4 + suit⟩

/-- `Card::FAKE` from `card.rs`: `Card::new(N_RANKS, 0)`. -/
def Card.FAKE : Card := Card.mk2 N_RANKS 0

/-- `Card::go_before` from `card.rs`:
`a.rank == b.rank + 1 && ((a.suit ^ b.suit) & 2 == 2 || a.rank == N_RANKS)`. -/
def Card.goBefore (a b : Card) : Bool :=
  a.rank = b.rank + 1 && (((a.suit ^^^ b.suit) &&& 2) = 2 || a.rank = N_RANKS)

/-- `card_mask` from `card.rs`: `1u64 << (v ^ ((v >> 1) & 2))`. -/
def cardMask (c : Card) : Nat :=
  2 ^ (c.v ^^^ ((c.v >>> 1) &&& 2))

/-- Helper for `u64::trailing_zeros`: fuelled binary recursion (64 bits). -/
def ctzAux : Nat → Nat → Nat
  | _, 0 => 0
  | n, fuel + 1 => if n % 2 = 1 then 0 else 1 + ctzAux (n / 2) fuel

/-- `u64::trailing_zeros` (returns 64 on input 0), used by `from_mask`. -/
def ctz (n : Nat) : Nat := ctzAux n 64

/-- `from_mask` from `card.rs`: recover a card from its bitboard bit via
`trailing_zeros`, undoing the `v ^ ((v >> 1) & 2)` scramble. -/
def fromMask (m : Nat) : Card :=
  let v := ctz m
  let v := v ^^^ ((v >>> 1) &&& 2)
  Card.mk2 (v / 4) (v % 4)

/-- `N_FULL_DECK` from `deck.rs`: `52 - 28 = 24` stock cards. -/
def N_FULL_DECK : Nat := 24

/-- `Drawable` from `deck.rs`. -/
inductive Drawable where
  | NoneD
  | Current
  | Next
deriving DecidableEq, Repr

/-- The deck from `deck.rs`, embedded logically: the Rust code keeps a
fixed 24-slot array with a gap (`waste = deck[0..draw_cur]`,
`stock = deck[draw_next..24]`); here `cards` is the remaining sequence
`waste ++ stock` and `drawCur` the waste length, so `draw_next` is the
derived value `drawCur + (24 - cards.length)` and `set_offset`'s
`copy_within` calls only move the gap, leaving `cards` unchanged. -/
structure Deck where
  cards : List Card
  drawStep : Nat
  drawCur : Nat
  mask : Nat
  map : List Nat
deriving DecidableEq, Repr

/-- The `map` built by `Deck::new`: `map = [!0u8; 52]`, then
`map[c.value] = i` for each `(i, c)` of the input array. -/
def buildMap (cs : List Card) : List Nat :=
  cs.enum.foldl (fun mp p => mp.set p.2.v p.1) (List.replicate 52 255)

/-- `Deck::new` from `deck.rs`: clamps `draw_step` with
`min(N_FULL_DECK, draw_step)` and starts with
`draw_next = draw_cur = draw_step`. -/
def Deck.new (cs : List Card) (drawStep : Nat) : Deck :=
  let k := min N_FULL_DECK drawStep
  { cards := cs, drawStep := k, drawCur := k, mask := 0, map := buildMap cs }

/-- `Deck::len`: `N_FULL_DECK - draw_next + draw_cur`, i.e. the number of
remaining cards. -/
def Deck.len (d : Deck) : Nat := d.cards.length

/-- `Deck::get_offset`: `draw_cur`. -/
def Deck.getOffset (d : Deck) : Nat := d.drawCur

/-- `Deck::is_empty` from `deck.rs`. -/
def Deck.isEmpty (d : Deck) : Bool := d.drawCur = 0 && d.len = 0

/-- `Deck::set_offset(id)`: slides the gap so that `draw_cur = id`;
the card sequence is untouched. -/
def Deck.setOffset (d : Deck) (id : Nat) : Deck := { d with drawCur := id }

/-- `Deck::pop_next`: removes the first stock card (logical position
`draw_cur`) and flips its bit in `mask`. -/
def Deck.popNext (d : Deck) : Deck × Card :=
  let c := d.cards.getD d.drawCur Card.FAKE
  ({ d with cards := d.cards.eraseIdx d.drawCur,
            mask := d.mask ^^^ 2 ^ (d.map.getD c.v 255) }, c)

/-- `Deck::push` (the undo of `draw`): writes the card back at the gap
slot `draw_cur` (logical position `draw_cur`) and increments `draw_cur`,
flipping the card's bit in `mask` back. -/
def Deck.push (d : Deck) (c : Card) : Deck :=
  { d with mask := d.mask ^^^ 2 ^ (d.map.getD c.v 255),
           cards := d.cards.insertIdx d.drawCur c,
           drawCur := d.drawCur + 1 }

/-- `Deck::draw(id)`: `set_offset(id)` then `pop_next`. -/
def Deck.draw (d : Deck) (id : Nat) : Deck × Card :=
  (d.setOffset id).popNext

/-- `u8::div_ceil` as used by `deck.rs` (its arguments stay below 48, far
from the u8 range). -/
def rustDivCeil (a b : Nat) : Nat := (a + b - 1) / b

/-- `Deck::offset(n_step)` from `deck.rs`, verbatim. -/
def Deck.offset (d : Deck) (nStep : Nat) : Nat :=
  let next := d.getOffset
  let len := d.len
  let step := d.drawStep
  let nStepToEnd := rustDivCeil (len - next) step
  min
    (if nStep ≤ nStepToEnd then
      next + step * nStep
    else
      let totalStep := rustDivCeil len step + 1
      step * ((nStep - nStepToEnd - 1) % totalStep))
    len

/-- `Deck::offset_once` from `deck.rs`. -/
def Deck.offsetOnce (d : Deck) : Nat :=
  let next := d.getOffset
  let len := d.len
  if next ≥ len then 0 else min (next + d.drawStep) len

/-- `Deck::deal_once`: `set_offset(offset_once())`. -/
def Deck.dealOnce (d : Deck) : Deck := d.setOffset d.offsetOnce

/-- `Deck::is_pure` from `deck.rs`: `draw_cur % draw_step == 0 ||
draw_next == N_FULL_DECK` — in the logical model `draw_next = 24` is
exactly `draw_cur = len` (empty stock). -/
def Deck.isPure (d : Deck) : Bool :=
  d.drawCur % d.drawStep = 0 || d.drawCur = d.len

/-- `Deck::normalized_offset` from `deck.rs`. -/
def Deck.normalizedOffset (d : Deck) : Nat :=
  if d.drawCur % d.drawStep = 0 then d.len else d.drawCur

/-- `Deck::encode`: `mask | (normalized_offset << N_FULL_DECK)` (29 bits). -/
def Deck.encode (d : Deck) : Nat :=
  d.mask ||| (d.normalizedOffset <<< N_FULL_DECK)

/-- The `rev_map` loop of `Deck::decode`: a 24-slot array, written with
`rev_map[map[i]] = Card(i)` for ascending `i < 52` whenever `map[i] < 24`
and bit `map[i]` of the encoding is clear. -/
def decodeRevMap (map : List Nat) (encode : Nat) : List Card :=
  (List.range 52).foldl
    (fun acc i =>
      if map.getD i 255 < N_FULL_DECK ∧ (encode >>> (map.getD i 255)) % 2 = 0 then
        acc.set (map.getD i 255) ⟨i⟩
      else acc)
    (List.replicate N_FULL_DECK Card.FAKE)

/-- `Deck::decode` from `deck.rs`: rebuilds the remaining cards in
original-slot order (compacting the non-FAKE entries of `rev_map`), sets
`draw_cur` to the number of remaining cards and `draw_next` to 24, then
`set_offset(encode >> 24)` (netting `draw_cur = encode >> 24`) and
restores `mask`. -/
def Deck.decode (d : Deck) (encode : Nat) : Deck :=
  let mask := encode &&& (2 ^ N_FULL_DECK - 1)
  let offset := encode >>> N_FULL_DECK
  let cards := (decodeRevMap d.map encode).filter (fun c => c ≠ Card.FAKE)
  { d with cards := cards, drawCur := offset, mask := mask }

/-- `Deck::iter_waste`: positions `0..draw_cur` with their drawability
(`Current` iff `pos + 1 == draw_cur`, `Next` iff `(pos+1) % draw_step == 0`). -/
def Deck.iterWaste (d : Deck) : List (Nat × Card × Drawable) :=
  (d.cards.take d.drawCur).enum.map (fun p =>
    (p.1, p.2,
      if p.1 + 1 = d.drawCur then Drawable.Current
      else if (p.1 + 1) % d.drawStep = 0 then Drawable.Next
      else Drawable.NoneD))

/-- `Deck::iter_deck`: stock positions, `Current` iff last stock card or a
step boundary of the stock, `Next` iff a step boundary of the whole
sequence. -/
def Deck.iterDeck (d : Deck) : List (Nat × Card × Drawable) :=
  (d.cards.drop d.drawCur).enum.map (fun p =>
    (d.drawCur + p.1, p.2,
      if p.1 + 1 = d.len - d.drawCur ∨ (p.1 + 1) % d.drawStep = 0 then
        Drawable.Current
      else if (d.drawCur + p.1 + 1) % d.drawStep = 0 then Drawable.Next
      else Drawable.NoneD))

/-- `Deck::iter_all`: waste then stock. -/
def Deck.iterAll (d : Deck) : List (Nat × Card × Drawable) :=
  d.iterWaste ++ d.iterDeck

/-- `Deck::equivalent_to` from `deck.rs`: zip the two `iter_all` streams
and require equal cards and equal `== Drawable::None`-ness everywhere. -/
def Deck.equivalentTo (a b : Deck) : Bool :=
  (a.iterAll.zip b.iterAll).all (fun p =>
    p.1.2.1 = p.2.2.1 &&
      ((p.1.2.2 = Drawable.NoneD) = (p.2.2.2 = Drawable.NoneD)))

/-- `Deck::find_card` from `deck.rs`: position in `waste ++ stock`. -/
def Deck.findCard (d : Deck) (c : Card) : Option Nat :=
  d.cards.indexOf? c

/-- The move sum type from spec section 3.5 (Rust `Move`, module `engine`,
declared in `lib.rs` but absent from the tree; the five variants and their
payloads are given verbatim by the spec and used by `pruning.rs`,
`convert.rs` and `solver.rs`). -/
inductive Move where
  | DeckPile (c : Card)
  | DeckStack (c : Card)
  | PileStack (c : Card)
  | StackPile (c : Card)
  | Reveal (c : Card)
deriving DecidableEq, Repr

/-- The `last_draw` component computed by `PruneInfo::new` in `pruning.rs`:
`DeckPile(c) => Some(c)`; `StackPile(c)` keeps the previous value unless
`prev.last_draw.is_some_and(|cc| cc.go_before(c))`, in which case it clears;
every other variant falls into the `_ => None` arm. -/
def pruneLastDraw (prev : Option Card) (m : Move) : Option Card :=
  match m with
  | .DeckPile c => some c
  | .StackPile c =>
      match prev with
      | some cc => if cc.goBefore c then none else some cc
      | none => none
  | _ => none

/-- `N_PILES` from `deck.rs`. -/
def N_PILES : Nat := 7

/-- `N_HIDDEN_CARDS`/`N_PILE_CARDS`: `7 * 8 / 2 = 28`. -/
def N_PILE_CARDS : Nat := 28

/-- Start index `pos * (pos + 1) / 2` of pile `pos` in the flat 28-slot
array (`Hidden::get_range` in `hidden.rs`). -/
def triStart (pos : Nat) : Nat := pos * (pos + 1) / 2

/-- The seven hidden piles from `hidden.rs`: a flat 28-slot card array,
per-pile counts, a card-to-pile reverse index and the cached first-layer
bitmask. -/
structure Hidden where
  hiddenPiles : List Card
  nHidden : List Nat
  pileMap : List Nat
  firstLayerMask : Nat
deriving DecidableEq, Repr

/-- `Hidden::new` from `hidden.rs`: pile `i` occupies slots
`[i(i+1)/2, (i+2)(i+1)/2)`; `first_layer_mask` ORs the mask of each
pile's slot-0 card; `pile_map[c] = i` for every card of pile `i`;
`n_hidden[i] = i + 1`. -/
def Hidden.new (cs : List Card) : Hidden :=
  { hiddenPiles := cs
    nHidden := (List.range N_PILES).map (fun i => i + 1)
    pileMap := (List.range N_PILES).foldl
      (fun mp i =>
        ((cs.drop (triStart i)).take (i + 1)).foldl (fun mp2 c => mp2.set c.v i) mp)
      (List.replicate 52 0)
    firstLayerMask := (List.range N_PILES).foldl
      (fun m i => m ||| cardMask (cs.getD (triStart i) Card.FAKE)) 0 }

/-- `Hidden::get`: the active slice of pile `pos`
(`hidden_piles[start .. start + n_hidden[pos])`). -/
def Hidden.get (h : Hidden) (pos : Nat) : List Card :=
  (h.hiddenPiles.drop (triStart pos)).take (h.nHidden.getD pos 0)

/-- `Hidden::len`. -/
def Hidden.lenP (h : Hidden) (pos : Nat) : Nat := h.nHidden.getD pos 0

/-- `Hidden::peek`: `get(pos).last()`. -/
def Hidden.peek (h : Hidden) (pos : Nat) : Option Card :=
  (h.get pos).getLast?

/-- `Hidden::pop`: decrement `n_hidden[pos]`, then `peek(pos)` (the newly
exposed card). -/
def Hidden.pop (h : Hidden) (pos : Nat) : Hidden × Option Card :=
  let h2 := { h with nHidden := h.nHidden.set pos (h.nHidden.getD pos 0 - 1) }
  (h2, h2.peek pos)

/-- `Hidden::unpop`: re-increment `n_hidden[pos]` (undo of `pop`). -/
def Hidden.unpop (h : Hidden) (pos : Nat) : Hidden :=
  { h with nHidden := h.nHidden.set pos (h.nHidden.getD pos 0 + 1) }

/-- `Hidden::find`: `pile_map[c.value]`. -/
def Hidden.find (h : Hidden) (c : Card) : Nat :=
  h.pileMap.getD c.v 0

/-- `Hidden::all_turn_up` from `hidden.rs`. -/
def Hidden.allTurnUp (h : Hidden) : Bool :=
  h.nHidden.all (fun x => x ≤ 1)

/-- `Hidden::encode` from `hidden.rs`: mixed-radix packing
`fold(0, |res, (i, n)| res * (i + 2) + n)` over the reversed enumerated
counts (a u16 for the valid counts `n_hidden[i] ≤ i + 1`). -/
def Hidden.encode (h : Hidden) : Nat :=
  h.nHidden.enum.reverse.foldl (fun res p => res * (p.1 + 2) + p.2) 0

/-- The count-decoding loop of `Hidden::decode`: for ascending `i`,
`n_hidden[i] = e % (i + 2); e /= i + 2`. -/
def decodeCountsFrom (e i fuel : Nat) : List Nat :=
  match fuel with
  | 0 => []
  | f + 1 => e % (i + 2) :: decodeCountsFrom (e / (i + 2)) (i + 1) f

/-- `Hidden::decode` from `hidden.rs`: overwrites the seven counts from
the mixed-radix encoding; the stored cards and the reverse index are not
touched. -/
def Hidden.decode (h : Hidden) (e : Nat) : Hidden :=
  { h with nHidden := decodeCountsFrom e 0 N_PILES }

/-- `Hidden::update_map` from `hidden.rs`. -/
def Hidden.updateMap (h : Hidden) : Hidden :=
  let mp := (List.range N_PILES).foldl
    (fun mp pos => (h.get pos).foldl (fun mp2 c => mp2.set c.v pos) mp)
    h.pileMap
  { h with pileMap := mp }

/-- Helper: write `vals` into `l` starting at index `start` (the
`copy_from_slice` of `Hidden::shuffle`). -/
def writeSlice (l : List Card) (start : Nat) (vals : List Card) : List Card :=
  vals.enum.foldl (fun acc p => acc.set (start + p.1) p.2) l

/-- `Hidden::shuffle` from `hidden.rs`, with the RNG factored out: the
Rust code collects every active non-top card into `all_stuff`, shuffles
that vector, and copies it back slice by slice; here the already-shuffled
vector `sh` is taken as a parameter, so every RNG outcome is covered. -/
def Hidden.shuffleWith (h : Hidden) (sh : List Card) : Hidden :=
  let res := (List.range N_PILES).foldl
    (fun acc pos =>
      let n := (h.get pos).dropLast.length
      (writeSlice acc.1 (triStart pos) ((sh.drop acc.2).take n), acc.2 + n))
    (h.hiddenPiles, 0)
  Hidden.updateMap { h with hiddenPiles := res.1 }

/-- `PlayStyle` from `analysis.rs`. -/
inductive PlayStyle where
  | Conservative
  | Neutral
  | Aggressive
deriving DecidableEq, Repr

/-- `HeuristicConfig` from `analysis.rs` (i32 fields modelled as `Int`). -/
structure HeuristicConfig where
  reveal_bonus : Int
  empty_column_bonus : Int
  early_foundation_penalty : Int
  keep_king_bonus : Int
  deadlock_penalty : Int
  aggressive_coef : Int
  conservative_coef : Int
  neutral_coef : Int
deriving DecidableEq, Repr

/-- `HeuristicConfig::default` from `analysis.rs`. -/
def HeuristicConfig.default : HeuristicConfig :=
  ⟨5, 2, -3, 1, -10, 1, 1, 1⟩

/-- The state-dependent tests made by `evaluate_move` (analysis.rs,
lines 153-234, the definition the claim cites), gathered into a record:
the card revealed by simulating the move (if any), whether the
empty-column bonus test fires, whether any foundation counter exceeds 1
after the move, and whether the post-move state has no legal moves.
These probe the engine (`SolitaireEngine`, absent from the tree); the
scoring arithmetic below is what decides the claim and is verbatim from
the source. -/
structure MoveFeatures where
  revealed : Option Card
  emptyColumnFreed : Bool
  anyFoundationAbove1 : Bool
  deadlockAfter : Bool
deriving DecidableEq, Repr

/-- The style coefficient selection at the top of `evaluate_move`. -/
def styleCoeff (style : PlayStyle) (cfg : HeuristicConfig) : Int :=
  match style with
  | .Aggressive => cfg.aggressive_coef
  | .Conservative => cfg.conservative_coef
  | .Neutral => cfg.neutral_coef

/-- The flat per-style adjustment of `evaluate_move`:
`Aggressive => 1, Conservative => -1, Neutral => 0`. -/
def styleAdjust (style : PlayStyle) : Int :=
  match style with
  | .Aggressive => 1
  | .Conservative => -1
  | .Neutral => 0

/-- `f64::round` (half away from zero), on exact rationals: the values
rounded in `evaluate_move` are an integer score times a probability plus
one half, far inside f64's exact integer range for integer probabilities. -/
def rustRoundQ (q : ℚ) : Int :=
  if 0 ≤ q then ⌊q + 1/2⌋ else ⌈q - 1/2⌉

/-- `evaluate_move` from `analysis.rs` (lines 153-234): accumulates the
bonuses, subtracts penalties, adds the style adjustment, and returns
`((score as f64) * prob + 0.5).round()`.  The style coefficient `coeff`
is computed at the top of the function but never used in this version
(unlike the first, conflicting definition at lines 84-136, which returns
`score * coeff`). -/
def evaluateMoveScore (style : PlayStyle) (cfg : HeuristicConfig)
    (feat : MoveFeatures) (prob : ℚ) : Int :=
  let _coeff := styleCoeff style cfg
  let score : Int := 0
  let score := if feat.revealed.isSome then score + cfg.reveal_bonus else score
  let score := if feat.emptyColumnFreed then score + cfg.empty_column_bonus else score
  let score :=
    match feat.revealed with
    | some c => if c.rank = 12 then score + cfg.keep_king_bonus else score
    | none => score
  let score :=
    if feat.anyFoundationAbove1 then score - cfg.early_foundation_penalty else score
  let score :=
    if feat.deadlockAfter then score - cfg.deadlock_penalty else score
  let score := score + styleAdjust style
  rustRoundQ ((score : ℚ) * prob + 1/2)

/-- Features of a move that reveals the non-king card A♥ and triggers
nothing else (probability weight 1, as for every non-`Reveal` move). -/
def featReveal0 : MoveFeatures := ⟨some ⟨0⟩, false, false, false⟩

/-- `Pos` from the `standard` module (as used by `convert.rs`):
deck, foundation stack of a suit, or tableau pile. -/
inductive Pos where
  | Deck
  | Stack (s : Nat)
  | Pile (p : Nat)
deriving DecidableEq, Repr

/-- `StandardMove` from the `standard` module (as used by `convert.rs`):
`StandardMove::new(from, to, card)`. -/
structure StandardMove where
  fromP : Pos
  toP : Pos
  card : Card
deriving DecidableEq, Repr

/-- `StandardMove::DRAW_NEXT` (a deck-to-deck move of no card). -/
def StandardMove.DRAW_NEXT : StandardMove := ⟨Pos.Deck, Pos.Deck, Card.FAKE⟩

/-- Modelled from the spec: `StandardSolitaire` (module `standard`,
declared in `lib.rs` but absent from the tree).  Spec sections 6 and
glossary: a standard Klondike state — seven tableau piles of face-up
runs (index 0 the bottom card) over per-pile face-down cards, four
foundation counters (next rank to drop per suit) and a stock/waste deck
with a draw-k cursor, driven by the standard operations draw-next,
deck→pile, deck→stack, stack→pile, pile→pile and pile→stack. -/
structure StandardSolitaire where
  hiddenP : List (List Card)
  piles : List (List Card)
  deck : Deck
  stack : List Nat
deriving DecidableEq, Repr

/-- `Stack::get(suit)`: the next rank to drop for `suit`. -/
def StandardSolitaire.stackGet (g : StandardSolitaire) (s : Nat) : Nat :=
  g.stack.getD s 0

/-- The card currently drawable from the waste top (`draw_cur - 1`),
`None` when the waste is empty. -/
def Deck.currentCard (d : Deck) : Option Card :=
  if d.drawCur = 0 then none else some (d.cards.getD (d.drawCur - 1) Card.FAKE)

/-- `n` consecutive `deal_once` steps. -/
def dealN (d : Deck) : Nat → Deck
  | 0 => d
  | n + 1 => dealN d.dealOnce n

/-- Modelled from the spec: `StandardSolitaire::find_deck_card`
(module `standard`, absent) — the number of draw-next operations after
which `c` becomes the current waste card, `None` if `c` is not in the
deck; the search bound covers a full redeal cycle. -/
def StandardSolitaire.findDeckCard (g : StandardSolitaire) (c : Card) : Option Nat :=
  (List.range (2 * g.deck.len + 2)).find?
    (fun n => (dealN g.deck n).currentCard == some c)

/-- Modelled from the spec: destination-pile legality (spec 4.4 — a card
may be placed on a column whose visible top `t` has
`rank(t) = rank(c) + 1` and the opposite color, i.e. `t.go_before(c)` in
the `go_before` of `card.rs`, or a king on a column that is empty,
face-down cards included). -/
def StandardSolitaire.canPlace (g : StandardSolitaire) (c : Card) (p : Nat) : Bool :=
  match (g.piles.getD p []).getLast? with
  | some t => t.goBefore c
  | none => (g.hiddenP.getD p []).isEmpty && c.rank = N_RANKS - 1

/-- Modelled from the spec: `StandardSolitaire::find_free_pile` — the
first pile that can receive `c`. -/
def StandardSolitaire.findFreePile (g : StandardSolitaire) (c : Card) : Option Nat :=
  (List.range N_PILES).find? (fun p => g.canPlace c p)

/-- Modelled from the spec: `StandardSolitaire::find_top_card` — the pile
whose movable-run root (bottom-most face-up card) is `c`. -/
def StandardSolitaire.findTopCard (g : StandardSolitaire) (c : Card) : Option Nat :=
  (List.range N_PILES).find? (fun p => (g.piles.getD p []).head? == some c)

/-- Modelled from the spec: `StandardSolitaire::find_card` — the pile
containing `c` together with the run from `c` up to the pile top. -/
def StandardSolitaire.findCard (g : StandardSolitaire) (c : Card) :
    Option (Nat × List Card) :=
  ((List.range N_PILES).find? (fun p => (g.piles.getD p []).contains c)).map
    (fun p => (p, (g.piles.getD p []).drop ((g.piles.getD p []).indexOf c)))

/-- Modelled from the spec: after a pile is emptied its next face-down
card is turned up. -/
def StandardSolitaire.revealTop (g : StandardSolitaire) (p : Nat) : StandardSolitaire :=
  if (g.piles.getD p []).isEmpty then
    match (g.hiddenP.getD p []).getLast? with
    | some c =>
        { g with hiddenP := g.hiddenP.set p (g.hiddenP.getD p []).dropLast,
                 piles := g.piles.set p [c] }
    | none => g
  else g

/-- Modelled from the spec: `StandardSolitaire::do_move` over the six
standard operations (`None` plays the role of the Rust error return; a
failed move leaves the state unused by the caller). -/
def StandardSolitaire.doMove (g : StandardSolitaire) (m : StandardMove) :
    Option StandardSolitaire :=
  if m = StandardMove.DRAW_NEXT then
    some { g with deck := g.deck.dealOnce }
  else
    match m.fromP, m.toP with
    | .Deck, .Pile p =>
        match g.deck.currentCard with
        | some c =>
            if c = m.card ∧ g.canPlace c p then
              some { g with deck := (g.deck.draw (g.deck.drawCur - 1)).1,
                            piles := g.piles.set p ((g.piles.getD p []) ++ [c]) }
            else none
        | none => none
    | .Deck, .Stack s =>
        match g.deck.currentCard with
        | some c =>
            if c = m.card ∧ c.suit = s ∧ c.rank = g.stackGet s then
              some { g with deck := (g.deck.draw (g.deck.drawCur - 1)).1,
                            stack := g.stack.set s (g.stackGet s + 1) }
            else none
        | none => none
    | .Stack s, .Pile p =>
        if m.card.suit = s ∧ m.card.rank + 1 = g.stackGet s ∧ g.canPlace m.card p then
          some { g with stack := g.stack.set s (g.stackGet s - 1),
                        piles := g.piles.set p ((g.piles.getD p []) ++ [m.card]) }
        else none
    | .Pile pf, .Pile pt =>
        let pile := g.piles.getD pf []
        let i := pile.indexOf m.card
        let newPiles :=
          (g.piles.set pf (pile.take i)).set pt ((g.piles.getD pt []) ++ pile.drop i)
        if pf ≠ pt ∧ m.card ∈ pile ∧ g.canPlace m.card pt then
          some (StandardSolitaire.revealTop { g with piles := newPiles } pf)
        else none
    | .Pile pf, .Stack s =>
        let pile := g.piles.getD pf []
        match pile.getLast? with
        | some c =>
            if c = m.card ∧ c.suit = s ∧ c.rank = g.stackGet s then
              some (StandardSolitaire.revealTop
                { g with piles := g.piles.set pf pile.dropLast,
                         stack := g.stack.set s (g.stackGet s + 1) }
                pf)
            else none
        | none => none
    | _, _ => none

/-- `convert_move` from `convert.rs`, verbatim: translate one abstract
move into standard operations, `none` standing for `Err(InvalidMove)`;
the game is only read, never written. -/
def convertMove (game : StandardSolitaire) (m : Move) : Option (List StandardMove) :=
  match m with
  | .DeckPile c => do
      let cnt ← game.findDeckCard c
      let pile ← game.findFreePile c
      pure (List.replicate cnt StandardMove.DRAW_NEXT ++ [⟨Pos.Deck, Pos.Pile pile, c⟩])
  | .DeckStack c =>
      if c.rank ≠ game.stackGet c.suit then none
      else do
        let cnt ← game.findDeckCard c
        pure (List.replicate cnt StandardMove.DRAW_NEXT
          ++ [⟨Pos.Deck, Pos.Stack c.suit, c⟩])
  | .StackPile c =>
      if c.rank + 1 ≠ game.stackGet c.suit then none
      else do
        let pile ← game.findFreePile c
        pure [⟨Pos.Stack c.suit, Pos.Pile pile, c⟩]
  | .Reveal c => do
      let pileFrom ← game.findTopCard c
      let pileTo ← game.findFreePile c
      if pileTo = pileFrom then none
      else pure [⟨Pos.Pile pileFrom, Pos.Pile pileTo, c⟩]
  | .PileStack c =>
      if c.rank ≠ game.stackGet c.suit then none
      else do
        let pc ← game.findCard c
        match pc.2.get? 1 with
        | some moveCard => do
            let pileOther ← game.findFreePile moveCard
            if pileOther = pc.1 then none
            else pure [⟨Pos.Pile pc.1, Pos.Pile pileOther, moveCard⟩,
              ⟨Pos.Pile pc.1, Pos.Stack c.suit, c⟩]
        | none => pure [⟨Pos.Pile pc.1, Pos.Stack c.suit, c⟩]

/-- The application loop inside `convert_moves`: each converted operation
is executed with `do_move`, whose success is only `debug_assert!`ed — in
release a failing operation is skipped (`do_move` then leaves the state
unchanged). -/
def applyStdMoves (g : StandardSolitaire) (ops : List StandardMove) :
    StandardSolitaire :=
  ops.foldl (fun g2 op => (g2.doMove op).getD g2) g

/-- The recursion of `convert_moves` from `convert.rs`: convert each
abstract move in turn, extending the accumulated operation list and
executing the new suffix; on the first inconvertible move return the
error *with the game state as mutated so far*. -/
def convertMovesGo (g : StandardSolitaire) (acc : List StandardMove) :
    List Move → Option (List StandardMove) × StandardSolitaire
  | [] => (some acc, g)
  | m :: ms =>
      match convertMove g m with
      | none => (none, g)
      | some ops => convertMovesGo (applyStdMoves g ops) (acc ++ ops) ms

/-- `convert_moves` from `convert.rs` (`&mut` receiver modelled by
returning the final state alongside the result). -/
def convertMoves (g : StandardSolitaire) (ms : List Move) :
    Option (List StandardMove) × StandardSolitaire :=
  convertMovesGo g [] ms

/-- The positions visited by the Rust loop
`let mut i = start; while i + 1 < stop { f(i); i += step }`
(`Deck::iter_callback`), for `step ≥ 1`. -/
def stepPositions (start stop step : Nat) : List Nat :=
  (List.range stop).filter (fun i => start ≤ i ∧ (i - start) % step = 0 ∧ i + 1 < stop)

/-- `Deck::iter_callback` from `deck.rs` as the list of `(pos, card)`
pairs it visits, in logical positions (the Rust code works in physical
indices; subtracting the gap `draw_next - draw_cur` turns its stock
indices into logical ones): waste step-boundaries (unfiltered only),
the current waste top, the last stock card, stock step-boundaries
relative to the cursor, and (unfiltered, when the cursor is off-step)
stock step-boundaries relative to the deck start. -/
def Deck.iterCallbackList (d : Deck) (filter : Bool) : List (Nat × Card) :=
  (if filter then [] else
    (stepPositions (d.drawStep - 1) d.drawCur d.drawStep).map
      (fun i => (i, d.cards.getD i Card.FAKE)))
  ++ (if 0 < d.drawCur then
        [(d.drawCur - 1, d.cards.getD (d.drawCur - 1) Card.FAKE)] else [])
  ++ (if d.drawCur < d.len then
        [(d.len - 1, d.cards.getD (d.len - 1) Card.FAKE)] else [])
  ++ (stepPositions (d.drawCur + d.drawStep - 1) d.len d.drawStep).map
      (fun j => (j, d.cards.getD j Card.FAKE))
  ++ (if filter = false ∧ d.drawCur % d.drawStep ≠ 0 then
        (stepPositions (d.drawCur + d.drawStep - 1 - d.drawCur % d.drawStep)
            d.len d.drawStep).map
          (fun j => (j, d.cards.getD j Card.FAKE))
      else [])

/-- Modelled from the spec: the full game state (Rust `Solitaire`,
modules `engine`/`state`, declared in `lib.rs` but absent from the
tree).  Spec sections 3.3, 3.4 and 4.3: a `Deck`, the `Hidden` piles
(face-down cards), the visible tableau (spec 3.4 keeps it as bitboards
from which the seven face-up runs are reconstructible; here the runs are
kept explicitly, bottom card first — the bitboard is computed from them
for the encoding) and the four foundation counters. -/
structure Solitaire where
  deck : Deck
  hidden : Hidden
  cols : List (List Card)
  finalStack : List Nat
deriving DecidableEq, Repr

/-- Foundation counter of a suit (spec 3.4: the next rank to drop). -/
def Solitaire.fnd (s : Solitaire) (su : Nat) : Nat := s.finalStack.getD su 0

/-- Modelled from the spec: `is_win` — all four foundations at 13. -/
def Solitaire.isWin (s : Solitaire) : Bool :=
  s.finalStack.all (fun n => n = N_RANKS)

/-- The visible top of column `j` (the last card of its face-up run). -/
def Solitaire.colTop (s : Solitaire) (j : Nat) : Option Card :=
  (s.cols.getD j []).getLast?

/-- Modelled from the spec (4.4): the first column that can receive `c` —
a column whose top `t` has `rank(t) = rank(c) + 1` and the opposite
color, which in the `go_before` of `card.rs` reads `t.go_before(c)` — or
an empty column when `c` is a king (the engine's FAKE top makes
`t.go_before(c)` true exactly for kings there). -/
def Solitaire.findDest (s : Solitaire) (c : Card) : Option Nat :=
  (List.range N_PILES).find? (fun j =>
    match s.colTop j with
    | some t => t.goBefore c
    | none => c.rank = N_RANKS - 1)

/-- Modelled from the spec (4.4): destination for a `Reveal` — as
`findDest` but excluding the source column. -/
def Solitaire.findDestOther (s : Solitaire) (c : Card) (src : Nat) : Option Nat :=
  (List.range N_PILES).find? (fun j =>
    j ≠ src &&
      match s.colTop j with
      | some t => t.goBefore c
      | none => c.rank = N_RANKS - 1)

/-- Modelled from the spec (4.4, source 1): the deck moves — for every
drawable `(pos, c)` of `iter_callback(DOM)`, `DeckStack(c)` when `c`'s
rank matches its foundation and `DeckPile(c)` when a destination column
exists. -/
def Solitaire.deckMoves (s : Solitaire) (dom : Bool) : List Move :=
  ((s.deck.iterCallbackList dom).filterMap (fun pc =>
      if pc.2.rank = s.fnd pc.2.suit then some (Move.DeckStack pc.2) else none))
  ++ ((s.deck.iterCallbackList dom).filterMap (fun pc =>
      if (s.findDest pc.2).isSome then some (Move.DeckPile pc.2) else none))

/-- Modelled from the spec (4.4, source 2): `PileStack(c)` for every
visible column top whose rank matches its foundation. -/
def Solitaire.pileStackMoves (s : Solitaire) : List Move :=
  (List.range N_PILES).filterMap (fun j =>
    match s.colTop j with
    | some c => if c.rank = s.fnd c.suit then some (Move.PileStack c) else none
    | none => none)

/-- Modelled from the spec (4.4, source 3): `StackPile(c)` for every suit
with a non-empty foundation whose top card has a destination column. -/
def Solitaire.stackPileMoves (s : Solitaire) : List Move :=
  (List.range 4).filterMap (fun su =>
    if 0 < s.fnd su then
      let c := Card.mk2 (s.fnd su - 1) su
      if (s.findDest c).isSome then some (Move.StackPile c) else none
    else none)

/-- Modelled from the spec (4.4, source 4): `Reveal(c)` for every movable
run root (the bottom-most face-up card of a column) that has a legal
destination in another column. -/
def Solitaire.revealMoves (s : Solitaire) : List Move :=
  (List.range N_PILES).filterMap (fun j =>
    match (s.cols.getD j []).head? with
    | some c => if (s.findDestOther c j).isSome then some (Move.Reveal c) else none
    | none => none)

/-- Modelled from the spec (4.4): `list_moves` — deck moves (through the
dominance-filtered deck iteration when `DOM`), pile-to-stack,
stack-to-pile and reveals. -/
def Solitaire.listMoves (s : Solitaire) (dom : Bool) : List Move :=
  s.deckMoves dom ++ s.pileStackMoves ++ s.stackPileMoves ++ s.revealMoves

/-- Modelled from the spec (4.3/4.5): `UndoInfo` — "a byte plus optional
revealed-card".  The byte holds the pre-move deck cursor for
`DeckPile`/`DeckStack` (the waste slot needed to push the card back) and
the source column for `PileStack`/`Reveal`; the optional card is the
card revealed from a hidden pile, if any. -/
structure UndoInfo where
  b : Nat
  revealed : Option Card
deriving DecidableEq, Repr

/-- Modelled from the spec (3.5/4.4/4.5): `do_move`.  Each branch mutates
the state per spec 3.5 and returns the `UndoInfo` of spec 4.5; branches
whose side conditions fail (never reached for a move of `list_moves`)
leave the state unchanged with a zero `UndoInfo`. -/
def Solitaire.doMove (s : Solitaire) (m : Move) : Solitaire × UndoInfo :=
  match m with
  | .DeckPile c =>
      match s.deck.findCard c, s.findDest c with
      | some id, some j =>
          ({ s with deck := (s.deck.draw id).1,
                    cols := s.cols.set j ((s.cols.getD j []) ++ [c]) },
            ⟨s.deck.drawCur, none⟩)
      | _, _ => (s, ⟨0, none⟩)
  | .DeckStack c =>
      match s.deck.findCard c with
      | some id =>
          ({ s with deck := (s.deck.draw id).1,
                    finalStack := s.finalStack.set c.suit (s.fnd c.suit + 1) },
            ⟨s.deck.drawCur, none⟩)
      | none => (s, ⟨0, none⟩)
  | .PileStack c =>
      match (List.range N_PILES).find?
          (fun j => (s.cols.getD j []).getLast? == some c) with
      | some j =>
          let rest := (s.cols.getD j []).dropLast
          let base := { s with cols := s.cols.set j rest,
                               finalStack := s.finalStack.set c.suit (s.fnd c.suit + 1) }
          if rest.isEmpty then
            match s.hidden.peek j with
            | some h =>
                ({ base with hidden := (base.hidden.pop j).1,
                             cols := base.cols.set j [h] }, ⟨j, some h⟩)
            | none => (base, ⟨j, none⟩)
          else (base, ⟨j, none⟩)
      | none => (s, ⟨0, none⟩)
  | .StackPile c =>
      match s.findDest c with
      | some j =>
          ({ s with cols := s.cols.set j ((s.cols.getD j []) ++ [c]),
                    finalStack := s.finalStack.set c.suit (s.fnd c.suit - 1) },
            ⟨j, none⟩)
      | none => (s, ⟨0, none⟩)
  | .Reveal c =>
      match (List.range N_PILES).find?
          (fun j => (s.cols.getD j []).head? == some c) with
      | some j =>
          match s.findDestOther c j with
          | some j2 =>
              let run := s.cols.getD j []
              let base := { s with cols :=
                  (s.cols.set j []).set j2 ((s.cols.getD j2 []) ++ run) }
              match s.hidden.peek j with
              | some h =>
                  ({ base with hidden := (base.hidden.pop j).1,
                               cols := base.cols.set j [h] }, ⟨j, some h⟩)
              | none => (base, ⟨j, none⟩)
          | none => (s, ⟨0, none⟩)
      | none => (s, ⟨0, none⟩)

/-- Modelled from the spec (4.3/4.5): `undo_move` — the inverse of
`do_move`, reconstructing everything not in `UndoInfo` from the state
and the move (the card pushed by a `DeckPile`/`StackPile` is the unique
visible top equal to the moved card; the run moved by a `Reveal` is the
segment of the unique column containing the moved card that starts at
it). -/
def Solitaire.undoMove (s : Solitaire) (m : Move) (u : UndoInfo) : Solitaire :=
  match m with
  | .DeckPile c =>
      match (List.range N_PILES).find?
          (fun j => (s.cols.getD j []).getLast? == some c) with
      | some j =>
          { s with cols := s.cols.set j (s.cols.getD j []).dropLast,
                   deck := (s.deck.push c).setOffset u.b }
      | none => s
  | .DeckStack c =>
      { s with deck := (s.deck.push c).setOffset u.b,
               finalStack := s.finalStack.set c.suit (s.fnd c.suit - 1) }
  | .PileStack c =>
      match u.revealed with
      | some _ =>
          { s with hidden := s.hidden.unpop u.b,
                   cols := s.cols.set u.b [c],
                   finalStack := s.finalStack.set c.suit (s.fnd c.suit - 1) }
      | none =>
          { s with cols := s.cols.set u.b ((s.cols.getD u.b []) ++ [c]),
                   finalStack := s.finalStack.set c.suit (s.fnd c.suit - 1) }
  | .StackPile c =>
      { s with cols := s.cols.set u.b (s.cols.getD u.b []).dropLast,
               finalStack := s.finalStack.set c.suit (s.fnd c.suit + 1) }
  | .Reveal c =>
      match (List.range N_PILES).find?
          (fun j2 => (s.cols.getD j2 []).contains c) with
      | some j2 =>
          let col2 := s.cols.getD j2 []
          let run := col2.drop (col2.indexOf c)
          let remain := col2.take (col2.indexOf c)
          let s1 :=
            match u.revealed with
            | some _ => { s with hidden := s.hidden.unpop u.b }
            | none => s
          { s1 with cols := (s1.cols.set j2 remain).set u.b run }
      | none => s

/-- OR-fold of the card bitboard bits of a list (the 52-bit visible-mask
of spec 3.4/3.6 computed from the face-up runs). -/
def orFoldMask (l : List Card) : Nat :=
  l.foldr (fun c a => cardMask c ||| a) 0

/-- The visible-cards bitboard (spec 3.4). -/
def Solitaire.visibleMask (s : Solitaire) : Nat :=
  orFoldMask s.cols.flatten

/-- Foundation packing, four bits per suit (spec 3.6). -/
def stackEncode (st : List Nat) : Nat :=
  st.foldr (fun n a => a * 16 + n) 0

/-- Modelled from the spec (3.6): the transposition key
`deck(29 bits) | hidden(16) << 29 | visible-bitboard(52) << 45 |
foundations(16) << 97`. -/
def Solitaire.encode (s : Solitaire) : Nat :=
  s.deck.encode ||| (s.hidden.encode <<< 29) ||| (s.visibleMask <<< 45)
    ||| (stackEncode s.finalStack <<< 97)

/-- Modelled from the spec (6): the deal — the first 28 cards fill the
hidden piles (triangular), the last 24 the deck; the top of each hidden
pile is then turned up (one `pop` per pile, leaving
`n_hidden = [0,1,...,6]`) to form the initial one-card visible runs. -/
def Solitaire.new (cs : List Card) (k : Nat) : Solitaire :=
  let hid := Hidden.new (cs.take 28)
  { deck := Deck.new (cs.drop 28) k
    hidden := { hid with nHidden := List.range N_PILES }
    cols := (List.range N_PILES).map (fun j => ((hid.peek j).map (fun h => [h])).getD [])
    finalStack := [0, 0, 0, 0] }

/-- Every card currently face-down in a hidden pile. -/
def Solitaire.activeHidden (s : Solitaire) : List Card :=
  ((List.range N_PILES).map s.hidden.get).flatten

/-- Every card still in play (face-up runs, face-down piles, deck);
foundation cards have left this list. -/
def Solitaire.allCards (s : Solitaire) : List Card :=
  s.cols.flatten ++ s.activeHidden ++ s.deck.cards

/-- The state invariant maintained by play from a valid deal: the cards
in play are pairwise distinct, there are seven columns, the deck cursor
is in range, no card still in play is below its foundation counter
(cards of rank `< fnd(suit)` are on the foundation), the hidden-pile
counts lie within the stored pile slices, and there are four foundation
slots. -/
def Solitaire.wf (s : Solitaire) : Prop :=
  s.allCards.Nodup ∧
  s.cols.length = N_PILES ∧
  s.deck.drawCur ≤ s.deck.len ∧
  (∀ c ∈ s.allCards, s.fnd c.suit ≤ c.rank) ∧
  (∀ j, j < N_PILES → (s.hidden.get j).length = s.hidden.lenP j) ∧
  s.finalStack.length = 4

instance (s : Solitaire) : Decidable s.wf := by
  unfold Solitaire.wf
  infer_instance

/-- The states reachable from a valid construction (spec: a 52-distinct-
card deal and a positive draw step) by legal moves. -/
inductive Solitaire.Reachable (cs : List Card) (k : Nat) : Solitaire → Prop where
  | base : cs.length = 52 → cs.Nodup → 1 ≤ k →
      Solitaire.Reachable cs k (Solitaire.new cs k)
  | step : ∀ {s : Solitaire} {m : Move} {dom : Bool},
      Solitaire.Reachable cs k s → m ∈ s.listMoves dom →
      Solitaire.Reachable cs k (s.doMove m).1

/-- Modelled from the spec (3.5): `get_rev_move` — `StackPile(c)`
reverses `PileStack(c)` when the latter does not reveal a hidden card;
`Reveal(c)` reverses itself when no hidden card is exposed;
`DeckPile`/`DeckStack` have no reverse. -/
def Solitaire.getRevMove (s : Solitaire) (m : Move) : Option Move :=
  match m with
  | .PileStack c =>
      match (List.range N_PILES).find?
          (fun j => (s.cols.getD j []).getLast? == some c) with
      | some j =>
          if (s.cols.getD j []).dropLast.isEmpty ∧ (s.hidden.peek j).isSome then
            none
          else some (.StackPile c)
      | none => none
  | .StackPile c => some (.PileStack c)
  | .Reveal c =>
      match (List.range N_PILES).find?
          (fun j => (s.cols.getD j []).head? == some c) with
      | some j => if (s.hidden.peek j).isSome then none else some (.Reveal c)
      | none => none
  | _ => none

/-- `SearchResult` from `solver.rs`. -/
inductive SearchResult where
  | Terminated
  | Solved
  | Unsolvable
  | Crashed
deriving DecidableEq, Repr

/-- The move loop of `solve` (`solver.rs` lines 197-217), structurally
recursive on the remaining moves and parametrised by the recursive
search call `recur` (the body of `solve` at the next depth): skip the
reverse of the previous move; `do_move`, push, recurse; on `Unsolvable`
pop and `undo_move` and keep looping; on any other child result return
it at once — without undoing. -/
def solveList (sign : Nat → Bool)
    (recur : Solitaire → Option Move → List Nat → List Move → Nat →
      SearchResult × Solitaire × List Move × List Nat × Nat) :
    Solitaire → Option Move → List Nat → List Move → Nat → List Move →
      SearchResult × Solitaire × List Move × List Nat × Nat
  | g, _, tp, hist, cnt, [] => (.Unsolvable, g, hist, tp, cnt)
  | g, revMove, tp, hist, cnt, m :: ms =>
      if some m = revMove then
        solveList sign recur g revMove tp hist cnt ms
      else
        let rev := g.getRevMove m
        let du := g.doMove m
        let res := recur du.1 rev tp (hist ++ [m]) cnt
        match res with
        | (.Unsolvable, g2, hist2, tp2, cnt2) =>
            solveList sign recur (g2.undoMove m du.2) revMove tp2
              hist2.dropLast cnt2 ms
        | other => other

/-- `solve` from `solver.rs` (lines 166-218), fuelled: the cancellation
signal is a predicate on the number of entries made so far (the Rust
signal is an atomic flag another thread may set at any time); the
transposition cache is an unbounded list of raw encodings (quick_cache's
bounded eviction only forgets entries and the bijective murmur mixer
only relabels keys — neither affects the exit paths); the statistics
calls are omitted (the spec forbids them from affecting semantics); fuel
exhaustion yields `Crashed` (the Rust analogue being stack overflow).
Returns (result, state, history, transposition list, entry count). -/
def solveAux (sign : Nat → Bool) :
    Nat → Solitaire → Option Move → List Nat → List Move → Nat →
      SearchResult × Solitaire × List Move × List Nat × Nat
  | 0, g, _, tp, hist, cnt => (.Crashed, g, hist, tp, cnt)
  | fuel + 1, g, revMove, tp, hist, cnt =>
      if sign cnt then (.Terminated, g, hist, tp, cnt) else
      if g.isWin then (.Solved, g, hist, tp, cnt + 1) else
      if g.encode ∈ tp then (.Unsolvable, g, hist, tp, cnt + 1) else
      solveList sign (solveAux sign fuel) g revMove (g.encode :: tp) hist
        (cnt + 1) (g.listMoves true)

/-- `solve_game` from `solver.rs`: fresh cache and history, root call
with no reverse move (the fuel stands for the machine stack). -/
def solveGame (sign : Nat → Bool) (fuel : Nat) (g : Solitaire) :
    SearchResult × Solitaire × List Move :=
  let r := solveAux sign fuel g none [] [] 0
  (r.1, r.2.1, r.2.2.1)

/-- The identity deal: cards 0..51 in order. -/
def deal0 : List Card := (List.range 52).map (fun i => ⟨i⟩)

/-- The fresh game on the identity deal with draw step 3. -/
def game0 : Solitaire := Solitaire.new deal0 3

/-- A cancellation signal that fires from the second recursion entry on. -/
def sig1 : Nat → Bool := fun cnt => 1 ≤ cnt

/-- A game with no cards left in play and empty foundations: no legal
moves, not winning — `solve` returns `Unsolvable` immediately. -/
def gameStuck : Solitaire :=
  { deck := { cards := [], drawStep := 1, drawCur := 0, mask := 0,
              map := List.replicate 52 255 }
    hidden := { hiddenPiles := [], nHidden := List.replicate 7 0,
                pileMap := List.replicate 52 0, firstLayerMask := 0 }
    cols := List.replicate 7 []
    finalStack := [0, 0, 0, 0] }

/-- A concrete standard game: empty piles, empty foundations, and a
one-card deck holding A♥, with draw step 1. -/
def stdGame0 : StandardSolitaire :=
  { hiddenP := List.replicate 7 []
    piles := List.replicate 7 []
    deck := Deck.new [⟨0⟩] 1
    stack := [0, 0, 0, 0] }

/-- A concrete 24-card stock (the cards a standard deal places in the
deck: values 28..51), used for concrete witnesses. -/
def deckCards0 : List Card := (List.range 24).map (fun i => ⟨28 + i⟩)

/-- A concrete 28-card hidden layout (values 0..27). -/
def hiddenCards0 : List Card := (List.range 28).map (fun i => ⟨i⟩)

/-- A second 28-card hidden layout (values 24..51), different cards but
the same pile counts as `hiddenCards0`. -/
def hiddenCards1 : List Card := (List.range 28).map (fun i => ⟨24 + i⟩)

/-- A concrete 21-card shuffle outcome for `Hidden::shuffle` (the seven
piles hold `28 - 7 = 21` non-top cards). -/
def shuffled0 : List Card := (List.range 21).map (fun i => ⟨20 - i⟩)

/-- The decks reachable from a valid construction (spec 2: 24 distinct
cards of the 52-card pack and a positive draw step, as handed to
`Deck::new` by the game constructor) by any sequence of deals
(`deal_once`) and in-range draws (`draw`). -/
inductive Deck.DReachable (cs : List Card) (k : Nat) : Deck → Prop where
  | base : cs.length = 24 → (cs.map Card.v).Nodup → (∀ c ∈ cs, c.v < 52) →
      1 ≤ k → Deck.DReachable cs k (Deck.new cs k)
  | deal : ∀ {d : Deck}, Deck.DReachable cs k d →
      Deck.DReachable cs k d.dealOnce
  | draw : ∀ {d : Deck} (id : Nat), Deck.DReachable cs k d → id < d.len →
      Deck.DReachable cs k (d.draw id).1

/-- The deck invariant maintained by deals and draws: the reverse map is
the one built from the deal, the draw step is the clamped request, the
cursor is in range, the mask is a 24-bit word whose set bits are exactly
the original slots whose card has left the deck, and the remaining cards
are a subsequence of the deal. -/
def DeckInv (cs : List Card) (k : Nat) (d : Deck) : Prop :=
  cs.length = 24 ∧
  (cs.map Card.v).Nodup ∧
  (∀ c ∈ cs, c.v < 52) ∧
  1 ≤ k ∧
  d.map = buildMap cs ∧
  d.drawStep = min 24 k ∧
  d.drawCur ≤ d.cards.length ∧
  d.mask < 2 ^ 24 ∧
  (∀ s, s < 24 → (d.mask.testBit s = true ↔ cs.getD s Card.FAKE ∉ d.cards)) ∧
  List.Sublist d.cards cs

/-! ## Theorems -/

/-- Helper: `a ≤ s * div_ceil(a, s)` for positive `s`. -/
theorem le_mul_rustDivCeil (a s : Nat) (hs : 1 ≤ s) : a ≤ s * rustDivCeil a s := by
  unfold rustDivCeil
  have h1 := Nat.div_add_mod (a + s - 1) s
  have h2 : (a + s - 1) % s < s := Nat.mod_lt _ hs
  set q := (a + s - 1) / s with hq
  set p := s * q with hp
  omega

/-- Helper: `div_ceil(a - s*q, s) = div_ceil(a, s) - q` when `s*q ≤ a`. -/
theorem rustDivCeil_sub_mul (a s q : Nat) (hs : 1 ≤ s) (h : s * q ≤ a) :
    rustDivCeil (a - s * q) s = rustDivCeil a s - q := by
  unfold rustDivCeil
  have h1 : a - s * q + s - 1 = (a + s - 1) - s * q := by omega
  rw [h1, Nat.sub_mul_div _ _ _ (by omega)]

/-- Helper: `div_ceil` is monotone in the numerator. -/
theorem rustDivCeil_mono (a b s : Nat) (h : a ≤ b) :
    rustDivCeil a s ≤ rustDivCeil b s :=
  Nat.div_le_div_right (by omega)

/-- C8: for every non-FAKE card, i.e. every value in `[0, 52)`,
`from_mask(card_mask(c)) = c`. -/
theorem card_from_mask_card_mask (c : Card) (h : c.v < 52) :
    fromMask (cardMask c) = c := by
  rcases c with ⟨v⟩
  revert h
  revert v
  decide

/-- Witness for C8 at the concrete card with value 37. -/
theorem card_from_mask_card_mask_witness :
    fromMask (cardMask ⟨37⟩) = (⟨37⟩ : Card) :=
  card_from_mask_card_mask ⟨37⟩ (by decide)


/-- Counterexample for C5: after a `DeckStack` move the code clears
`last_draw` to `None` (the `_` arm of the match in `PruneInfo::new`)
instead of carrying `Some(d)` forward as the claim states.  Concretely,
with `last_draw = Some(A♥)` and move `DeckStack(2♥)` the result is `None`. -/
theorem prune_last_draw_deckstack_counterexample :
    pruneLastDraw (some ⟨0⟩) (.DeckStack ⟨4⟩) = none ∧
      pruneLastDraw (some ⟨0⟩) (.DeckStack ⟨4⟩) ≠ some ⟨0⟩ := by
  constructor
  · rfl
  · decide

/-- C5 (amended): `DeckPile(c)` sets `last_draw` to `Some(c)`;
`StackPile(c)` clears a previous `Some(d)` iff `d.go_before(c)` and carries
it forward otherwise; `DeckStack` — like `PileStack` and `Reveal` — clears
`last_draw` to `None`; and when `last_draw` is `None`, every move other
than `DeckPile` leaves it `None`. -/
theorem prune_last_draw_spec :
    (∀ (prev : Option Card) (c : Card),
        pruneLastDraw prev (.DeckPile c) = some c) ∧
    (∀ (d c : Card),
        pruneLastDraw (some d) (.StackPile c)
          = if d.goBefore c then none else some d) ∧
    (∀ (d c : Card), pruneLastDraw (some d) (.DeckStack c) = none) ∧
    (∀ (m : Move), (∀ c, m ≠ .DeckPile c) → pruneLastDraw none m = none) := by
  refine ⟨fun prev c => rfl, fun d c => rfl, fun d c => rfl, fun m hm => ?_⟩
  cases m with
  | DeckPile c => exact absurd rfl (hm c)
  | DeckStack c => rfl
  | PileStack c => rfl
  | StackPile c => rfl
  | Reveal c => rfl

/-- Witness for C5 (amended) at concrete inputs: `last_draw = Some(A♥)`
with a `StackPile(2♠)` carries `Some(A♥)` forward (A♥ does not go before
2♠), and `last_draw = None` with a `Reveal` stays `None`. -/
theorem prune_last_draw_spec_witness :
    pruneLastDraw (some ⟨0⟩) (.StackPile ⟨7⟩) = some ⟨0⟩ ∧
      pruneLastDraw none (.Reveal ⟨9⟩) = none := by
  constructor
  · have h := prune_last_draw_spec.2.1 ⟨0⟩ ⟨7⟩
    simpa using h
  · exact prune_last_draw_spec.2.2.2 (.Reveal ⟨9⟩) (fun c h => by simp at h)

/-- Counterexample for C3: the cycle property fails for a cursor that is
not on a k-step boundary.  Drawing the card at position 4 of a fresh
step-3 deck leaves `draw_cur = 4`, `L = 23`; then
`offset(ceil(23/3)+1) = offset(9) = 3` while `offset(0) = 4`. -/
theorem deck_offset_cycle_counterexample :
    ((Deck.new deckCards0 3).draw 4).1.offset
        (rustDivCeil ((Deck.new deckCards0 3).draw 4).1.len
          ((Deck.new deckCards0 3).draw 4).1.drawStep + 1)
      ≠ ((Deck.new deckCards0 3).draw 4).1.offset 0 := by
  decide

/-- C3 (amended): for every deck with a positive draw step and an
in-range cursor, `offset(n)` lies in `[0, L]` for every `n`; the period
property `offset(ceil(L/k)+1) = offset(0)` holds for every *pure* deck
(cursor on a k-step boundary or with an empty stock — exactly the
positions reachable by deals); it fails for impure cursors. -/
theorem deck_offset_range_and_cycle (d : Deck) (hs : 1 ≤ d.drawStep)
    (hc : d.drawCur ≤ d.len) (n : Nat) :
    d.offset n ≤ d.len ∧
      (d.isPure → d.offset (rustDivCeil d.len d.drawStep + 1) = d.offset 0) := by
  have hform : ∀ m, d.offset m
      = min (if m ≤ rustDivCeil (d.len - d.drawCur) d.drawStep
          then d.drawCur + d.drawStep * m
          else d.drawStep * ((m - rustDivCeil (d.len - d.drawCur) d.drawStep - 1)
              % (rustDivCeil d.len d.drawStep + 1))) d.len := fun m => rfl
  constructor
  · rw [hform]
    exact Nat.min_le_right _ _
  · intro hp
    have hp2 : d.drawCur % d.drawStep = 0 ∨ d.drawCur = d.len := by
      simpa [Deck.isPure] using hp
    have h0 : d.offset 0 = d.drawCur := by
      rw [hform]
      simp [Nat.min_eq_left hc]
    have hn2e_le : rustDivCeil (d.len - d.drawCur) d.drawStep
        ≤ rustDivCeil d.len d.drawStep :=
      rustDivCeil_mono _ _ _ (by omega)
    have hLle := le_mul_rustDivCeil d.len d.drawStep hs
    rw [h0, hform]
    rw [if_neg (by omega)]
    rcases hp2 with h | h
    · obtain ⟨q, hq⟩ := Nat.dvd_of_mod_eq_zero h
      have hsq : d.drawStep * q ≤ d.len := by omega
      have hn2e : rustDivCeil (d.len - d.drawCur) d.drawStep
          = rustDivCeil d.len d.drawStep - q := by
        rw [hq, rustDivCeil_sub_mul _ _ _ hs hsq]
      have hqD : q ≤ rustDivCeil d.len d.drawStep := by
        have hmul : d.drawStep * q ≤ d.drawStep * rustDivCeil d.len d.drawStep := by
          omega
        exact Nat.le_of_mul_le_mul_left hmul (by omega)
      have harg : rustDivCeil d.len d.drawStep + 1
          - rustDivCeil (d.len - d.drawCur) d.drawStep - 1 = q := by omega
      rw [harg, Nat.mod_eq_of_lt (by omega), ← hq, Nat.min_eq_left hc]
    · have hn2e : rustDivCeil (d.len - d.drawCur) d.drawStep = 0 := by
        have hz : d.len - d.drawCur = 0 := by omega
        rw [hz]
        unfold rustDivCeil
        exact Nat.div_eq_of_lt (by omega)
      rw [hn2e]
      have harg : rustDivCeil d.len d.drawStep + 1 - 0 - 1
          = rustDivCeil d.len d.drawStep := by omega
      rw [harg, Nat.mod_eq_of_lt (by omega), Nat.min_eq_right hLle, h]

/-- Witness for C3 (amended) at the fresh step-3 deck (which is pure:
`draw_cur = 3`), with `n = 5`. -/
theorem deck_offset_range_and_cycle_witness :
    (Deck.new deckCards0 3).offset 5 ≤ (Deck.new deckCards0 3).len ∧
      ((Deck.new deckCards0 3).isPure →
        (Deck.new deckCards0 3).offset
            (rustDivCeil (Deck.new deckCards0 3).len
              (Deck.new deckCards0 3).drawStep + 1)
          = (Deck.new deckCards0 3).offset 0) :=
  deck_offset_range_and_cycle (Deck.new deckCards0 3) (by decide) (by decide) 5

/-- Counterexample for C6: `Deck::new` never returns an
`InvalidConstruction` error.  Requested draw step 30 (> 24) is silently
clamped by `min(N_FULL_DECK, draw_step)`, producing exactly the usable
deck built with step 24; step 0 is likewise accepted, yielding a deck
value with `draw_step = 0`. -/
theorem deck_new_no_invalid_construction_counterexample :
    Deck.new deckCards0 30 = Deck.new deckCards0 24 ∧
      (Deck.new deckCards0 0).drawStep = 0 ∧
      (Deck.new deckCards0 30).len = 24 := by
  decide

/-- C6 (amended): deck (and hence game) construction does not fail fast
on a bad draw step: `Deck::new` is total, returning for every requested
step `k` a deck with step `min(24, k)` and the given cards; for `k > 24`
this is exactly the step-24 deck, and `k = 0` is accepted as-is. -/
theorem deck_new_clamps (cs : List Card) (k : Nat) :
    (Deck.new cs k).drawStep = min 24 k ∧
      (24 < k → Deck.new cs k = Deck.new cs 24) ∧
      (Deck.new cs k).cards = cs := by
  refine ⟨rfl, fun h => ?_, rfl⟩
  unfold Deck.new
  have : min N_FULL_DECK k = min N_FULL_DECK 24 := by
    unfold N_FULL_DECK
    omega
  rw [this]

/-- Witness for C6 (amended) at requested step 30. -/
theorem deck_new_clamps_witness :
    (Deck.new deckCards0 30).drawStep = 24 ∧
      Deck.new deckCards0 30 = Deck.new deckCards0 24 := by
  refine ⟨?_, (deck_new_clamps deckCards0 30).2.1 (by decide)⟩
  have h := (deck_new_clamps deckCards0 30).1
  simpa using h

/-- C10: `Hidden::encode` depends only on the seven pile counts (equal
`n_hidden` arrays give equal encodings, whatever cards occupy the piles;
in particular a `Hidden` and any shuffle of it encode equally), and
`Hidden::decode` restores only the counts, leaving the stored cards (and
the reverse index) untouched. -/
theorem hidden_encode_counts_only :
    (∀ h1 h2 : Hidden, h1.nHidden = h2.nHidden → h1.encode = h2.encode) ∧
    (∀ (h : Hidden) (sh : List Card),
        (h.shuffleWith sh).encode = h.encode) ∧
    (∀ (h : Hidden) (e : Nat),
        (h.decode e).hiddenPiles = h.hiddenPiles ∧
        (h.decode e).pileMap = h.pileMap ∧
        (h.decode e).nHidden = decodeCountsFrom e 0 N_PILES) := by
  refine ⟨fun h1 h2 hn => ?_, fun h sh => ?_, fun h e => ⟨rfl, rfl, rfl⟩⟩
  · unfold Hidden.encode
    rw [hn]
  · unfold Hidden.encode Hidden.shuffleWith Hidden.updateMap
    rfl

/-- Witness for C10 at concrete inputs: the standard triangular deal over
cards 0..27 and the (entirely different) deal over cards 24..51 have
equal pile counts, hence equal encodings; a concrete shuffle outcome
leaves the encoding unchanged; decoding 1234 leaves the stored cards of
the first deal untouched. -/
theorem hidden_encode_counts_only_witness :
    (Hidden.new hiddenCards0).encode = (Hidden.new hiddenCards1).encode ∧
      ((Hidden.new hiddenCards0).shuffleWith shuffled0).encode
        = (Hidden.new hiddenCards0).encode ∧
      ((Hidden.new hiddenCards0).decode 1234).hiddenPiles
        = (Hidden.new hiddenCards0).hiddenPiles :=
  ⟨hidden_encode_counts_only.1 (Hidden.new hiddenCards0) (Hidden.new hiddenCards1)
      (by decide),
    hidden_encode_counts_only.2.1 (Hidden.new hiddenCards0) shuffled0,
    (hidden_encode_counts_only.2.2 (Hidden.new hiddenCards0) 1234).1⟩

/-- C9 (evaluating the code at its failing input): the `evaluate_move` of
analysis.rs lines 153-234 computes the style coefficient but never
multiplies it into the result, so under `PlayStyle::Neutral` the
heuristic score is bitwise identical — not doubled — when `neutral_coef`
is changed: for every config, feature set and probability the scores at
any two `neutral_coef` values agree, and at the default config a
revealing move scores 6 whether `neutral_coef` is 1 or 2, where the claim
(and `tests/style_coef.rs`) requires 12. -/
theorem evaluate_move_ignores_neutral_coef :
    (∀ (cfg : HeuristicConfig) (feat : MoveFeatures) (prob : ℚ) (a b : Int),
        evaluateMoveScore .Neutral { cfg with neutral_coef := a } feat prob
          = evaluateMoveScore .Neutral { cfg with neutral_coef := b } feat prob) ∧
      evaluateMoveScore .Neutral { HeuristicConfig.default with neutral_coef := 1 }
          featReveal0 1 = 6 ∧
      evaluateMoveScore .Neutral { HeuristicConfig.default with neutral_coef := 2 }
          featReveal0 1 = 6 ∧
      (6 : Int) ≠ 2 * 6 := by
  refine ⟨fun cfg feat prob a b => rfl, ?_, ?_, by decide⟩
  · show rustRoundQ ((5 : ℚ) * 1 + 1/2) = 6
    unfold rustRoundQ
    norm_num
  · show rustRoundQ ((5 : ℚ) * 1 + 1/2) = 6
    unfold rustRoundQ
    norm_num

/-! ### List helper lemmas -/

/-- Writing back the element already at a position is the identity. -/
theorem list_set_getD_self {α : Type} (l : List α) (i : Nat) (d : α) :
    l.set i (l.getD i d) = l := by
  induction l generalizing i with
  | nil => rfl
  | cons a t ih =>
      cases i with
      | zero => rfl
      | succ n =>
          show a :: t.set n ((a :: t).getD (n + 1) d) = a :: t
          have hg : (a :: t).getD (n + 1) d = t.getD n d := by
            simp [List.getD_eq_getElem?_getD]
          rw [hg, ih]

/-- `getD` after `set` at the same in-range position. -/
theorem list_getD_set_self {α : Type} (l : List α) (i : Nat) (x d : α)
    (h : i < l.length) : (l.set i x).getD i d = x := by
  simp [List.getD_eq_getElem?_getD, List.getElem?_set_self h]

/-- `getD` after `set` at a different position. -/
theorem list_getD_set_ne {α : Type} (l : List α) (i j : Nat) (x d : α)
    (h : i ≠ j) : (l.set i x).getD j d = l.getD j d := by
  simp [List.getD_eq_getElem?_getD, List.getElem?_set_ne h]

/-- Reinserting the removed element restores the list. -/
theorem list_insertIdx_eraseIdx_self {α : Type} (l : List α) (i : Nat) (c : α)
    (h : i < l.length) (hc : l.getD i c = c) :
    (l.eraseIdx i).insertIdx i c = l := by
  induction l generalizing i with
  | nil => simp at h
  | cons a t ih =>
      cases i with
      | zero =>
          have : (a :: t).getD 0 c = a := by simp
          rw [this] at hc
          subst hc
          rfl
      | succ n =>
          have h2 : n < t.length := by simpa using h
          have hc2 : t.getD n c = c := by
            simpa [List.getD_eq_getElem?_getD] using hc
          show List.insertIdx (n + 1) c (a :: t.eraseIdx n) = a :: t
          rw [List.insertIdx_succ_cons, ih n h2 hc2]

/-- `indexOf?` finds an in-range position holding the element. -/
theorem list_indexOf?_spec {α : Type} [DecidableEq α] (l : List α) (c : α)
    (i : Nat) (h : l.indexOf? c = some i) :
    i < l.length ∧ l.getD i c = c := by
  induction l generalizing i with
  | nil => simp [List.indexOf?] at h
  | cons a t ih =>
      by_cases hac : a = c
      · subst hac
        have h0 : (a :: t).indexOf? a = some 0 := by
          simp [List.indexOf?, List.findIdx?_cons]
        rw [h0] at h
        have h1 : (0 : Nat) = i := by injection h
        subst h1
        simp
      · have hbeq : (a == c) = false := beq_eq_false_iff_ne.mpr hac
        have hstep : (a :: t).indexOf? c = (t.indexOf? c).map (· + 1) := by
          simp [List.indexOf?, List.findIdx?_cons, hbeq]
        rw [hstep] at h
        cases hm : t.indexOf? c with
        | none => rw [hm] at h; simp at h
        | some n =>
            rw [hm] at h
            have h1 : n + 1 = i := by injection h
            subst h1
            obtain ⟨hl, hg⟩ := ih n hm
            constructor
            · simpa using hl
            · simpa [List.getD_eq_getElem?_getD] using hg

/-- Membership yields a successful `indexOf?`. -/
theorem list_indexOf?_isSome {α : Type} [DecidableEq α] (l : List α) (c : α)
    (h : c ∈ l) : (l.indexOf? c).isSome := by
  cases hm : l.indexOf? c with
  | some i => rfl
  | none =>
      rw [List.indexOf?_eq_none_iff] at hm
      have := hm c h
      simp at this

/-- Foundation counter: bumping then dropping restores the list. -/
theorem stack_inc_dec (st : List Nat) (su : Nat) :
    (st.set su (st.getD su 0 + 1)).set su
      ((st.set su (st.getD su 0 + 1)).getD su 0 - 1) = st := by
  by_cases h : su < st.length
  · rw [list_getD_set_self st su _ 0 h, Nat.add_sub_cancel, List.set_set,
      list_set_getD_self]
  · have hle : st.length ≤ su := Nat.le_of_not_lt h
    simp [List.set_eq_of_length_le hle]

/-- Foundation counter: dropping then bumping restores the list when the
counter is positive. -/
theorem stack_dec_inc (st : List Nat) (su : Nat) (hpos : 0 < st.getD su 0) :
    (st.set su (st.getD su 0 - 1)).set su
      ((st.set su (st.getD su 0 - 1)).getD su 0 + 1) = st := by
  have h : su < st.length := by
    by_contra hc
    have hle : st.length ≤ su := Nat.le_of_not_lt hc
    rw [List.getD_eq_getElem?_getD, List.getElem?_eq_none hle] at hpos
    simp at hpos
  rw [list_getD_set_self st su _ 0 h, Nat.sub_add_cancel hpos, List.set_set,
    list_set_getD_self]

/-! ### Move-generator inversion lemmas -/

/-- A position emitted by a `stepPositions` loop is below its bound. -/
theorem stepPositions_mem (start stop step i : Nat)
    (h : i ∈ stepPositions start stop step) : i + 1 < stop := by
  unfold stepPositions at h
  rw [List.mem_filter] at h
  have h2 := h.2
  simp only [decide_eq_true_eq] at h2
  exact h2.2.2

/-- A pair emitted by a mapped `stepPositions` chunk. -/
theorem mem_stepChunk (d : Deck) (start stop : Nat) (pos : Nat) (c : Card)
    (h : (pos, c) ∈ (stepPositions start stop d.drawStep).map
      (fun i => (i, d.cards.getD i Card.FAKE))) :
    pos + 1 < stop ∧ d.cards.getD pos Card.FAKE = c := by
  rw [List.mem_map] at h
  obtain ⟨i, hi, heq⟩ := h
  cases heq
  exact ⟨stepPositions_mem _ _ _ _ hi, rfl⟩

/-- Every pair visited by `iter_callback` is an in-range position of the
deck together with the card there. -/
theorem iterCallbackList_mem (d : Deck) (fl : Bool) (pos : Nat) (c : Card)
    (hcur : d.drawCur ≤ d.len)
    (h : (pos, c) ∈ d.iterCallbackList fl) :
    pos < d.len ∧ d.cards.getD pos Card.FAKE = c := by
  unfold Deck.iterCallbackList at h
  simp only [List.mem_append] at h
  rcases h with (((h | h) | h) | h) | h
  · split at h
    · simp at h
    · have := mem_stepChunk d _ _ _ _ h
      exact ⟨by omega, this.2⟩
  · split at h
    · rw [List.mem_singleton] at h
      cases h
      refine ⟨by omega, rfl⟩
    · simp at h
  · split at h
    · rw [List.mem_singleton] at h
      cases h
      refine ⟨by omega, rfl⟩
    · simp at h
  · have := mem_stepChunk d _ _ _ _ h
    exact ⟨by omega, this.2⟩
  · split at h
    · have := mem_stepChunk d _ _ _ _ h
      exact ⟨by omega, this.2⟩
    · simp at h

/-- Inversion: a `DeckStack(c)` of `list_moves` comes from a drawable
deck position holding `c` whose rank matches its foundation. -/
theorem listMoves_deckStack_inv (s : Solitaire) (dom : Bool) (c : Card)
    (h : Move.DeckStack c ∈ s.listMoves dom) :
    (∃ pos, (pos, c) ∈ s.deck.iterCallbackList dom) ∧ c.rank = s.fnd c.suit := by
  unfold Solitaire.listMoves at h
  simp only [List.mem_append] at h
  rcases h with ((h | h) | h) | h
  · unfold Solitaire.deckMoves at h
    rw [List.mem_append] at h
    rcases h with h | h
    · rw [List.mem_filterMap] at h
      obtain ⟨pc, hpc, hf⟩ := h
      split at hf
      · rename_i hcond
        injection hf with he
        injection he with he2
        subst he2
        exact ⟨⟨pc.1, hpc⟩, hcond⟩
      · simp at hf
    · rw [List.mem_filterMap] at h
      obtain ⟨pc, hpc, hf⟩ := h
      split at hf <;> simp at hf
  · unfold Solitaire.pileStackMoves at h
    rw [List.mem_filterMap] at h
    obtain ⟨j, hj, hf⟩ := h
    rcases hct : s.colTop j with _ | c2 <;> rw [hct] at hf
    · simp at hf
    · split at hf <;> simp at hf
  · unfold Solitaire.stackPileMoves at h
    rw [List.mem_filterMap] at h
    obtain ⟨su, hsu, hf⟩ := h
    split at hf
    · dsimp only at hf
      split at hf <;> simp at hf
    · simp at hf
  · unfold Solitaire.revealMoves at h
    rw [List.mem_filterMap] at h
    obtain ⟨j, hj, hf⟩ := h
    rcases hct : (s.cols.getD j []).head? with _ | c2 <;> rw [hct] at hf
    · simp at hf
    · split at hf <;> simp at hf

/-- Inversion: a `DeckPile(c)` of `list_moves` comes from a drawable deck
position holding `c` with a destination column. -/
theorem listMoves_deckPile_inv (s : Solitaire) (dom : Bool) (c : Card)
    (h : Move.DeckPile c ∈ s.listMoves dom) :
    (∃ pos, (pos, c) ∈ s.deck.iterCallbackList dom) ∧ (s.findDest c).isSome := by
  unfold Solitaire.listMoves at h
  simp only [List.mem_append] at h
  rcases h with ((h | h) | h) | h
  · unfold Solitaire.deckMoves at h
    rw [List.mem_append] at h
    rcases h with h | h
    · rw [List.mem_filterMap] at h
      obtain ⟨pc, hpc, hf⟩ := h
      split at hf <;> simp at hf
    · rw [List.mem_filterMap] at h
      obtain ⟨pc, hpc, hf⟩ := h
      split at hf
      · rename_i hcond
        injection hf with he
        injection he with he2
        subst he2
        exact ⟨⟨pc.1, hpc⟩, hcond⟩
      · simp at hf
  · unfold Solitaire.pileStackMoves at h
    rw [List.mem_filterMap] at h
    obtain ⟨j, hj, hf⟩ := h
    rcases hct : s.colTop j with _ | c2 <;> rw [hct] at hf
    · simp at hf
    · split at hf <;> simp at hf
  · unfold Solitaire.stackPileMoves at h
    rw [List.mem_filterMap] at h
    obtain ⟨su, hsu, hf⟩ := h
    split at hf
    · dsimp only at hf
      split at hf <;> simp at hf
    · simp at hf
  · unfold Solitaire.revealMoves at h
    rw [List.mem_filterMap] at h
    obtain ⟨j, hj, hf⟩ := h
    rcases hct : (s.cols.getD j []).head? with _ | c2 <;> rw [hct] at hf
    · simp at hf
    · split at hf <;> simp at hf

/-- Inversion: a `PileStack(c)` of `list_moves` comes from a column whose
visible top is `c`, with matching foundation rank. -/
theorem listMoves_pileStack_inv (s : Solitaire) (dom : Bool) (c : Card)
    (h : Move.PileStack c ∈ s.listMoves dom) :
    ∃ j, j < N_PILES ∧ s.colTop j = some c ∧ c.rank = s.fnd c.suit := by
  unfold Solitaire.listMoves at h
  simp only [List.mem_append] at h
  rcases h with ((h | h) | h) | h
  · unfold Solitaire.deckMoves at h
    rw [List.mem_append] at h
    rcases h with h | h <;>
      · rw [List.mem_filterMap] at h
        obtain ⟨pc, hpc, hf⟩ := h
        split at hf <;> simp at hf
  · unfold Solitaire.pileStackMoves at h
    rw [List.mem_filterMap] at h
    obtain ⟨j, hj, hf⟩ := h
    rcases hct : s.colTop j with _ | c2 <;> rw [hct] at hf
    · simp at hf
    · simp only [Option.some.injEq] at hf
      simp at hf
      obtain ⟨hcond, he⟩ := hf
      subst he
      exact ⟨j, by simpa using hj, hct, hcond⟩
  · unfold Solitaire.stackPileMoves at h
    rw [List.mem_filterMap] at h
    obtain ⟨su, hsu, hf⟩ := h
    split at hf
    · dsimp only at hf
      split at hf <;> simp at hf
    · simp at hf
  · unfold Solitaire.revealMoves at h
    rw [List.mem_filterMap] at h
    obtain ⟨j, hj, hf⟩ := h
    rcases hct : (s.cols.getD j []).head? with _ | c2 <;> rw [hct] at hf
    · simp at hf
    · split at hf <;> simp at hf

/-- Inversion: a `StackPile(c)` of `list_moves` takes the top card of a
non-empty foundation to an existing destination column. -/
theorem listMoves_stackPile_inv (s : Solitaire) (dom : Bool) (c : Card)
    (h : Move.StackPile c ∈ s.listMoves dom) :
    ∃ su, su < 4 ∧ 0 < s.fnd su ∧ c = Card.mk2 (s.fnd su - 1) su ∧
      (s.findDest c).isSome := by
  unfold Solitaire.listMoves at h
  simp only [List.mem_append] at h
  rcases h with ((h | h) | h) | h
  · unfold Solitaire.deckMoves at h
    rw [List.mem_append] at h
    rcases h with h | h <;>
      · rw [List.mem_filterMap] at h
        obtain ⟨pc, hpc, hf⟩ := h
        split at hf <;> simp at hf
  · unfold Solitaire.pileStackMoves at h
    rw [List.mem_filterMap] at h
    obtain ⟨j, hj, hf⟩ := h
    rcases hct : s.colTop j with _ | c2 <;> rw [hct] at hf
    · simp at hf
    · split at hf <;> simp at hf
  · unfold Solitaire.stackPileMoves at h
    rw [List.mem_filterMap] at h
    obtain ⟨su, hsu, hf⟩ := h
    split at hf
    · rename_i hpos
      dsimp only at hf
      split at hf
      · rename_i hdest
        injection hf with he
        injection he with he2
        exact ⟨su, by simpa using hsu, hpos, he2.symm, by rw [← he2]; exact hdest⟩
      · simp at hf
    · simp at hf
  · unfold Solitaire.revealMoves at h
    rw [List.mem_filterMap] at h
    obtain ⟨j, hj, hf⟩ := h
    rcases hct : (s.cols.getD j []).head? with _ | c2 <;> rw [hct] at hf
    · simp at hf
    · split at hf <;> simp at hf

/-- Inversion: a `Reveal(c)` of `list_moves` moves the run rooted at `c`
(the bottom of a column's face-up run) to a destination in another
column. -/
theorem listMoves_reveal_inv (s : Solitaire) (dom : Bool) (c : Card)
    (h : Move.Reveal c ∈ s.listMoves dom) :
    ∃ j, j < N_PILES ∧ (s.cols.getD j []).head? = some c ∧
      (s.findDestOther c j).isSome := by
  unfold Solitaire.listMoves at h
  simp only [List.mem_append] at h
  rcases h with ((h | h) | h) | h
  · unfold Solitaire.deckMoves at h
    rw [List.mem_append] at h
    rcases h with h | h <;>
      · rw [List.mem_filterMap] at h
        obtain ⟨pc, hpc, hf⟩ := h
        split at hf <;> simp at hf
  · unfold Solitaire.pileStackMoves at h
    rw [List.mem_filterMap] at h
    obtain ⟨j, hj, hf⟩ := h
    rcases hct : s.colTop j with _ | c2 <;> rw [hct] at hf
    · simp at hf
    · split at hf <;> simp at hf
  · unfold Solitaire.stackPileMoves at h
    rw [List.mem_filterMap] at h
    obtain ⟨su, hsu, hf⟩ := h
    split at hf
    · dsimp only at hf
      split at hf <;> simp at hf
    · simp at hf
  · unfold Solitaire.revealMoves at h
    rw [List.mem_filterMap] at h
    obtain ⟨j, hj, hf⟩ := h
    rcases hct : (s.cols.getD j []).head? with _ | c2 <;> rw [hct] at hf
    · simp at hf
    · simp at hf
      obtain ⟨hdest, he⟩ := hf
      subst he
      exact ⟨j, by simpa using hj, hct, hdest⟩

/-! ### Round-trip of do_move and undo_move -/

/-- Componentwise equality of decks. -/
theorem deckExt2 (a b : Deck) (h1 : a.cards = b.cards)
    (h2 : a.drawStep = b.drawStep) (h3 : a.drawCur = b.drawCur)
    (h4 : a.mask = b.mask) (h5 : a.map = b.map) : a = b := by
  cases a
  cases b
  cases h1
  cases h2
  cases h3
  cases h4
  cases h5
  rfl

/-- Componentwise equality of game states. -/
theorem solitaireExt2 (a b : Solitaire) (h1 : a.deck = b.deck)
    (h2 : a.hidden = b.hidden) (h3 : a.cols = b.cols)
    (h4 : a.finalStack = b.finalStack) : a = b := by
  cases a
  cases b
  cases h1
  cases h2
  cases h3
  cases h4
  rfl

/-- An in-range `getD` does not depend on the default. -/
theorem getD_default_irrel {α : Type} (l : List α) (i : Nat) (d1 d2 : α)
    (h : i < l.length) : l.getD i d1 = l.getD i d2 := by
  simp [List.getD_eq_getElem?_getD, List.getElem?_eq_getElem h]

/-- An in-range `getD` is a member. -/
theorem getD_mem {α : Type} (l : List α) (i : Nat) (d : α) (h : i < l.length) :
    l.getD i d ∈ l := by
  rw [List.getD_eq_getElem?_getD, List.getElem?_eq_getElem h]
  simp

/-- Drawing a card and pushing it back at the recorded cursor restores
the deck exactly. -/
theorem deck_draw_push_roundtrip (d : Deck) (c : Card) (id : Nat)
    (hid : d.findCard c = some id) :
    (((d.draw id).1.push c).setOffset d.drawCur) = d := by
  obtain ⟨hlt, hgd⟩ := list_indexOf?_spec d.cards c id hid
  apply deckExt2
  · show (((d.cards.eraseIdx id).insertIdx id c)) = d.cards
    exact list_insertIdx_eraseIdx_self d.cards id c hlt hgd
  · rfl
  · rfl
  · show (d.mask ^^^ 2 ^ (d.map.getD (d.cards.getD id Card.FAKE).v 255))
        ^^^ 2 ^ (d.map.getD c.v 255) = d.mask
    rw [getD_default_irrel d.cards id Card.FAKE c hlt, hgd, Nat.xor_cancel_right]
  · rfl

/-- Round-trip for `DeckStack`. -/
theorem roundtrip_deckStack (s : Solitaire) (dom : Bool) (c : Card)
    (hcur : s.deck.drawCur ≤ s.deck.len)
    (hm : Move.DeckStack c ∈ s.listMoves dom) :
    ((s.doMove (Move.DeckStack c)).1).undoMove (Move.DeckStack c)
      (s.doMove (Move.DeckStack c)).2 = s := by
  obtain ⟨⟨pos, hpos⟩, _⟩ := listMoves_deckStack_inv s dom c hm
  obtain ⟨hplen, hpcard⟩ := iterCallbackList_mem _ _ _ _ hcur hpos
  have hcmem : c ∈ s.deck.cards := by
    rw [← hpcard]
    exact getD_mem _ _ _ hplen
  obtain ⟨id, hid⟩ := Option.isSome_iff_exists.mp (list_indexOf?_isSome _ _ hcmem)
  have hdo : s.doMove (Move.DeckStack c)
      = ({ s with deck := (s.deck.draw id).1,
                  finalStack := s.finalStack.set c.suit (s.fnd c.suit + 1) },
          ⟨s.deck.drawCur, none⟩) := by
    simp only [Solitaire.doMove]
    rw [show s.deck.findCard c = some id from hid]
  rw [hdo]
  show Solitaire.undoMove _ (Move.DeckStack c) _ = s
  simp only [Solitaire.undoMove]
  apply solitaireExt2
  · show ((s.deck.draw id).1.push c).setOffset s.deck.drawCur = s.deck
    exact deck_draw_push_roundtrip s.deck c id hid
  · rfl
  · rfl
  · show (s.finalStack.set c.suit (s.fnd c.suit + 1)).set c.suit
        ((Solitaire.fnd _ c.suit) - 1) = s.finalStack
    simp only [Solitaire.fnd]
    exact stack_inc_dec s.finalStack c.suit

/-- `find?` over a range returns the unique index satisfying the
predicate. -/
theorem find?_range_unique (n : Nat) (p : Nat → Bool) (j : Nat) (hj : j < n)
    (hpj : p j = true) (huniq : ∀ i, i < n → p i = true → i = j) :
    (List.range n).find? p = some j := by
  cases hf : (List.range n).find? p with
  | none =>
      have := List.find?_eq_none.mp hf j (List.mem_range.mpr hj)
      simp [hpj] at this
  | some a =>
      have h1 := List.find?_some hf
      have h2 := List.mem_of_find?_eq_some hf
      rw [List.mem_range] at h2
      rw [huniq a h2 h1]

/-- A card of the deck is on no visible column. -/
theorem deck_card_not_in_cols (s : Solitaire) (hnd : s.allCards.Nodup)
    (c : Card) (hc : c ∈ s.deck.cards) : c ∉ s.cols.flatten := by
  unfold Solitaire.allCards at hnd
  rw [List.nodup_append] at hnd
  intro hmem
  exact hnd.2.2 (List.mem_append_left _ hmem) hc

/-- A card of a column belongs to the flattened tableau. -/
theorem mem_col_mem_flatten (s : Solitaire) (j : Nat) (c : Card)
    (hc : c ∈ s.cols.getD j []) : c ∈ s.cols.flatten := by
  by_cases h : j < s.cols.length
  · rw [List.getD_eq_getElem?_getD, List.getElem?_eq_getElem h] at hc
    exact List.mem_flatten.mpr ⟨_, List.getElem_mem h, hc⟩
  · rw [List.getD_eq_getElem?_getD, List.getElem?_eq_none (Nat.le_of_not_lt h)] at hc
    simp at hc

/-- Round-trip for `DeckPile`. -/
theorem roundtrip_deckPile (s : Solitaire) (dom : Bool) (c : Card)
    (hnd : s.allCards.Nodup) (hlen : s.cols.length = N_PILES)
    (hcur : s.deck.drawCur ≤ s.deck.len)
    (hm : Move.DeckPile c ∈ s.listMoves dom) :
    ((s.doMove (Move.DeckPile c)).1).undoMove (Move.DeckPile c)
      (s.doMove (Move.DeckPile c)).2 = s := by
  obtain ⟨⟨pos, hpos⟩, hdest⟩ := listMoves_deckPile_inv s dom c hm
  obtain ⟨hplen, hpcard⟩ := iterCallbackList_mem _ _ _ _ hcur hpos
  have hcmem : c ∈ s.deck.cards := by
    rw [← hpcard]
    exact getD_mem _ _ _ hplen
  obtain ⟨id, hid⟩ := Option.isSome_iff_exists.mp (list_indexOf?_isSome _ _ hcmem)
  obtain ⟨j, hj⟩ := Option.isSome_iff_exists.mp hdest
  have hjlt : j < N_PILES := by
    have := List.mem_of_find?_eq_some hj
    rwa [List.mem_range] at this
  have hnotin : c ∉ s.cols.flatten := deck_card_not_in_cols s hnd c hcmem
  have hdo : s.doMove (Move.DeckPile c)
      = ({ s with deck := (s.deck.draw id).1,
                  cols := s.cols.set j ((s.cols.getD j []) ++ [c]) },
          ⟨s.deck.drawCur, none⟩) := by
    simp only [Solitaire.doMove]
    rw [show s.deck.findCard c = some id from hid,
      show s.findDest c = some j from hj]
  rw [hdo]
  show Solitaire.undoMove _ (Move.DeckPile c) _ = s
  simp only [Solitaire.undoMove]
  have hgdj : (s.cols.set j ((s.cols.getD j []) ++ [c])).getD j []
      = (s.cols.getD j []) ++ [c] :=
    list_getD_set_self _ _ _ _ (by omega)
  have hfind : (List.range N_PILES).find?
      (fun j2 => ((s.cols.set j ((s.cols.getD j []) ++ [c])).getD j2 []).getLast?
        == some c) = some j := by
    apply find?_range_unique
    · exact hjlt
    · rw [hgdj, List.getLast?_concat]
      simp
    · intro i hi hpi
      by_contra hne
      rw [list_getD_set_ne _ _ _ _ _ (fun he => hne he.symm)] at hpi
      have hlast : (s.cols.getD i []).getLast? = some c := by simpa using hpi
      have hcmem2 : c ∈ s.cols.getD i [] := by
        have := List.dropLast_append_getLast? c hlast
        rw [← this]
        simp
      exact hnotin (mem_col_mem_flatten s i c hcmem2)
  rw [hfind]
  apply solitaireExt2
  · show ((s.deck.draw id).1.push c).setOffset s.deck.drawCur = s.deck
    exact deck_draw_push_roundtrip s.deck c id hid
  · rfl
  · show (s.cols.set j ((s.cols.getD j []) ++ [c])).set j
        ((s.cols.set j ((s.cols.getD j []) ++ [c])).getD j []).dropLast = s.cols
    rw [hgdj, List.dropLast_concat, List.set_set, list_set_getD_self]
  · rfl

/-- Componentwise equality of hidden piles. -/
theorem hiddenExt2 (a b : Hidden) (h1 : a.hiddenPiles = b.hiddenPiles)
    (h2 : a.nHidden = b.nHidden) (h3 : a.pileMap = b.pileMap)
    (h4 : a.firstLayerMask = b.firstLayerMask) : a = b := by
  cases a
  cases b
  cases h1
  cases h2
  cases h3
  cases h4
  rfl

/-- A peekable hidden pile has a positive count. -/
theorem hidden_peek_pos (hid : Hidden) (j : Nat) (h : (hid.peek j).isSome) :
    0 < hid.nHidden.getD j 0 := by
  rcases Nat.eq_zero_or_pos (hid.nHidden.getD j 0) with h0 | h0
  · unfold Hidden.peek Hidden.get at h
    rw [h0] at h
    simp at h
  · exact h0

/-- `unpop` undoes `pop` exactly (both only touch the count). -/
theorem hidden_pop_unpop (hid : Hidden) (j : Nat)
    (hpos : 0 < hid.nHidden.getD j 0) :
    ((hid.pop j).1).unpop j = hid := by
  have hjlt : j < hid.nHidden.length := by
    by_contra hc
    rw [List.getD_eq_getElem?_getD,
      List.getElem?_eq_none (Nat.le_of_not_lt hc)] at hpos
    simp at hpos
  apply hiddenExt2
  · rfl
  · show (hid.nHidden.set j (hid.nHidden.getD j 0 - 1)).set j
        ((hid.nHidden.set j (hid.nHidden.getD j 0 - 1)).getD j 0 + 1)
        = hid.nHidden
    rw [list_getD_set_self _ _ _ _ hjlt, Nat.sub_add_cancel hpos, List.set_set,
      list_set_getD_self]
  · rfl
  · rfl

/-- A list with empty `dropLast` and last element `c` is `[c]`. -/
theorem eq_singleton_of_dropLast_nil {α : Type} (l : List α) (c : α)
    (h1 : l.dropLast = []) (h2 : l.getLast? = some c) : l = [c] := by
  have h3 := List.dropLast_append_getLast? c h2
  rw [h1] at h3
  simpa using h3.symm

/-- Round-trip for `PileStack`. -/
theorem roundtrip_pileStack (s : Solitaire) (dom : Bool) (c : Card)
    (hlen : s.cols.length = N_PILES)
    (hm : Move.PileStack c ∈ s.listMoves dom) :
    ((s.doMove (Move.PileStack c)).1).undoMove (Move.PileStack c)
      (s.doMove (Move.PileStack c)).2 = s := by
  obtain ⟨j0, hj0lt, hj0top, _⟩ := listMoves_pileStack_inv s dom c hm
  have hfindSome : ((List.range N_PILES).find?
      (fun j => (s.cols.getD j []).getLast? == some c)).isSome := by
    rw [List.find?_isSome]
    refine ⟨j0, List.mem_range.mpr hj0lt, ?_⟩
    simp only [beq_iff_eq]
    exact hj0top
  obtain ⟨j, hj⟩ := Option.isSome_iff_exists.mp hfindSome
  have hpj : (s.cols.getD j []).getLast? = some c := by
    have := List.find?_some hj
    simpa using this
  have hjlt : j < N_PILES := by
    have := List.mem_of_find?_eq_some hj
    rwa [List.mem_range] at this
  have hjlen : j < s.cols.length := by omega
  cases hrest : (s.cols.getD j []).dropLast.isEmpty with
  | true =>
      cases hpeek : s.hidden.peek j with
      | some h =>
          have hdo : s.doMove (Move.PileStack c)
              = ({ s with
                    hidden := (s.hidden.pop j).1,
                    cols := (s.cols.set j (s.cols.getD j []).dropLast).set j [h],
                    finalStack := s.finalStack.set c.suit (s.fnd c.suit + 1) },
                  ⟨j, some h⟩) := by
            simp only [Solitaire.doMove]
            rw [hj]
            dsimp only
            rw [hrest, hpeek]
            simp
          rw [hdo]
          show Solitaire.undoMove _ (Move.PileStack c) _ = s
          simp only [Solitaire.undoMove]
          apply solitaireExt2
          · rfl
          · show ((s.hidden.pop j).1).unpop j = s.hidden
            exact hidden_pop_unpop s.hidden j
              (hidden_peek_pos s.hidden j (by simp [hpeek]))
          · show ((s.cols.set j (s.cols.getD j []).dropLast).set j [h]).set j [c]
                = s.cols
            rw [List.set_set, List.set_set]
            have hcol : s.cols.getD j [] = [c] :=
              eq_singleton_of_dropLast_nil _ _ (List.isEmpty_iff.mp hrest) hpj
            rw [← hcol, list_set_getD_self]
          · show (s.finalStack.set c.suit (s.fnd c.suit + 1)).set c.suit
                ((Solitaire.fnd _ c.suit) - 1) = s.finalStack
            simp only [Solitaire.fnd]
            exact stack_inc_dec s.finalStack c.suit
      | none =>
          have hdo : s.doMove (Move.PileStack c)
              = ({ s with
                    cols := s.cols.set j (s.cols.getD j []).dropLast,
                    finalStack := s.finalStack.set c.suit (s.fnd c.suit + 1) },
                  ⟨j, none⟩) := by
            simp only [Solitaire.doMove]
            rw [hj]
            dsimp only
            rw [hrest, hpeek]
            simp
          rw [hdo]
          show Solitaire.undoMove _ (Move.PileStack c) _ = s
          simp only [Solitaire.undoMove]
          apply solitaireExt2
          · rfl
          · rfl
          · show (s.cols.set j (s.cols.getD j []).dropLast).set j
                (((s.cols.set j (s.cols.getD j []).dropLast).getD j []) ++ [c])
                = s.cols
            rw [list_getD_set_self _ _ _ _ hjlen, List.set_set,
              List.dropLast_append_getLast? c hpj, list_set_getD_self]
          · show (s.finalStack.set c.suit (s.fnd c.suit + 1)).set c.suit
                ((Solitaire.fnd _ c.suit) - 1) = s.finalStack
            simp only [Solitaire.fnd]
            exact stack_inc_dec s.finalStack c.suit
  | false =>
      have hdo : s.doMove (Move.PileStack c)
          = ({ s with
                cols := s.cols.set j (s.cols.getD j []).dropLast,
                finalStack := s.finalStack.set c.suit (s.fnd c.suit + 1) },
              ⟨j, none⟩) := by
        simp only [Solitaire.doMove]
        rw [hj]
        dsimp only
        rw [hrest]
        simp
      rw [hdo]
      show Solitaire.undoMove _ (Move.PileStack c) _ = s
      simp only [Solitaire.undoMove]
      apply solitaireExt2
      · rfl
      · rfl
      · show (s.cols.set j (s.cols.getD j []).dropLast).set j
            (((s.cols.set j (s.cols.getD j []).dropLast).getD j []) ++ [c])
            = s.cols
        rw [list_getD_set_self _ _ _ _ hjlen, List.set_set,
          List.dropLast_append_getLast? c hpj, list_set_getD_self]
      · show (s.finalStack.set c.suit (s.fnd c.suit + 1)).set c.suit
            ((Solitaire.fnd _ c.suit) - 1) = s.finalStack
        simp only [Solitaire.fnd]
        exact stack_inc_dec s.finalStack c.suit

/-- Round-trip for `StackPile`. -/
theorem roundtrip_stackPile (s : Solitaire) (dom : Bool) (c : Card)
    (hlen : s.cols.length = N_PILES)
    (hm : Move.StackPile c ∈ s.listMoves dom) :
    ((s.doMove (Move.StackPile c)).1).undoMove (Move.StackPile c)
      (s.doMove (Move.StackPile c)).2 = s := by
  obtain ⟨su, hsu, hpos, hceq, hdest⟩ := listMoves_stackPile_inv s dom c hm
  have hsuit : c.suit = su := by
    rw [hceq]
    show (((s.fnd su - 1) * 4 + su) % 4) = su
    omega
  obtain ⟨j, hj⟩ := Option.isSome_iff_exists.mp hdest
  have hjlt : j < N_PILES := by
    have := List.mem_of_find?_eq_some hj
    rwa [List.mem_range] at this
  have hjlen : j < s.cols.length := by omega
  have hdo : s.doMove (Move.StackPile c)
      = ({ s with cols := s.cols.set j ((s.cols.getD j []) ++ [c]),
                  finalStack := s.finalStack.set c.suit (s.fnd c.suit - 1) },
          ⟨j, none⟩) := by
    simp only [Solitaire.doMove]
    rw [show s.findDest c = some j from hj]
  rw [hdo]
  show Solitaire.undoMove _ (Move.StackPile c) _ = s
  simp only [Solitaire.undoMove]
  apply solitaireExt2
  · rfl
  · rfl
  · show (s.cols.set j ((s.cols.getD j []) ++ [c])).set j
        (((s.cols.set j ((s.cols.getD j []) ++ [c])).getD j []).dropLast) = s.cols
    rw [list_getD_set_self _ _ _ _ hjlen, List.dropLast_concat, List.set_set,
      list_set_getD_self]
  · show (s.finalStack.set c.suit (s.fnd c.suit - 1)).set c.suit
        ((Solitaire.fnd _ c.suit) + 1) = s.finalStack
    simp only [Solitaire.fnd]
    exact stack_dec_inc s.finalStack c.suit (by rw [hsuit]; exact hpos)

/-- A head is a member. -/
theorem mem_of_head?_eq {α : Type} (l : List α) (c : α) (h : l.head? = some c) :
    c ∈ l := by
  cases l with
  | nil => simp at h
  | cons a t =>
      simp at h
      subst h
      simp

/-- A last element is a member. -/
theorem mem_of_getLast?_eq {α : Type} (l : List α) (c : α)
    (h : l.getLast? = some c) : c ∈ l := by
  have := List.dropLast_append_getLast? c h
  rw [← this]
  simp

/-- In a duplicate-free list of lists an element pins down its list. -/
theorem nodup_flatten_unique {α : Type} (L : List (List α))
    (hnd : L.flatten.Nodup) (c : α) (i1 i2 : Nat)
    (hi1 : i1 < L.length) (hi2 : i2 < L.length)
    (h1 : c ∈ L.getD i1 []) (h2 : c ∈ L.getD i2 []) : i1 = i2 := by
  rw [List.getD_eq_getElem?_getD, List.getElem?_eq_getElem hi1] at h1
  rw [List.getD_eq_getElem?_getD, List.getElem?_eq_getElem hi2] at h2
  simp only [Option.getD_some] at h1 h2
  by_contra hne
  rw [List.nodup_flatten] at hnd
  have hpw := hnd.2
  rw [List.pairwise_iff_getElem] at hpw
  rcases Nat.lt_or_ge i1 i2 with hlt | hge
  · exact hpw i1 i2 hi1 hi2 hlt h1 h2
  · have hlt2 : i2 < i1 := by omega
    exact hpw i2 i1 hi2 hi1 hlt2 h2 h1

/-- The flattened tableau is duplicate-free under the state invariant. -/
theorem cols_flatten_nodup (s : Solitaire) (hnd : s.allCards.Nodup) :
    s.cols.flatten.Nodup := by
  unfold Solitaire.allCards at hnd
  exact (hnd.of_append_left).of_append_left

/-- A visible card is never an active hidden card. -/
theorem cols_hidden_disjoint (s : Solitaire) (hnd : s.allCards.Nodup)
    (c : Card) (hc : c ∈ s.cols.flatten) (hh : c ∈ s.activeHidden) : False := by
  unfold Solitaire.allCards at hnd
  have h1 : (s.cols.flatten ++ s.activeHidden).Nodup := hnd.of_append_left
  rw [List.nodup_append] at h1
  exact h1.2.2 hc hh

/-- A peeked card lives among the active hidden cards. -/
theorem peek_mem_activeHidden (s : Solitaire) (j : Nat) (hj : j < N_PILES)
    (h : Card) (hp : s.hidden.peek j = some h) : h ∈ s.activeHidden := by
  unfold Solitaire.activeHidden
  rw [List.mem_flatten]
  refine ⟨s.hidden.get j, ?_, ?_⟩
  · exact List.mem_map.mpr ⟨j, List.mem_range.mpr hj, rfl⟩
  · exact mem_of_getLast?_eq _ _ hp

/-- `indexOf` of the head of the right part of an append. -/
theorem indexOf_append_head {α : Type} [DecidableEq α] (l1 l2 : List α)
    (c : α) (hne : c ∉ l1) (hhd : l2.head? = some c) :
    (l1 ++ l2).indexOf c = l1.length := by
  induction l1 with
  | nil =>
      cases l2 with
      | nil => simp at hhd
      | cons a t =>
          simp at hhd
          subst hhd
          simp [List.indexOf_cons]
  | cons a t ih =>
      have hac : (a == c) = false := by
        simp only [beq_eq_false_iff_ne]
        intro he
        exact hne (he ▸ List.mem_cons_self a t)
      have ht : c ∉ t := fun hmem => hne (List.mem_cons_of_mem a hmem)
      simp [List.indexOf_cons, hac, ih ht]

/-- Writing the original entries back at two positions restores a list
that differed from the original only there. -/
theorem restore_two {α : Type} (L M : List (List α)) (j j2 : Nat)
    (hlen : M.length = L.length)
    (hagree : ∀ n, n ≠ j → n ≠ j2 → M[n]? = L[n]?)
    (hj : j < L.length) (hj2 : j2 < L.length) :
    (M.set j2 (L.getD j2 [])).set j (L.getD j []) = L := by
  apply List.ext_getElem?
  intro n
  by_cases h1 : n = j
  · subst h1
    rw [List.getElem?_set_self (by simp [hlen]; exact hj)]
    rw [List.getD_eq_getElem?_getD, List.getElem?_eq_getElem hj]
    rfl
  · rw [List.getElem?_set_ne (Ne.symm h1)]
    by_cases h2 : n = j2
    · subst h2
      rw [List.getElem?_set_self (by rw [hlen]; exact hj2)]
      rw [List.getD_eq_getElem?_getD, List.getElem?_eq_getElem hj2]
      rfl
    · rw [List.getElem?_set_ne (Ne.symm h2)]
      exact hagree n h1 h2

/-- Round-trip for `Reveal`. -/
theorem roundtrip_reveal (s : Solitaire) (dom : Bool) (c : Card)
    (hnd : s.allCards.Nodup) (hlen : s.cols.length = N_PILES)
    (hm : Move.Reveal c ∈ s.listMoves dom) :
    ((s.doMove (Move.Reveal c)).1).undoMove (Move.Reveal c)
      (s.doMove (Move.Reveal c)).2 = s := by
  obtain ⟨j0, hj0lt, hj0hd, hdest0⟩ := listMoves_reveal_inv s dom c hm
  have hfindSome : ((List.range N_PILES).find?
      (fun j => (s.cols.getD j []).head? == some c)).isSome := by
    rw [List.find?_isSome]
    exact ⟨j0, List.mem_range.mpr hj0lt, by simp only [beq_iff_eq]; exact hj0hd⟩
  obtain ⟨j, hj⟩ := Option.isSome_iff_exists.mp hfindSome
  have hjhd : (s.cols.getD j []).head? = some c := by
    have := List.find?_some hj
    simpa using this
  have hjlt : j < N_PILES := by
    have := List.mem_of_find?_eq_some hj
    rwa [List.mem_range] at this
  have hjlen : j < s.cols.length := by omega
  have hfnd := cols_flatten_nodup s hnd
  have hjj0 : j = j0 :=
    nodup_flatten_unique s.cols hfnd c j j0 hjlen (by omega)
      (mem_of_head?_eq _ _ hjhd) (mem_of_head?_eq _ _ hj0hd)
  rw [← hjj0] at hdest0
  obtain ⟨j2, hj2⟩ := Option.isSome_iff_exists.mp hdest0
  have hj2lt : j2 < N_PILES := by
    have := List.mem_of_find?_eq_some hj2
    rwa [List.mem_range] at this
  have hj2len : j2 < s.cols.length := by omega
  have hne2 : j2 ≠ j := by
    have := List.find?_some hj2
    rw [Bool.and_eq_true] at this
    simpa using this.1
  have hcrun : c ∈ s.cols.getD j [] := mem_of_head?_eq _ _ hjhd
  have hcj2 : c ∉ s.cols.getD j2 [] := by
    intro hmem
    exact hne2 (nodup_flatten_unique s.cols hfnd c j2 j hj2len hjlen hmem hcrun)
  have hidx : ((s.cols.getD j2 []) ++ (s.cols.getD j [])).indexOf c
      = (s.cols.getD j2 []).length :=
    indexOf_append_head _ _ c hcj2 hjhd
  have hdropX : ((s.cols.getD j2 []) ++ (s.cols.getD j [])).drop
      (s.cols.getD j2 []).length = s.cols.getD j [] := List.drop_left _ _
  have htakeX : ((s.cols.getD j2 []) ++ (s.cols.getD j [])).take
      (s.cols.getD j2 []).length = s.cols.getD j2 [] := List.take_left _ _
  cases hpeek : s.hidden.peek j with
  | some h =>
      have hdo : s.doMove (Move.Reveal c)
          = ({ s with
                hidden := (s.hidden.pop j).1,
                cols := ((s.cols.set j []).set j2
                    ((s.cols.getD j2 []) ++ (s.cols.getD j []))).set j [h] },
              ⟨j, some h⟩) := by
        simp only [Solitaire.doMove]
        rw [hj]
        dsimp only
        rw [hj2]
        dsimp only
        rw [hpeek]
      rw [hdo]
      show Solitaire.undoMove _ (Move.Reveal c) _ = s
      simp only [Solitaire.undoMove]
      have hgd2 : ((((s.cols.set j []).set j2
          ((s.cols.getD j2 []) ++ (s.cols.getD j []))).set j [h]).getD j2 [])
          = (s.cols.getD j2 []) ++ (s.cols.getD j []) := by
        rw [list_getD_set_ne _ _ _ _ _ (Ne.symm hne2),
          list_getD_set_self _ _ _ _ (by simpa using hj2len)]
      have hfind2 : (List.range N_PILES).find?
          (fun jj => ((((s.cols.set j []).set j2
            ((s.cols.getD j2 []) ++ (s.cols.getD j []))).set j [h]).getD jj
              []).contains c) = some j2 := by
        apply find?_range_unique _ _ _ hj2lt
        · rw [hgd2]
          simp only [List.contains, List.elem_eq_mem, decide_eq_true_eq]
          exact List.mem_append_right _ hcrun
        · intro i hi hpi
          by_cases hij : i = j
          · exfalso
            subst hij
            rw [list_getD_set_self _ _ _ _ (by simpa using hjlen)] at hpi
            simp only [List.contains, List.elem_eq_mem, decide_eq_true_eq,
              List.mem_singleton] at hpi
            subst hpi
            exact cols_hidden_disjoint s hnd _
              (mem_col_mem_flatten s _ _ hcrun)
              (peek_mem_activeHidden s _ hjlt _ hpeek)
          · by_cases hij2 : i = j2
            · exact hij2
            · exfalso
              rw [list_getD_set_ne _ _ _ _ _ (Ne.symm hij),
                list_getD_set_ne _ _ _ _ _ (Ne.symm hij2),
                list_getD_set_ne _ _ _ _ _ (Ne.symm hij)] at hpi
              simp only [List.contains, List.elem_eq_mem, decide_eq_true_eq] at hpi
              exact hij (nodup_flatten_unique s.cols hfnd c i j (by omega)
                hjlen hpi hcrun)
      rw [hfind2]
      dsimp only
      rw [hgd2, hidx, hdropX, htakeX]
      apply solitaireExt2
      · rfl
      · show ((s.hidden.pop j).1).unpop j = s.hidden
        exact hidden_pop_unpop s.hidden j
          (hidden_peek_pos s.hidden j (by simp [hpeek]))
      · apply restore_two _ _ _ _ (by simp) _ hjlen hj2len
        intro n hn1 hn2
        rw [List.getElem?_set_ne (Ne.symm hn1),
          List.getElem?_set_ne (Ne.symm hn2),
          List.getElem?_set_ne (Ne.symm hn1)]
      · rfl
  | none =>
      have hdo : s.doMove (Move.Reveal c)
          = ({ s with
                cols := (s.cols.set j []).set j2
                    ((s.cols.getD j2 []) ++ (s.cols.getD j [])) },
              ⟨j, none⟩) := by
        simp only [Solitaire.doMove]
        rw [hj]
        dsimp only
        rw [hj2]
        dsimp only
        rw [hpeek]
      rw [hdo]
      show Solitaire.undoMove _ (Move.Reveal c) _ = s
      simp only [Solitaire.undoMove]
      have hgd2 : (((s.cols.set j []).set j2
          ((s.cols.getD j2 []) ++ (s.cols.getD j []))).getD j2 [])
          = (s.cols.getD j2 []) ++ (s.cols.getD j []) :=
        list_getD_set_self _ _ _ _ (by simpa using hj2len)
      have hfind2 : (List.range N_PILES).find?
          (fun jj => (((s.cols.set j []).set j2
            ((s.cols.getD j2 []) ++ (s.cols.getD j []))).getD jj
              []).contains c) = some j2 := by
        apply find?_range_unique _ _ _ hj2lt
        · rw [hgd2]
          simp only [List.contains, List.elem_eq_mem, decide_eq_true_eq]
          exact List.mem_append_right _ hcrun
        · intro i hi hpi
          by_cases hij : i = j
          · exfalso
            subst hij
            rw [list_getD_set_ne _ _ _ _ _ hne2,
              list_getD_set_self _ _ _ _ (by simpa using hjlen)] at hpi
            simp at hpi
          · by_cases hij2 : i = j2
            · exact hij2
            · exfalso
              rw [list_getD_set_ne _ _ _ _ _ (Ne.symm hij2),
                list_getD_set_ne _ _ _ _ _ (Ne.symm hij)] at hpi
              simp only [List.contains, List.elem_eq_mem, decide_eq_true_eq] at hpi
              exact hij (nodup_flatten_unique s.cols hfnd c i j (by omega)
                hjlen hpi hcrun)
      rw [hfind2]
      dsimp only
      rw [hgd2, hidx, hdropX, htakeX]
      apply solitaireExt2
      · rfl
      · rfl
      · apply restore_two _ _ _ _ (by simp) _ hjlen hj2len
        intro n hn1 hn2
        rw [List.getElem?_set_ne (Ne.symm hn2),
          List.getElem?_set_ne (Ne.symm hn1)]
      · rfl

/-- Counterexample for C7: conversion of a sequence whose *second* move
is invalid returns InvalidMove but leaves the game changed: from a game
with A♥ on the deck, `[DeckStack(A♥), DeckStack(A♥)]` applies the first
move (the ace reaches the foundation, the deck shrinks) before the second
fails, so the returned state differs from the initial one. -/
theorem convert_moves_state_changed_counterexample :
    (convertMoves stdGame0 [.DeckStack ⟨0⟩, .DeckStack ⟨0⟩]).1 = none ∧
      (convertMoves stdGame0 [.DeckStack ⟨0⟩, .DeckStack ⟨0⟩]).2 ≠ stdGame0 := by
  decide

/-- C7 (amended): `convert_move` itself never mutates the game (it only
reads it), and `convert_moves` stops *before* the failing move: the state
it leaves behind is the one reached by the valid prefix.  In particular,
whenever the first move of the sequence cannot be realized,
`convert_moves` returns InvalidMove with the state unchanged. -/
theorem convert_moves_invalid_first_move (g : StandardSolitaire) (m : Move)
    (ms : List Move) (h : convertMove g m = none) :
    (convertMoves g (m :: ms)).1 = none ∧ (convertMoves g (m :: ms)).2 = g := by
  simp [convertMoves, convertMovesGo, h]

/-- Witness for C7 (amended): from `stdGame0` the single move
`DeckStack(2♥)` is invalid (rank 1 does not match the empty foundation),
and conversion leaves the state untouched. -/
theorem convert_moves_invalid_first_move_witness :
    (convertMoves stdGame0 [.DeckStack ⟨4⟩]).1 = none ∧
      (convertMoves stdGame0 [.DeckStack ⟨4⟩]).2 = stdGame0 :=
  convert_moves_invalid_first_move stdGame0 (.DeckStack ⟨4⟩) [] (by decide)

/-- Round-trip of `do_move`/`undo_move` for every legal move, given the
state invariant. -/
theorem doMove_undoMove (s : Solitaire) (hwf : s.wf) (m : Move) (dom : Bool)
    (hm : m ∈ s.listMoves dom) :
    ((s.doMove m).1).undoMove m (s.doMove m).2 = s := by
  obtain ⟨hnd, hlen, hcur, _⟩ := hwf
  cases m with
  | DeckPile c => exact roundtrip_deckPile s dom c hnd hlen hcur hm
  | DeckStack c => exact roundtrip_deckStack s dom c hcur hm
  | PileStack c => exact roundtrip_pileStack s dom c hlen hm
  | StackPile c => exact roundtrip_stackPile s dom c hlen hm
  | Reveal c => exact roundtrip_reveal s dom c hnd hlen hm

/-! ### Preservation of the invariant by do_move -/

/-- Exchanging one entry of a list of lists swaps the old entry out of
the flattening and the new one in, up to permutation. -/
theorem flatten_set_exchange {α : Type} (L : List (List α)) (j : Nat)
    (X : List α) (hj : j < L.length) :
    List.Perm ((L.set j X).flatten ++ L.getD j []) (X ++ L.flatten) := by
  induction L generalizing j with
  | nil => simp at hj
  | cons l t ih =>
      cases j with
      | zero =>
          show List.Perm ((X ++ t.flatten) ++ l) (X ++ (l ++ t.flatten))
          rw [List.append_assoc]
          exact List.Perm.append_left X List.perm_append_comm
      | succ j =>
          show List.Perm ((l ++ (t.set j X).flatten) ++ t.getD j [])
            (X ++ (l ++ t.flatten))
          rw [List.append_assoc]
          have h1 := List.Perm.append_left l (ih j (by simpa using hj))
          exact h1.trans (List.perm_append_comm_assoc l X t.flatten)

/-- A list is a permutation of its erasure at an in-range position with
the erased element put back in front. -/
theorem perm_getD_cons_eraseIdx {α : Type} (l : List α) (i : Nat) (d : α)
    (hi : i < l.length) : List.Perm l (l.getD i d :: l.eraseIdx i) := by
  induction l generalizing i with
  | nil => simp at hi
  | cons a t ih =>
      cases i with
      | zero => exact List.Perm.refl _
      | succ i =>
          show List.Perm (a :: t) ((a :: t).getD (i + 1) d :: a :: t.eraseIdx i)
          have hg : (a :: t).getD (i + 1) d = t.getD i d := by
            simp [List.getD_eq_getElem?_getD]
          rw [hg]
          have h1 := List.Perm.cons a (ih i (by simpa using hi))
          exact h1.trans (List.Perm.swap _ _ _)

/-- Two cards with equal rank and suit are equal. -/
theorem card_eq_of_rank_suit (a b : Card) (hr : a.rank = b.rank)
    (hs : a.suit = b.suit) : a = b := by
  have hv : a.v = b.v := by
    have ha := Nat.div_add_mod a.v 4
    have hb := Nat.div_add_mod b.v 4
    unfold Card.rank at hr
    unfold Card.suit at hs
    omega
  cases a
  cases b
  cases hv
  rfl

/-- A card's suit is below four. -/
theorem card_suit_lt (c : Card) : c.suit < 4 := by
  exact Nat.mod_lt _ (by omega)

/-- `do_move` preserves the invariant: `DeckStack`. -/
theorem doMove_wf_deckStack (s : Solitaire) (hwf : s.wf) (dom : Bool) (c : Card)
    (hm : Move.DeckStack c ∈ s.listMoves dom) :
    ((s.doMove (Move.DeckStack c)).1).wf := by
  obtain ⟨hnd, hlen, hcur, hrank, hcnt, hfs⟩ := hwf
  obtain ⟨⟨pos, hpos⟩, hck⟩ := listMoves_deckStack_inv s dom c hm
  obtain ⟨hplen, hpcard⟩ := iterCallbackList_mem _ _ _ _ hcur hpos
  have hcmem : c ∈ s.deck.cards := by
    rw [← hpcard]
    exact getD_mem _ _ _ hplen
  obtain ⟨id, hid⟩ := Option.isSome_iff_exists.mp (list_indexOf?_isSome _ _ hcmem)
  obtain ⟨hlt, hgd⟩ := list_indexOf?_spec s.deck.cards c id hid
  have hdo : (s.doMove (Move.DeckStack c)).1
      = { s with deck := (s.deck.draw id).1,
                 finalStack := s.finalStack.set c.suit (s.fnd c.suit + 1) } := by
    simp only [Solitaire.doMove]
    rw [show s.deck.findCard c = some id from hid]
  rw [hdo]
  have hpermC : List.Perm s.deck.cards (c :: s.deck.cards.eraseIdx id) := by
    have h1 := perm_getD_cons_eraseIdx s.deck.cards id Card.FAKE hlt
    rwa [getD_default_irrel s.deck.cards id Card.FAKE c hlt, hgd] at h1
  have hperm : List.Perm s.allCards
      (c :: ((s.cols.flatten ++ s.activeHidden) ++ s.deck.cards.eraseIdx id)) := by
    unfold Solitaire.allCards
    exact (List.Perm.append_left _ hpermC).trans List.perm_middle
  have hcons := (List.Perm.nodup_iff hperm).mp hnd
  have hnew : ((s.cols.flatten ++ s.activeHidden)
      ++ s.deck.cards.eraseIdx id).Nodup := (List.nodup_cons.mp hcons).2
  have hcnot : c ∉ (s.cols.flatten ++ s.activeHidden)
      ++ s.deck.cards.eraseIdx id := (List.nodup_cons.mp hcons).1
  refine ⟨hnew, hlen, ?_, ?_, hcnt, by simpa using hfs⟩
  · show id ≤ (s.deck.cards.eraseIdx id).length
    rw [List.length_eraseIdx_of_lt hlt]
    omega
  · intro c' hc'
    have hc'new : c' ∈ (s.cols.flatten ++ s.activeHidden)
        ++ s.deck.cards.eraseIdx id := hc'
    have hc'old : c' ∈ s.allCards := hperm.mem_iff.mpr (List.mem_cons_of_mem _ hc'new)
    have hold := hrank c' hc'old
    show (s.finalStack.set c.suit (s.fnd c.suit + 1)).getD c'.suit 0 ≤ c'.rank
    by_cases hsu : c.suit = c'.suit
    · rw [← hsu, list_getD_set_self _ _ _ _ (by rw [hfs]; exact card_suit_lt c)]
      rw [← hsu] at hold
      rcases Nat.lt_or_ge (s.fnd c.suit) c'.rank with hgt | hge
      · omega
      · exfalso
        have hr' : c'.rank = s.fnd c.suit := by omega
        have hceq : c' = c := card_eq_of_rank_suit c' c (by omega) hsu.symm
        rw [hceq] at hc'new
        exact hcnot hc'new
    · rw [list_getD_set_ne _ _ _ _ _ hsu]
      exact hold

/-- A tableau with one column extended by a card is, flattened, a
permutation of the card joined to the old flattening. -/
theorem flatten_set_append_perm {α : Type} (L : List (List α)) (j : Nat) (c : α)
    (hj : j < L.length) :
    List.Perm ((L.set j (L.getD j [] ++ [c])).flatten) (c :: L.flatten) := by
  have e1 := flatten_set_exchange L j (L.getD j [] ++ [c]) hj
  rw [List.append_assoc] at e1
  have e2 := e1.trans (@List.perm_append_comm _ (L.getD j []) (c :: L.flatten))
  exact (List.perm_append_right_iff _).mp e2

/-- `do_move` preserves the invariant: `DeckPile`. -/
theorem doMove_wf_deckPile (s : Solitaire) (hwf : s.wf) (dom : Bool) (c : Card)
    (hm : Move.DeckPile c ∈ s.listMoves dom) :
    ((s.doMove (Move.DeckPile c)).1).wf := by
  obtain ⟨hnd, hlen, hcur, hrank, hcnt, hfs⟩ := hwf
  obtain ⟨⟨pos, hpos⟩, hdest⟩ := listMoves_deckPile_inv s dom c hm
  obtain ⟨hplen, hpcard⟩ := iterCallbackList_mem _ _ _ _ hcur hpos
  have hcmem : c ∈ s.deck.cards := by
    rw [← hpcard]
    exact getD_mem _ _ _ hplen
  obtain ⟨id, hid⟩ := Option.isSome_iff_exists.mp (list_indexOf?_isSome _ _ hcmem)
  obtain ⟨hlt, hgd⟩ := list_indexOf?_spec s.deck.cards c id hid
  obtain ⟨j, hj⟩ := Option.isSome_iff_exists.mp hdest
  have hjlt : j < N_PILES := by
    have h1 := List.mem_of_find?_eq_some hj
    simpa using h1
  have hdo : (s.doMove (Move.DeckPile c)).1
      = { s with deck := (s.deck.draw id).1,
                 cols := s.cols.set j ((s.cols.getD j []) ++ [c]) } := by
    simp only [Solitaire.doMove]
    rw [show s.deck.findCard c = some id from hid,
      show s.findDest c = some j from hj]
  rw [hdo]
  have hpermC : List.Perm s.deck.cards (c :: s.deck.cards.eraseIdx id) := by
    have h1 := perm_getD_cons_eraseIdx s.deck.cards id Card.FAKE hlt
    rwa [getD_default_irrel s.deck.cards id Card.FAKE c hlt, hgd] at h1
  have hpermA := flatten_set_append_perm s.cols j c (by omega)
  have hperm : List.Perm s.allCards
      (((s.cols.set j ((s.cols.getD j []) ++ [c])).flatten ++ s.activeHidden)
        ++ s.deck.cards.eraseIdx id) := by
    unfold Solitaire.allCards
    have h6 : List.Perm ((s.cols.flatten ++ s.activeHidden) ++ s.deck.cards)
        (c :: ((s.cols.flatten ++ s.activeHidden) ++ s.deck.cards.eraseIdx id)) :=
      (List.Perm.append_left _ hpermC).trans List.perm_middle
    have h4 := List.Perm.append_right s.activeHidden hpermA
    have h5 := List.Perm.append_right (s.deck.cards.eraseIdx id) h4
    exact h6.trans h5.symm
  refine ⟨(List.Perm.nodup_iff hperm).mp hnd, by simpa using hlen, ?_, ?_,
    hcnt, hfs⟩
  · show id ≤ (s.deck.cards.eraseIdx id).length
    rw [List.length_eraseIdx_of_lt hlt]
    omega
  · intro c' hc'
    exact hrank c' (hperm.mem_iff.mpr hc')

/-- `do_move` preserves the invariant: `StackPile`. -/
theorem doMove_wf_stackPile (s : Solitaire) (hwf : s.wf) (dom : Bool) (c : Card)
    (hm : Move.StackPile c ∈ s.listMoves dom) :
    ((s.doMove (Move.StackPile c)).1).wf := by
  obtain ⟨hnd, hlen, hcur, hrank, hcnt, hfs⟩ := hwf
  obtain ⟨su, hsu4, hpos, hc, hdest⟩ := listMoves_stackPile_inv s dom c hm
  obtain ⟨j, hj⟩ := Option.isSome_iff_exists.mp hdest
  have hjlt : j < N_PILES := by
    have h1 := List.mem_of_find?_eq_some hj
    simpa using h1
  have hcsu : c.suit = su := by
    rw [hc]
    show ((s.fnd su - 1) * 4 + su) % 4 = su
    omega
  have hcrk : c.rank = s.fnd su - 1 := by
    rw [hc]
    show ((s.fnd su - 1) * 4 + su) / 4 = s.fnd su - 1
    omega
  have hcnot : c ∉ s.allCards := by
    intro hmem
    have h1 := hrank c hmem
    rw [hcsu, hcrk] at h1
    omega
  have hdo : (s.doMove (Move.StackPile c)).1
      = { s with cols := s.cols.set j ((s.cols.getD j []) ++ [c]),
                 finalStack := s.finalStack.set c.suit (s.fnd c.suit - 1) } := by
    simp only [Solitaire.doMove]
    rw [show s.findDest c = some j from hj]
  rw [hdo]
  have hpermA := flatten_set_append_perm s.cols j c (by omega)
  have hperm : List.Perm
      (((s.cols.set j ((s.cols.getD j []) ++ [c])).flatten ++ s.activeHidden)
        ++ s.deck.cards)
      (c :: s.allCards) := by
    unfold Solitaire.allCards
    exact List.Perm.append_right _ (List.Perm.append_right _ hpermA)
  have hnodup : (((s.cols.set j ((s.cols.getD j []) ++ [c])).flatten
      ++ s.activeHidden) ++ s.deck.cards).Nodup :=
    (List.Perm.nodup_iff hperm).mpr (List.nodup_cons.mpr ⟨hcnot, hnd⟩)
  refine ⟨hnodup, by simpa using hlen, hcur, ?_, hcnt, by simpa using hfs⟩
  intro c' hc'
  show (s.finalStack.set c.suit (s.fnd c.suit - 1)).getD c'.suit 0 ≤ c'.rank
  have hmem : c' ∈ c :: s.allCards := hperm.mem_iff.mp hc'
  rcases List.mem_cons.mp hmem with hceq | hold
  · subst hceq
    rw [list_getD_set_self _ _ _ _ (by rw [hfs]; exact card_suit_lt c')]
    rw [hcsu, hcrk]
  · have h1 := hrank c' hold
    by_cases hsu : c.suit = c'.suit
    · rw [← hsu, list_getD_set_self _ _ _ _ (by rw [hfs]; exact card_suit_lt c)]
      rw [← hsu] at h1
      omega
    · rw [list_getD_set_ne _ _ _ _ _ hsu]
      exact h1

/-- A tableau with one column extended by a run is, flattened, a
permutation of the run joined to the old flattening. -/
theorem flatten_set_append_list_perm {α : Type} (L : List (List α)) (j : Nat)
    (X : List α) (hj : j < L.length) :
    List.Perm ((L.set j (L.getD j [] ++ X)).flatten) (X ++ L.flatten) := by
  have e1 := flatten_set_exchange L j (L.getD j [] ++ X) hj
  rw [List.append_assoc] at e1
  have e2 := e1.trans (@List.perm_append_comm _ (L.getD j []) (X ++ L.flatten))
  exact (List.perm_append_right_iff _).mp e2

/-- Dropping a column's last card removes exactly that card from the
flattened tableau. -/
theorem flatten_set_dropLast_perm {α : Type} (L : List (List α)) (j : Nat)
    (c : α) (hj : j < L.length) (hlast : (L.getD j []).getLast? = some c) :
    List.Perm (c :: (L.set j (L.getD j []).dropLast).flatten) L.flatten := by
  have e0 := flatten_set_exchange L j (L.getD j []).dropLast hj
  have e1 : List.Perm ((L.set j (L.getD j []).dropLast).flatten
      ++ ((L.getD j []).dropLast ++ [c])) ((L.getD j []).dropLast ++ L.flatten) := by
    rw [List.dropLast_append_getLast? c hlast]
    exact e0
  have e2 := (List.perm_append_comm_assoc _ _ _).symm.trans e1
  have e3 := (List.perm_append_left_iff _).mp e2
  exact (@List.perm_append_comm _ ((L.set j (L.getD j []).dropLast).flatten)
    [c]).symm.trans e3

/-- Mapping over a range differs from another mapping at one index only
as a `set` at that index. -/
theorem map_range_set {β : Type} (f g : Nat → β) (n j : Nat) (hj : j < n)
    (hne : ∀ i, i < n → i ≠ j → g i = f i) :
    (List.range n).map g = ((List.range n).map f).set j (g j) := by
  apply List.ext_getElem?
  intro i
  by_cases hin : i < n
  · by_cases hij : i = j
    · subst hij
      rw [List.getElem?_set_self (by simpa using hin), List.getElem?_map,
        List.getElem?_range hin]
      rfl
    · rw [List.getElem?_set_ne (fun he => hij he.symm), List.getElem?_map,
        List.getElem?_map, List.getElem?_range hin]
      simp [hne i hin hij]
  · have h1 : ((List.range n).map g).length ≤ i := by
      simpa using Nat.le_of_not_lt hin
    have h2 : (((List.range n).map f).set j (g j)).length ≤ i := by
      simpa using Nat.le_of_not_lt hin
    rw [List.getElem?_eq_none h1, List.getElem?_eq_none h2]

/-- `getD` of a mapped range at an in-range index. -/
theorem getD_map_range {β : Type} (f : Nat → β) (n j : Nat) (d : β)
    (hj : j < n) : ((List.range n).map f).getD j d = f j := by
  rw [List.getD_eq_getElem?_getD, List.getElem?_map, List.getElem?_range hj]
  rfl

/-- Popping a hidden pile takes the last card off its active slice and
leaves the other piles alone. -/
theorem hidden_pop_get (hid : Hidden) (j : Nat)
    (hpos : 0 < hid.nHidden.getD j 0)
    (hclen : (hid.get j).length = hid.nHidden.getD j 0) :
    ((hid.pop j).1).get j = (hid.get j).dropLast ∧
      ∀ i, i ≠ j → ((hid.pop j).1).get i = hid.get i := by
  have hjlen : j < hid.nHidden.length := by
    by_contra hc
    rw [List.getD_eq_getElem?_getD,
      List.getElem?_eq_none (Nat.le_of_not_lt hc)] at hpos
    simp at hpos
  constructor
  · show (hid.hiddenPiles.drop (triStart j)).take
        ((hid.nHidden.set j (hid.nHidden.getD j 0 - 1)).getD j 0)
      = (hid.get j).dropLast
    rw [list_getD_set_self _ _ _ _ hjlen, List.dropLast_eq_take, hclen]
    show (hid.hiddenPiles.drop (triStart j)).take (hid.nHidden.getD j 0 - 1)
      = ((hid.hiddenPiles.drop (triStart j)).take (hid.nHidden.getD j 0)).take
          (hid.nHidden.getD j 0 - 1)
    rw [List.take_take, Nat.min_eq_left (by omega)]
  · intro i hi
    show (hid.hiddenPiles.drop (triStart i)).take
        ((hid.nHidden.set j (hid.nHidden.getD j 0 - 1)).getD i 0)
      = hid.get i
    rw [list_getD_set_ne _ _ _ _ _ (Ne.symm hi)]
    rfl

/-- Popping a peekable hidden pile removes exactly the peeked card from
the active hidden cards. -/
theorem hidden_pop_active_perm (hid : Hidden) (j : Nat) (h : Card)
    (hj : j < N_PILES) (hpeek : hid.peek j = some h)
    (hclen : (hid.get j).length = hid.nHidden.getD j 0) :
    List.Perm (h :: ((List.range N_PILES).map ((hid.pop j).1).get).flatten)
      (((List.range N_PILES).map hid.get).flatten) := by
  have hpos := hidden_peek_pos hid j (by simp [hpeek])
  obtain ⟨hgetj, hgetne⟩ := hidden_pop_get hid j hpos hclen
  have hmapset : (List.range N_PILES).map ((hid.pop j).1).get
      = ((List.range N_PILES).map hid.get).set j (hid.get j).dropLast := by
    rw [map_range_set hid.get ((hid.pop j).1).get N_PILES j hj
      (fun i _ hij => hgetne i hij), hgetj]
  rw [hmapset]
  have hlast : (hid.get j).getLast? = some h := hpeek
  have hperm := flatten_set_dropLast_perm ((List.range N_PILES).map hid.get) j h
    (by simpa using hj)
    (by rw [getD_map_range _ _ _ _ hj]; exact hlast)
  rwa [getD_map_range _ _ _ _ hj] at hperm

/-- `do_move` preserves the invariant: `PileStack`. -/
theorem doMove_wf_pileStack (s : Solitaire) (hwf : s.wf) (dom : Bool) (c : Card)
    (hm : Move.PileStack c ∈ s.listMoves dom) :
    ((s.doMove (Move.PileStack c)).1).wf := by
  obtain ⟨hnd, hlen, hcur, hrank, hcnt, hfs⟩ := hwf
  obtain ⟨j0, hj0lt, hj0top, hckey⟩ := listMoves_pileStack_inv s dom c hm
  have hfindSome : ((List.range N_PILES).find?
      (fun j => (s.cols.getD j []).getLast? == some c)).isSome := by
    rw [List.find?_isSome]
    refine ⟨j0, List.mem_range.mpr hj0lt, ?_⟩
    simp only [beq_iff_eq]
    exact hj0top
  obtain ⟨j, hj⟩ := Option.isSome_iff_exists.mp hfindSome
  have hpj : (s.cols.getD j []).getLast? = some c := by
    have := List.find?_some hj
    simpa using this
  have hjlt : j < N_PILES := by
    have := List.mem_of_find?_eq_some hj
    rwa [List.mem_range] at this
  have hjlen : j < s.cols.length := by omega
  have hAperm := flatten_set_dropLast_perm s.cols j c hjlen hpj
  cases hrest : (s.cols.getD j []).dropLast.isEmpty with
  | true =>
      cases hpeek : s.hidden.peek j with
      | some h =>
          have hdo : (s.doMove (Move.PileStack c)).1
              = { s with
                    hidden := (s.hidden.pop j).1,
                    cols := (s.cols.set j (s.cols.getD j []).dropLast).set j [h],
                    finalStack := s.finalStack.set c.suit (s.fnd c.suit + 1) } := by
            simp only [Solitaire.doMove]
            rw [hj]
            dsimp only
            rw [hrest, hpeek]
            simp
          rw [hdo]
          rw [List.set_set]
          have hBperm := hidden_pop_active_perm s.hidden j h hjlt hpeek
            (hcnt j hjlt)
          have hcol : s.cols.getD j [] = [c] :=
            eq_singleton_of_dropLast_nil _ _ (List.isEmpty_iff.mp hrest) hpj
          have hA2 : List.Perm ((s.cols.set j [h]).flatten ++ [c])
              (h :: s.cols.flatten) := by
            have e1 := flatten_set_exchange s.cols j [h] hjlen
            rwa [hcol] at e1
          have hperm : List.Perm
              (c :: (((s.cols.set j [h]).flatten
                  ++ ((List.range N_PILES).map ((s.hidden.pop j).1).get).flatten)
                ++ s.deck.cards))
              s.allCards := by
            unfold Solitaire.allCards
            have q1 : List.Perm
                (c :: ((s.cols.set j [h]).flatten
                  ++ ((List.range N_PILES).map ((s.hidden.pop j).1).get).flatten))
                (((s.cols.set j [h]).flatten ++ [c])
                  ++ ((List.range N_PILES).map ((s.hidden.pop j).1).get).flatten) :=
              List.Perm.append_right _ (@List.perm_append_comm _
                ((s.cols.set j [h]).flatten) [c]).symm
            have q2 : List.Perm
                (((s.cols.set j [h]).flatten ++ [c])
                  ++ ((List.range N_PILES).map ((s.hidden.pop j).1).get).flatten)
                ((h :: s.cols.flatten)
                  ++ ((List.range N_PILES).map ((s.hidden.pop j).1).get).flatten) :=
              List.Perm.append_right _ hA2
            have q3 : List.Perm
                (h :: (s.cols.flatten
                  ++ ((List.range N_PILES).map ((s.hidden.pop j).1).get).flatten))
                (s.cols.flatten
                  ++ (h :: ((List.range N_PILES).map ((s.hidden.pop j).1).get).flatten)) :=
              List.perm_middle.symm
            have q4 : List.Perm
                (s.cols.flatten
                  ++ (h :: ((List.range N_PILES).map ((s.hidden.pop j).1).get).flatten))
                (s.cols.flatten ++ s.activeHidden) :=
              List.Perm.append_left s.cols.flatten hBperm
            exact List.Perm.append_right s.deck.cards
              (((q1.trans q2).trans q3).trans q4)
          have hcons := (List.Perm.nodup_iff hperm).mpr hnd
          have hnew := (List.nodup_cons.mp hcons).2
          have hcnot := (List.nodup_cons.mp hcons).1
          refine ⟨hnew, by simpa using hlen, hcur, ?_, ?_, by simpa using hfs⟩
          · intro c' hc'
            have hc'old : c' ∈ s.allCards :=
              hperm.mem_iff.mp (List.mem_cons_of_mem _ hc')
            have hold := hrank c' hc'old
            show (s.finalStack.set c.suit (s.fnd c.suit + 1)).getD c'.suit 0
              ≤ c'.rank
            by_cases hsu : c.suit = c'.suit
            · rw [← hsu,
                list_getD_set_self _ _ _ _ (by rw [hfs]; exact card_suit_lt c)]
              rw [← hsu] at hold
              rcases Nat.lt_or_ge (s.fnd c.suit) c'.rank with hgt | hge
              · omega
              · exfalso
                have hceq : c' = c := card_eq_of_rank_suit c' c (by omega) hsu.symm
                rw [hceq] at hc'
                exact hcnot hc'
            · rw [list_getD_set_ne _ _ _ _ _ hsu]
              exact hold
          · intro i hilt
            have hpos := hidden_peek_pos s.hidden j (by simp [hpeek])
            obtain ⟨hgetj, hgetne⟩ := hidden_pop_get s.hidden j hpos (hcnt j hjlt)
            have hjlen2 : j < s.hidden.nHidden.length := by
              by_contra hcon
              rw [List.getD_eq_getElem?_getD,
                List.getElem?_eq_none (Nat.le_of_not_lt hcon)] at hpos
              simp at hpos
            by_cases hij : i = j
            · subst hij
              show (((s.hidden.pop i).1).get i).length
                = ((s.hidden.pop i).1).nHidden.getD i 0
              rw [hgetj, List.length_dropLast, hcnt i hilt]
              show s.hidden.lenP i - 1
                = (s.hidden.nHidden.set i (s.hidden.nHidden.getD i 0 - 1)).getD i 0
              rw [list_getD_set_self _ _ _ _ hjlen2]
              rfl
            · show (((s.hidden.pop j).1).get i).length
                = ((s.hidden.pop j).1).nHidden.getD i 0
              rw [hgetne i hij]
              show (s.hidden.get i).length
                = (s.hidden.nHidden.set j (s.hidden.nHidden.getD j 0 - 1)).getD i 0
              rw [list_getD_set_ne _ _ _ _ _ (fun he => hij he.symm)]
              exact hcnt i hilt
      | none =>
          have hdo : (s.doMove (Move.PileStack c)).1
              = { s with
                    cols := s.cols.set j (s.cols.getD j []).dropLast,
                    finalStack := s.finalStack.set c.suit (s.fnd c.suit + 1) } := by
            simp only [Solitaire.doMove]
            rw [hj]
            dsimp only
            rw [hrest, hpeek]
            simp
          rw [hdo]
          have hperm : List.Perm
              (c :: (((s.cols.set j (s.cols.getD j []).dropLast).flatten
                  ++ s.activeHidden) ++ s.deck.cards))
              s.allCards := by
            unfold Solitaire.allCards
            exact List.Perm.append_right _ (List.Perm.append_right _ hAperm)
          have hcons := (List.Perm.nodup_iff hperm).mpr hnd
          have hnew := (List.nodup_cons.mp hcons).2
          have hcnot := (List.nodup_cons.mp hcons).1
          refine ⟨hnew, by simpa using hlen, hcur, ?_, hcnt, by simpa using hfs⟩
          intro c' hc'
          have hc'old : c' ∈ s.allCards :=
            hperm.mem_iff.mp (List.mem_cons_of_mem _ hc')
          have hold := hrank c' hc'old
          show (s.finalStack.set c.suit (s.fnd c.suit + 1)).getD c'.suit 0
            ≤ c'.rank
          by_cases hsu : c.suit = c'.suit
          · rw [← hsu,
              list_getD_set_self _ _ _ _ (by rw [hfs]; exact card_suit_lt c)]
            rw [← hsu] at hold
            rcases Nat.lt_or_ge (s.fnd c.suit) c'.rank with hgt | hge
            · omega
            · exfalso
              have hceq : c' = c := card_eq_of_rank_suit c' c (by omega) hsu.symm
              rw [hceq] at hc'
              exact hcnot hc'
          · rw [list_getD_set_ne _ _ _ _ _ hsu]
            exact hold
  | false =>
      have hdo : (s.doMove (Move.PileStack c)).1
          = { s with
                cols := s.cols.set j (s.cols.getD j []).dropLast,
                finalStack := s.finalStack.set c.suit (s.fnd c.suit + 1) } := by
        simp only [Solitaire.doMove]
        rw [hj]
        dsimp only
        rw [hrest]
        simp
      rw [hdo]
      have hperm : List.Perm
          (c :: (((s.cols.set j (s.cols.getD j []).dropLast).flatten
              ++ s.activeHidden) ++ s.deck.cards))
          s.allCards := by
        unfold Solitaire.allCards
        exact List.Perm.append_right _ (List.Perm.append_right _ hAperm)
      have hcons := (List.Perm.nodup_iff hperm).mpr hnd
      have hnew := (List.nodup_cons.mp hcons).2
      have hcnot := (List.nodup_cons.mp hcons).1
      refine ⟨hnew, by simpa using hlen, hcur, ?_, hcnt, by simpa using hfs⟩
      intro c' hc'
      have hc'old : c' ∈ s.allCards :=
        hperm.mem_iff.mp (List.mem_cons_of_mem _ hc')
      have hold := hrank c' hc'old
      show (s.finalStack.set c.suit (s.fnd c.suit + 1)).getD c'.suit 0 ≤ c'.rank
      by_cases hsu : c.suit = c'.suit
      · rw [← hsu,
          list_getD_set_self _ _ _ _ (by rw [hfs]; exact card_suit_lt c)]
        rw [← hsu] at hold
        rcases Nat.lt_or_ge (s.fnd c.suit) c'.rank with hgt | hge
        · omega
        · exfalso
          have hceq : c' = c := card_eq_of_rank_suit c' c (by omega) hsu.symm
          rw [hceq] at hc'
          exact hcnot hc'
      · rw [list_getD_set_ne _ _ _ _ _ hsu]
        exact hold

/-- Popping a hidden pile keeps every active slice length equal to its
count. -/
theorem hidden_pop_counts (hid : Hidden) (j : Nat)
    (hpos : 0 < hid.nHidden.getD j 0)
    (hcnt : ∀ i, i < N_PILES → (hid.get i).length = hid.lenP i)
    (hjlt : j < N_PILES) :
    ∀ i, i < N_PILES → (((hid.pop j).1).get i).length = ((hid.pop j).1).lenP i := by
  obtain ⟨hgetj, hgetne⟩ := hidden_pop_get hid j hpos (hcnt j hjlt)
  have hjlen2 : j < hid.nHidden.length := by
    by_contra hcon
    rw [List.getD_eq_getElem?_getD,
      List.getElem?_eq_none (Nat.le_of_not_lt hcon)] at hpos
    simp at hpos
  intro i hilt
  by_cases hij : i = j
  · subst hij
    show (((hid.pop i).1).get i).length = ((hid.pop i).1).nHidden.getD i 0
    rw [hgetj, List.length_dropLast, hcnt i hilt]
    show hid.lenP i - 1
      = (hid.nHidden.set i (hid.nHidden.getD i 0 - 1)).getD i 0
    rw [list_getD_set_self _ _ _ _ hjlen2]
    rfl
  · show (((hid.pop j).1).get i).length = ((hid.pop j).1).nHidden.getD i 0
    rw [hgetne i hij]
    show (hid.get i).length
      = (hid.nHidden.set j (hid.nHidden.getD j 0 - 1)).getD i 0
    rw [list_getD_set_ne _ _ _ _ _ (fun he => hij he.symm)]
    exact hcnt i hilt

/-- `do_move` preserves the invariant: `Reveal`. -/
theorem doMove_wf_reveal (s : Solitaire) (hwf : s.wf) (dom : Bool) (c : Card)
    (hm : Move.Reveal c ∈ s.listMoves dom) :
    ((s.doMove (Move.Reveal c)).1).wf := by
  obtain ⟨hnd, hlen, hcur, hrank, hcnt, hfs⟩ := hwf
  obtain ⟨j0, hj0lt, hj0hd, hdest0⟩ := listMoves_reveal_inv s dom c hm
  have hfindSome : ((List.range N_PILES).find?
      (fun j => (s.cols.getD j []).head? == some c)).isSome := by
    rw [List.find?_isSome]
    exact ⟨j0, List.mem_range.mpr hj0lt, by simp only [beq_iff_eq]; exact hj0hd⟩
  obtain ⟨j, hj⟩ := Option.isSome_iff_exists.mp hfindSome
  have hjhd : (s.cols.getD j []).head? = some c := by
    have := List.find?_some hj
    simpa using this
  have hjlt : j < N_PILES := by
    have := List.mem_of_find?_eq_some hj
    rwa [List.mem_range] at this
  have hjlen : j < s.cols.length := by omega
  have hfnd := cols_flatten_nodup s hnd
  have hjj0 : j = j0 :=
    nodup_flatten_unique s.cols hfnd c j j0 hjlen (by omega)
      (mem_of_head?_eq _ _ hjhd) (mem_of_head?_eq _ _ hj0hd)
  rw [← hjj0] at hdest0
  obtain ⟨j2, hj2⟩ := Option.isSome_iff_exists.mp hdest0
  have hj2lt : j2 < N_PILES := by
    have := List.mem_of_find?_eq_some hj2
    rwa [List.mem_range] at this
  have hj2len : j2 < s.cols.length := by omega
  have hne2 : j2 ≠ j := by
    have := List.find?_some hj2
    rw [Bool.and_eq_true] at this
    simpa using this.1
  have hgd : (s.cols.set j []).getD j2 [] = s.cols.getD j2 [] :=
    list_getD_set_ne _ _ _ _ _ (Ne.symm hne2)
  have e1 := flatten_set_exchange s.cols j [] hjlen
  have e2 : List.Perm (((s.cols.set j []).set j2
      ((s.cols.getD j2 []) ++ (s.cols.getD j []))).flatten)
      ((s.cols.getD j []) ++ (s.cols.set j []).flatten) := by
    rw [← hgd]
    exact flatten_set_append_list_perm (s.cols.set j []) j2 (s.cols.getD j [])
      (by simpa using hj2len)
  have hA2 : List.Perm (((s.cols.set j []).set j2
      ((s.cols.getD j2 []) ++ (s.cols.getD j []))).flatten) s.cols.flatten :=
    e2.trans ((@List.perm_append_comm _ (s.cols.getD j [])
      ((s.cols.set j []).flatten)).trans e1)
  cases hpeek : s.hidden.peek j with
  | some h =>
      have hdo : (s.doMove (Move.Reveal c)).1
          = { s with
                hidden := (s.hidden.pop j).1,
                cols := ((s.cols.set j []).set j2
                    ((s.cols.getD j2 []) ++ (s.cols.getD j []))).set j [h] } := by
        simp only [Solitaire.doMove]
        rw [hj]
        dsimp only
        rw [hj2]
        dsimp only
        rw [hpeek]
      rw [hdo]
      have hgdj : (((s.cols.set j []).set j2
          ((s.cols.getD j2 []) ++ (s.cols.getD j []))).getD j []) = [] := by
        rw [list_getD_set_ne _ _ _ _ _ hne2,
          list_getD_set_self _ _ _ _ (by simpa using hjlen)]
      have e4 := flatten_set_exchange ((s.cols.set j []).set j2
          ((s.cols.getD j2 []) ++ (s.cols.getD j []))) j [h]
          (by simpa using hjlen)
      rw [hgdj, List.append_nil] at e4
      have hA3 : List.Perm ((((s.cols.set j []).set j2
          ((s.cols.getD j2 []) ++ (s.cols.getD j []))).set j [h]).flatten)
          (h :: s.cols.flatten) :=
        e4.trans (List.Perm.cons h hA2)
      have hBperm := hidden_pop_active_perm s.hidden j h hjlt hpeek (hcnt j hjlt)
      have hperm : List.Perm
          ((((((s.cols.set j []).set j2
              ((s.cols.getD j2 []) ++ (s.cols.getD j []))).set j [h]).flatten)
            ++ ((List.range N_PILES).map ((s.hidden.pop j).1).get).flatten)
            ++ s.deck.cards)
          s.allCards := by
        unfold Solitaire.allCards
        have r1 := List.Perm.append_right
          ((List.range N_PILES).map ((s.hidden.pop j).1).get).flatten hA3
        have r2 : List.Perm
            (h :: (s.cols.flatten
              ++ ((List.range N_PILES).map ((s.hidden.pop j).1).get).flatten))
            (s.cols.flatten
              ++ (h :: ((List.range N_PILES).map ((s.hidden.pop j).1).get).flatten)) :=
          List.perm_middle.symm
        have r3 : List.Perm
            (s.cols.flatten
              ++ (h :: ((List.range N_PILES).map ((s.hidden.pop j).1).get).flatten))
            (s.cols.flatten ++ s.activeHidden) :=
          List.Perm.append_left s.cols.flatten hBperm
        exact List.Perm.append_right s.deck.cards ((r1.trans r2).trans r3)
      refine ⟨(List.Perm.nodup_iff hperm).mpr hnd, by simpa using hlen, hcur,
        ?_, ?_, hfs⟩
      · intro c' hc'
        exact hrank c' (hperm.mem_iff.mp hc')
      · exact hidden_pop_counts s.hidden j
          (hidden_peek_pos s.hidden j (by simp [hpeek])) hcnt hjlt
  | none =>
      have hdo : (s.doMove (Move.Reveal c)).1
          = { s with
                cols := (s.cols.set j []).set j2
                    ((s.cols.getD j2 []) ++ (s.cols.getD j [])) } := by
        simp only [Solitaire.doMove]
        rw [hj]
        dsimp only
        rw [hj2]
        dsimp only
        rw [hpeek]
      rw [hdo]
      have hperm : List.Perm
          (((((s.cols.set j []).set j2
              ((s.cols.getD j2 []) ++ (s.cols.getD j []))).flatten)
            ++ s.activeHidden) ++ s.deck.cards)
          s.allCards := by
        unfold Solitaire.allCards
        exact List.Perm.append_right s.deck.cards
          (List.Perm.append_right s.activeHidden hA2)
      refine ⟨(List.Perm.nodup_iff hperm).mpr hnd, by simpa using hlen, hcur,
        ?_, hcnt, hfs⟩
      intro c' hc'
      exact hrank c' (hperm.mem_iff.mp hc')

/-- `do_move` preserves the invariant for every legal move. -/
theorem doMove_wf (s : Solitaire) (hwf : s.wf) (m : Move) (dom : Bool)
    (hm : m ∈ s.listMoves dom) : ((s.doMove m).1).wf := by
  cases m with
  | DeckPile c => exact doMove_wf_deckPile s hwf dom c hm
  | DeckStack c => exact doMove_wf_deckStack s hwf dom c hm
  | PileStack c => exact doMove_wf_pileStack s hwf dom c hm
  | StackPile c => exact doMove_wf_stackPile s hwf dom c hm
  | Reveal c => exact doMove_wf_reveal s hwf dom c hm

/-- Interleaved flattenings concatenate up to permutation. -/
theorem flatten_map_append_perm {α β : Type} (R : List β) (f g : β → List α) :
    List.Perm ((R.map f).flatten ++ (R.map g).flatten)
      ((R.map (fun x => f x ++ g x)).flatten) := by
  induction R with
  | nil => simp
  | cons r t ih =>
      simp only [List.map_cons, List.flatten_cons]
      rw [List.append_assoc (f r) (t.map f).flatten _,
        List.append_assoc (f r) (g r) _]
      have h1 := List.Perm.append_left (f r)
        (List.perm_append_comm_assoc (t.map f).flatten (g r) (t.map g).flatten)
      exact h1.trans (List.Perm.append_left _ (List.Perm.append_left _ ih))

/-- `triStart` steps by the pile size. -/
theorem triStart_succ (n : Nat) : triStart (n + 1) = triStart n + (n + 1) := by
  show (n + 1) * (n + 1 + 1) / 2 = n * (n + 1) / 2 + (n + 1)
  have h2 : (n + 1) * (n + 1 + 1) = n * (n + 1) + (n + 1) * 2 := by ring
  rw [h2, Nat.add_mul_div_right _ _ (by omega : 0 < 2)]

/-- The triangular pile slices concatenate to the prefix of the flat
array. -/
theorem flatten_tri_slices {α : Type} (l : List α) (n : Nat) :
    ((List.range n).map (fun i => (l.drop (triStart i)).take (i + 1))).flatten
      = l.take (triStart n) := by
  induction n with
  | zero =>
      show ([] : List (List α)).flatten = l.take (triStart 0)
      simp [triStart]
  | succ n ih =>
      rw [List.range_succ, List.map_append, List.flatten_append, ih]
      simp only [List.map_cons, List.map_nil, List.flatten_cons,
        List.flatten_nil, List.append_nil]
      rw [triStart_succ, List.take_add l (triStart n) (n + 1)]

/-- `getD` of a range at an in-range index. -/
theorem getD_range (n j d : Nat) (hj : j < n) :
    (List.range n).getD j d = j := by
  rw [List.getD_eq_getElem?_getD, List.getElem?_range hj]
  rfl

/-- The all-zero four-slot foundation reads zero at every index. -/
theorem zeros4_getD (su : Nat) : ([0, 0, 0, 0] : List Nat).getD su 0 = 0 := by
  rcases su with _ | _ | _ | _ | su <;> rfl

/-- The pile top index stays within the 28 hidden slots. -/
theorem triStart_bound (j : Nat) (hj : j < N_PILES) :
    triStart j + j + 1 ≤ 28 := by
  have hj7 : j < 7 := hj
  interval_cases j <;> decide

/-- A fresh deal from 52 distinct cards satisfies the invariant. -/
theorem new_wf (cs : List Card) (k : Nat) (h52 : cs.length = 52)
    (hndcs : cs.Nodup) : (Solitaire.new cs k).wf := by
  have hcs28 : (cs.take 28).length = 28 := by
    rw [List.length_take]
    omega
  have hXlen : ∀ j, j < N_PILES →
      j + 1 ≤ ((cs.take 28).drop (triStart j)).length := by
    intro j hj
    rw [List.length_drop, hcs28]
    have := triStart_bound j hj
    omega
  have hpeekj : ∀ j, j < N_PILES → (Hidden.new (cs.take 28)).peek j
      = some (((cs.take 28).drop (triStart j)).getD j Card.FAKE) := by
    intro j hj
    show (((cs.take 28).drop (triStart j)).take
        (((List.range N_PILES).map (fun i => i + 1)).getD j 0)).getLast? = _
    rw [getD_map_range _ _ _ _ hj]
    have hlen : (((cs.take 28).drop (triStart j)).take (j + 1)).length = j + 1 := by
      rw [List.length_take]
      exact Nat.min_eq_left (hXlen j hj)
    rw [List.getLast?_eq_getElem?, hlen]
    simp only [Nat.add_sub_cancel]
    rw [List.getElem?_take_of_lt (by omega),
      List.getElem?_eq_getElem (show j < ((cs.take 28).drop (triStart j)).length
        by have := hXlen j hj; omega)]
    rw [List.getD_eq_getElem?_getD,
      List.getElem?_eq_getElem (show j < ((cs.take 28).drop (triStart j)).length
        by have := hXlen j hj; omega)]
    rfl
  have hget : ∀ j, j < N_PILES → (Solitaire.new cs k).hidden.get j
      = ((cs.take 28).drop (triStart j)).take j := by
    intro j hj
    show ((cs.take 28).drop (triStart j)).take ((List.range N_PILES).getD j 0) = _
    rw [getD_range _ _ _ hj]
  have hcols : (Solitaire.new cs k).cols = (List.range N_PILES).map
      (fun j => [((cs.take 28).drop (triStart j)).getD j Card.FAKE]) := by
    show (List.range N_PILES).map
        (fun j => (((Hidden.new (cs.take 28)).peek j).map (fun h => [h])).getD [])
      = _
    apply List.map_congr_left
    intro j hj
    rw [hpeekj j (List.mem_range.mp hj)]
    rfl
  have hactm : (List.range N_PILES).map (Solitaire.new cs k).hidden.get
      = (List.range N_PILES).map
        (fun j => ((cs.take 28).drop (triStart j)).take j) := by
    apply List.map_congr_left
    intro j hj
    exact hget j (List.mem_range.mp hj)
  have hsplit : ∀ j ∈ List.range N_PILES,
      ((cs.take 28).drop (triStart j)).take j
        ++ [((cs.take 28).drop (triStart j)).getD j Card.FAKE]
      = ((cs.take 28).drop (triStart j)).take (j + 1) := by
    intro j hjm
    have hj := List.mem_range.mp hjm
    have hjX : j < ((cs.take 28).drop (triStart j)).length := by
      have := hXlen j hj
      omega
    have h0 : ∀ (L : List Card) (m : Nat), L.take (m + 1)
        = L.take m ++ L[m]?.toList := fun L m => List.take_succ
    rw [h0 ((cs.take 28).drop (triStart j)) j, List.getElem?_eq_getElem hjX]
    rw [List.getD_eq_getElem?_getD, List.getElem?_eq_getElem hjX]
    rfl
  have hpermAll : List.Perm (Solitaire.new cs k).allCards cs := by
    unfold Solitaire.allCards Solitaire.activeHidden
    rw [hcols, hactm]
    have p1 := flatten_map_append_perm (List.range N_PILES)
      (fun j => ((cs.take 28).drop (triStart j)).take j)
      (fun j => [((cs.take 28).drop (triStart j)).getD j Card.FAKE])
    have hmapeq : (List.range N_PILES).map
        (fun j => ((cs.take 28).drop (triStart j)).take j
          ++ [((cs.take 28).drop (triStart j)).getD j Card.FAKE])
        = (List.range N_PILES).map
          (fun j => ((cs.take 28).drop (triStart j)).take (j + 1)) :=
      List.map_congr_left hsplit
    rw [hmapeq] at p1
    have htri7 : ((List.range N_PILES).map
        (fun j => ((cs.take 28).drop (triStart j)).take (j + 1))).flatten
        = cs.take 28 := by
      rw [flatten_tri_slices (cs.take 28) N_PILES]
      show (cs.take 28).take (triStart 7) = cs.take 28
      apply List.take_of_length_le
      rw [hcs28]
      decide
    rw [htri7] at p1
    have p2 : List.Perm
        (((List.range N_PILES).map
            (fun j => [((cs.take 28).drop (triStart j)).getD j Card.FAKE])).flatten
          ++ ((List.range N_PILES).map
            (fun j => ((cs.take 28).drop (triStart j)).take j)).flatten)
        (cs.take 28) :=
      List.perm_append_comm.trans p1
    have p3 := List.Perm.append_right (cs.drop 28) p2
    refine p3.trans ?_
    rw [List.take_append_drop]
  refine ⟨(List.Perm.nodup_iff hpermAll).mpr hndcs, by rw [hcols]; simp,
    ?_, ?_, ?_, rfl⟩
  · show min 24 k ≤ (cs.drop 28).length
    rw [List.length_drop]
    omega
  · intro c' hc'
    show ([0, 0, 0, 0] : List Nat).getD c'.suit 0 ≤ c'.rank
    rw [zeros4_getD]
    omega
  · intro j hj
    rw [hget j hj]
    show (((cs.take 28).drop (triStart j)).take j).length
      = (List.range N_PILES).getD j 0
    rw [getD_range _ _ _ hj, List.length_take]
    apply Nat.min_eq_left
    have := hXlen j hj
    omega

/-- Every reachable state satisfies the invariant. -/
theorem reachable_wf (cs : List Card) (k : Nat) (s : Solitaire)
    (hr : Solitaire.Reachable cs k s) : s.wf := by
  induction hr with
  | base h52 hnd hk => exact new_wf cs k h52 hnd
  | step hr' hm ih => exact doMove_wf _ ih _ _ hm

/-- C1: for every reachable game state `s` and every move `m` of
`list_moves(s)`: letting `u = s.do_move(m)` and then calling
`s.undo_move(m, u)`, the value of `s.encode()` afterwards equals the
value of `s.encode()` before the `do_move` (the round-trip in fact
restores the state exactly, so its encoding is unchanged). -/
theorem do_undo_restores_encode (cs : List Card) (k : Nat) (s : Solitaire)
    (hr : Solitaire.Reachable cs k s) (m : Move) (dom : Bool)
    (hm : m ∈ s.listMoves dom) :
    (((s.doMove m).1).undoMove m (s.doMove m).2).encode = s.encode := by
  rw [doMove_undoMove s (reachable_wf cs k s hr) m dom hm]

/-- Witness for C1 at the fresh game on the identity deal: the first
legal move (`PileStack` of the ace at value 0) round-trips the encode. -/
theorem do_undo_restores_encode_witness :
    Move.PileStack ⟨0⟩ ∈ game0.listMoves true ∧
      (((game0.doMove (Move.PileStack ⟨0⟩)).1).undoMove (Move.PileStack ⟨0⟩)
        (game0.doMove (Move.PileStack ⟨0⟩)).2).encode = game0.encode :=
  ⟨by decide, do_undo_restores_encode deal0 3 game0
    (Solitaire.Reachable.base (by decide) (by decide) (by decide))
    (Move.PileStack ⟨0⟩) true (by decide)⟩

/-- C4 counterexample: with a cancellation signal that fires from the
second recursion entry on, `solve` returns `Terminated` with the game
left one move deep — the exit path taken on a non-`Unsolvable` child
result returns without undoing. -/
theorem solver_terminated_state_changed :
    (solveGame sig1 2 game0).1 = SearchResult.Terminated ∧
      (solveGame sig1 2 game0).2.1 ≠ game0 := by
  decide

/-- The move loop restores the entry state whenever it returns
`Unsolvable`, assuming the recursive calls do. -/
theorem solveList_restores (sign : Nat → Bool)
    (recur : Solitaire → Option Move → List Nat → List Move → Nat →
      SearchResult × Solitaire × List Move × List Nat × Nat)
    (haux : ∀ g rev tp hist cnt, Solitaire.wf g →
      (recur g rev tp hist cnt).1 = SearchResult.Unsolvable →
      (recur g rev tp hist cnt).2.1 = g) :
    ∀ ms (g : Solitaire) rev tp hist cnt, g.wf →
      (∀ m ∈ ms, ∃ dom, m ∈ g.listMoves dom) →
      (solveList sign recur g rev tp hist cnt ms).1 = SearchResult.Unsolvable →
      (solveList sign recur g rev tp hist cnt ms).2.1 = g := by
  intro ms
  induction ms with
  | nil =>
      intro g rev tp hist cnt hwf hms h
      rfl
  | cons m ms ih =>
      intro g rev tp hist cnt hwf hms h
      obtain ⟨dom, hmm⟩ := hms m (List.mem_cons_self m ms)
      have hwf' := doMove_wf g hwf m dom hmm
      have hundo := doMove_undoMove g hwf m dom hmm
      simp only [solveList] at h ⊢
      by_cases hrev : some m = rev
      · rw [if_pos hrev] at h ⊢
        exact ih g rev tp hist cnt hwf
          (fun m' hm' => hms m' (List.mem_cons_of_mem _ hm')) h
      · rw [if_neg hrev] at h ⊢
        rcases hres : recur ((g.doMove m).1) (g.getRevMove m) tp
            (hist ++ [m]) cnt with ⟨r, g2, hist2, tp2, cnt2⟩
        rw [hres] at h
        cases r with
        | Unsolvable =>
            have h' : (solveList sign recur (g2.undoMove m (g.doMove m).2) rev
                tp2 hist2.dropLast cnt2 ms).1 = SearchResult.Unsolvable := h
            have hg2 : g2 = (g.doMove m).1 := by
              have h1 := haux ((g.doMove m).1) (g.getRevMove m) tp
                (hist ++ [m]) cnt hwf' (by rw [hres])
              rw [hres] at h1
              exact h1
            show (solveList sign recur (g2.undoMove m (g.doMove m).2) rev tp2
              hist2.dropLast cnt2 ms).2.1 = g
            rw [hg2, hundo] at h' ⊢
            exact ih g rev tp2 hist2.dropLast cnt2 hwf
              (fun m' hm' => hms m' (List.mem_cons_of_mem _ hm')) h'
        | Terminated =>
            exact SearchResult.noConfusion
              (h : SearchResult.Terminated = SearchResult.Unsolvable)
        | Solved =>
            exact SearchResult.noConfusion
              (h : SearchResult.Solved = SearchResult.Unsolvable)
        | Crashed =>
            exact SearchResult.noConfusion
              (h : SearchResult.Crashed = SearchResult.Unsolvable)

/-- `solve` restores the entry state whenever it returns `Unsolvable`:
every `do_move` of the exhaustive search is undone before that exit. -/
theorem solveAux_restores (sign : Nat → Bool) :
    ∀ fuel (g : Solitaire) rev tp hist cnt, g.wf →
      (solveAux sign fuel g rev tp hist cnt).1 = SearchResult.Unsolvable →
      (solveAux sign fuel g rev tp hist cnt).2.1 = g := by
  intro fuel
  induction fuel with
  | zero =>
      intro g rev tp hist cnt hwf h
      simp [solveAux] at h
  | succ fuel ih =>
      intro g rev tp hist cnt hwf h
      simp only [solveAux] at h ⊢
      by_cases h1 : sign cnt = true
      · rw [if_pos h1] at h
        simp at h
      · rw [if_neg h1] at h ⊢
        by_cases h2 : g.isWin = true
        · rw [if_pos h2] at h
          simp at h
        · rw [if_neg h2] at h ⊢
          by_cases h3 : g.encode ∈ tp
          · rw [if_pos h3]
          · rw [if_neg h3] at h ⊢
            exact solveList_restores sign (solveAux sign fuel) ih
              (g.listMoves true) g rev (g.encode :: tp) hist (cnt + 1) hwf
              (fun m hm => ⟨true, hm⟩) h

/-- C4 (amended): the solver's undo-on-every-exit-path guarantee holds
for the `Unsolvable` exit — for an invariant-satisfying game, whenever
`solve_game` returns `Unsolvable` the mutable state has been restored to
the initial state; a `Terminated` return (cancellation observed) instead
leaves the state wherever the search was cancelled. -/
theorem solver_unsolvable_restores (sign : Nat → Bool) (fuel : Nat)
    (g : Solitaire) (hwf : g.wf)
    (h : (solveGame sign fuel g).1 = SearchResult.Unsolvable) :
    (solveGame sign fuel g).2.1 = g :=
  solveAux_restores sign fuel g none [] [] 0 hwf h

/-- Witness for the amended C4 at the stuck game: `solve_game` returns
`Unsolvable` and hands the state back unchanged. -/
theorem solver_unsolvable_restores_witness :
    gameStuck.wf ∧
      (solveGame (fun _ => false) 2 gameStuck).1 = SearchResult.Unsolvable ∧
      (solveGame (fun _ => false) 2 gameStuck).2.1 = gameStuck :=
  ⟨by decide, by decide,
    solver_unsolvable_restores (fun _ => false) 2 gameStuck (by decide)
      (by decide)⟩

/-! ### Deck encode/decode round-trip (C2) -/

/-- A set-fold leaves untouched positions alone. -/
theorem foldl_set_getD_not_written {ι β : Type} (f : ι → Nat) (g : ι → β)
    (s : Nat) (d : β) :
    ∀ (l : List ι), (∀ i ∈ l, f i ≠ s) → ∀ init : List β,
      (l.foldl (fun acc i => acc.set (f i) (g i)) init).getD s d
        = init.getD s d := by
  intro l
  induction l with
  | nil =>
      intro _ init
      rfl
  | cons a t ih =>
      intro hno init
      show (t.foldl _ (init.set (f a) (g a))).getD s d = init.getD s d
      rw [ih (fun j hj => hno j (List.mem_cons_of_mem _ hj)),
        list_getD_set_ne _ _ _ _ _ (hno a (List.mem_cons_self _ _))]

/-- A set-fold writes the unique writer's value. -/
theorem foldl_set_getD_unique {ι β : Type} (f : ι → Nat) (g : ι → β)
    (s : Nat) (d : β) (i0 : ι) (hf : f i0 = s) :
    ∀ (l : List ι), i0 ∈ l → (∀ i ∈ l, f i = s → i = i0) →
      ∀ init : List β, s < init.length →
        (l.foldl (fun acc i => acc.set (f i) (g i)) init).getD s d = g i0 := by
  intro l
  induction l with
  | nil =>
      intro h
      cases h
  | cons a t ih =>
      intro hmem huniq init hs
      show (t.foldl _ (init.set (f a) (g a))).getD s d = g i0
      by_cases hat : i0 ∈ t
      · exact ih hat (fun i hi hfi => huniq i (List.mem_cons_of_mem _ hi) hfi)
          (init.set (f a) (g a)) (by simpa using hs)
      · have ha : a = i0 := by
          rcases List.mem_cons.mp hmem with h | h
          · exact h.symm
          · exact absurd h hat
        have hnot : ∀ i ∈ t, f i ≠ s := by
          intro i hi hfi
          exact hat ((huniq i (List.mem_cons_of_mem _ hi) hfi) ▸ hi)
        rw [foldl_set_getD_not_written f g s d t hnot, ha, hf,
          list_getD_set_self _ _ _ _ hs]

/-- A guarded set-fold leaves untouched positions alone. -/
theorem foldl_ite_set_getD_not_written {β : Type} (f : Nat → Nat) (g : Nat → β)
    (P : Nat → Prop) [DecidablePred P] (s : Nat) (d : β) :
    ∀ (l : List Nat), (∀ i ∈ l, P i → f i ≠ s) → ∀ init : List β,
      (l.foldl (fun acc i => if P i then acc.set (f i) (g i) else acc)
        init).getD s d = init.getD s d := by
  intro l
  induction l with
  | nil =>
      intro _ init
      rfl
  | cons a t ih =>
      intro hno init
      show (t.foldl _ (if P a then init.set (f a) (g a) else init)).getD s d
        = init.getD s d
      rw [ih (fun j hj hP => hno j (List.mem_cons_of_mem _ hj) hP)]
      by_cases hPa : P a
      · rw [if_pos hPa,
          list_getD_set_ne _ _ _ _ _ (hno a (List.mem_cons_self _ _) hPa)]
      · rw [if_neg hPa]

/-- A guarded set-fold writes the unique enabled writer's value. -/
theorem foldl_ite_set_getD_unique {β : Type} (f : Nat → Nat) (g : Nat → β)
    (P : Nat → Prop) [DecidablePred P] (s : Nat) (d : β) (i0 : Nat)
    (hf : f i0 = s) (hP : P i0) :
    ∀ (l : List Nat), i0 ∈ l → (∀ i ∈ l, P i → f i = s → i = i0) →
      ∀ init : List β, s < init.length →
        (l.foldl (fun acc i => if P i then acc.set (f i) (g i) else acc)
          init).getD s d = g i0 := by
  intro l
  induction l with
  | nil =>
      intro h
      cases h
  | cons a t ih =>
      intro hmem huniq init hs
      show (t.foldl _ (if P a then init.set (f a) (g a) else init)).getD s d
        = g i0
      have hlen : (if P a then init.set (f a) (g a) else init).length
          = init.length := by
        split <;> simp
      by_cases hat : i0 ∈ t
      · exact ih hat
          (fun i hi hPi hfi => huniq i (List.mem_cons_of_mem _ hi) hPi hfi)
          (if P a then init.set (f a) (g a) else init) (by rw [hlen]; exact hs)
      · have ha : a = i0 := by
          rcases List.mem_cons.mp hmem with h | h
          · exact h.symm
          · exact absurd h hat
        have hnot : ∀ i ∈ t, P i → f i ≠ s := by
          intro i hi hPi hfi
          exact hat ((huniq i (List.mem_cons_of_mem _ hi) hPi hfi) ▸ hi)
        rw [foldl_ite_set_getD_not_written f g P s d t hnot, ha,
          if_pos hP, hf, list_getD_set_self _ _ _ _ hs]

/-- A guarded set-fold preserves the length. -/
theorem foldl_ite_set_length {β : Type} (f : Nat → Nat) (g : Nat → β)
    (P : Nat → Prop) [DecidablePred P] :
    ∀ (l : List Nat) (init : List β),
      (l.foldl (fun acc i => if P i then acc.set (f i) (g i) else acc)
        init).length = init.length := by
  intro l
  induction l with
  | nil =>
      intro init
      rfl
  | cons a t ih =>
      intro init
      show (t.foldl _ (if P a then init.set (f a) (g a) else init)).length
        = init.length
      rw [ih]
      split <;> simp

/-- `getD` of a replicated list at its own default. -/
theorem replicate_getD {β : Type} (n i : Nat) (x : β) :
    (List.replicate n x).getD i x = x := by
  rw [List.getD_eq_getElem?_getD, List.getElem?_replicate]
  split <;> rfl

/-- The enumeration holds the slot-card pair of every in-range slot. -/
theorem enum_getD_mem (cs : List Card) (s : Nat) (hs : s < cs.length) :
    (s, cs.getD s Card.FAKE) ∈ cs.enum := by
  refine List.mem_iff_getElem?.mpr ⟨s, ?_⟩
  show (cs.enumFrom 0)[s]? = _
  rw [List.getElem?_enumFrom, List.getElem?_eq_getElem hs]
  rw [List.getD_eq_getElem?_getD, List.getElem?_eq_getElem hs]
  simp

/-- In a deal with distinct card values, an enumeration entry carrying
the value of slot `s` is the slot-`s` entry. -/
theorem enum_value_unique (cs : List Card) (hnd : (cs.map Card.v).Nodup)
    (s : Nat) (hs : s < cs.length) :
    ∀ p ∈ cs.enum, p.2.v = (cs.getD s Card.FAKE).v →
      p = (s, cs.getD s Card.FAKE) := by
  intro p hp hpv
  obtain ⟨n, hn⟩ := List.mem_iff_getElem?.mp hp
  have hn' : (cs.enumFrom 0)[n]? = some p := hn
  rw [List.getElem?_enumFrom] at hn'
  cases hcn : cs[n]? with
  | none =>
      rw [hcn] at hn'
      simp at hn'
  | some c =>
      rw [hcn] at hn'
      have hnlt : n < cs.length := by
        by_contra hcon
        rw [List.getElem?_eq_none (Nat.le_of_not_lt hcon)] at hcn
        cases hcn
      have hpeq : p = (n, c) := by
        simp at hn'
        exact hn'.symm
      have hcget : cs.getD n Card.FAKE = c := by
        rw [List.getD_eq_getElem?_getD, hcn]
        rfl
      have hns : n = s := by
        have hmapn : n < (cs.map Card.v).length := by simpa using hnlt
        have hmaps : s < (cs.map Card.v).length := by simpa using hs
        have heq : (cs.map Card.v)[n] = (cs.map Card.v)[s] := by
          rw [List.getElem_map, List.getElem_map]
          have h1 : cs[n] = c := by
            have := List.getElem?_eq_getElem hnlt
            rw [hcn] at this
            exact (Option.some.injEq _ _).mp this.symm
          have h2 : cs[s] = cs.getD s Card.FAKE := by
            rw [List.getD_eq_getElem?_getD, List.getElem?_eq_getElem hs]
            rfl
          rw [h1, h2]
          rw [hpeq] at hpv
          exact hpv
        exact (List.Nodup.getElem_inj_iff hnd).mp heq
      rw [hpeq, hns, hcget.symm.trans (by rw [hns])]

/-- `buildMap` sends the value of slot `s` to `s`. -/
theorem buildMap_getD_eq (cs : List Card) (hnd : (cs.map Card.v).Nodup)
    (s : Nat) (hs : s < cs.length) (hv : (cs.getD s Card.FAKE).v < 52) :
    (buildMap cs).getD (cs.getD s Card.FAKE).v 255 = s := by
  unfold buildMap
  have h := foldl_set_getD_unique (fun p => p.2.v) (fun p : Nat × Card => p.1)
    ((cs.getD s Card.FAKE).v) 255 (s, cs.getD s Card.FAKE) rfl cs.enum
    (enum_getD_mem cs s hs) (enum_value_unique cs hnd s hs)
    (List.replicate 52 255) (by simpa using hv)
  exact h

/-- `buildMap` keeps the sentinel at every value not dealt. -/
theorem buildMap_getD_default (cs : List Card) (v : Nat)
    (hno : ∀ c ∈ cs, c.v ≠ v) : (buildMap cs).getD v 255 = 255 := by
  unfold buildMap
  rw [foldl_set_getD_not_written (fun p => p.2.v) (fun p : Nat × Card => p.1)
    v 255 cs.enum ?_ (List.replicate 52 255)]
  · exact replicate_getD _ _ _
  · intro p hp
    apply hno
    have hsnd := List.enumFrom_map_snd 0 cs
    rw [← hsnd]
    exact List.mem_map_of_mem Prod.snd hp

/-- A clear bit read as the decode loop reads it. -/
theorem testBit_false_iff (e s : Nat) :
    e.testBit s = false ↔ (e >>> s) % 2 = 0 := by
  rw [Nat.testBit_to_div_mod, Nat.shiftRight_eq_div_pow]
  rcases Nat.mod_two_eq_zero_or_one (e / 2 ^ s) with h | h <;> simp [h]

/-- Bits below 24 of the deck encoding are the mask bits. -/
theorem encode_low_testBit (a b s : Nat) (hs : s < 24) :
    (a ||| b <<< 24).testBit s = a.testBit s := by
  rw [Nat.testBit_or, Nat.testBit_shiftLeft]
  have h1 : decide (s ≥ 24) = false := by
    simp
    omega
  rw [h1]
  simp

/-- The high part of the deck encoding recovers the stored offset. -/
theorem encode_high_shift (a b : Nat) (ha : a < 2 ^ 24) :
    (a ||| b <<< 24) >>> 24 = b := by
  apply Nat.eq_of_testBit_eq
  intro i
  rw [Nat.testBit_shiftRight, Nat.testBit_or, Nat.testBit_shiftLeft]
  have h1 : a.testBit (24 + i) = false :=
    Nat.testBit_lt_two_pow (Nat.lt_of_lt_of_le ha
      (Nat.pow_le_pow_right (by omega) (by omega)))
  have h2 : decide (24 + i ≥ 24) = true := by
    simp
  have h3 : 24 + i - 24 = i := by omega
  rw [h1, h2, h3]
  simp

/-- Masking the deck encoding with the low 24 bits recovers the mask. -/
theorem encode_low_and (a b : Nat) (ha : a < 2 ^ 24) :
    (a ||| b <<< 24) &&& (2 ^ 24 - 1) = a := by
  apply Nat.eq_of_testBit_eq
  intro i
  rw [Nat.testBit_and, Nat.testBit_two_pow_sub_one]
  by_cases hi : i < 24
  · rw [encode_low_testBit a b i hi]
    simp [hi]
  · have h1 : a.testBit i = false :=
      Nat.testBit_lt_two_pow (Nat.lt_of_lt_of_le ha
        (Nat.pow_le_pow_right (by omega) (by omega)))
    simp [hi, h1]

/-- What `decodeRevMap` writes into slot `s`: the slot's card when the
slot's bit reports it present, the sentinel otherwise. -/
theorem decodeRevMap_getD (cs : List Card) (e : Nat) (cards : List Card)
    (h24 : cs.length = 24) (hnd : (cs.map Card.v).Nodup)
    (hv : ∀ c ∈ cs, c.v < 52)
    (hbit : ∀ s, s < 24 → (e.testBit s = true ↔ cs.getD s Card.FAKE ∉ cards))
    (s : Nat) (hs : s < 24) :
    (decodeRevMap (buildMap cs) e).getD s Card.FAKE
      = if cs.getD s Card.FAKE ∈ cards then cs.getD s Card.FAKE
        else Card.FAKE := by
  have hslen : s < cs.length := by omega
  have hcmem : cs.getD s Card.FAKE ∈ cs := getD_mem _ _ _ hslen
  have hcv : (cs.getD s Card.FAKE).v < 52 := hv _ hcmem
  have hmap : (buildMap cs).getD (cs.getD s Card.FAKE).v 255 = s :=
    buildMap_getD_eq cs hnd s hslen hcv
  have hval : ∀ i, (buildMap cs).getD i 255 = s → i = (cs.getD s Card.FAKE).v := by
    intro i hi
    by_cases hex : ∃ j, j < cs.length ∧ (cs.getD j Card.FAKE).v = i
    · obtain ⟨j, hj, hji⟩ := hex
      have hmj : (buildMap cs).getD i 255 = j := by
        rw [← hji]
        exact buildMap_getD_eq cs hnd j hj (hv _ (getD_mem _ _ _ hj))
      rw [hmj] at hi
      rw [← hji, hi]
    · push_neg at hex
      have hno : ∀ c ∈ cs, c.v ≠ i := by
        intro c hc
        obtain ⟨n, hn, hcn⟩ := List.mem_iff_getElem.mp hc
        have : cs.getD n Card.FAKE = c := by
          rw [List.getD_eq_getElem?_getD, List.getElem?_eq_getElem hn, hcn]
          rfl
        rw [← this]
        exact hex n hn
      rw [buildMap_getD_default cs i hno] at hi
      omega
  unfold decodeRevMap
  by_cases hmem : cs.getD s Card.FAKE ∈ cards
  · rw [if_pos hmem]
    have hbits : e.testBit s = false := by
      cases hb : e.testBit s with
      | false => rfl
      | true => exact absurd hmem ((hbit s hs).mp hb)
    have hP : (buildMap cs).getD (cs.getD s Card.FAKE).v 255 < N_FULL_DECK ∧
        (e >>> ((buildMap cs).getD (cs.getD s Card.FAKE).v 255)) % 2 = 0 := by
      constructor
      · rw [hmap]
        exact hs
      · rw [hmap]
        exact (testBit_false_iff e s).mp hbits
    have huniq : ∀ i ∈ List.range 52,
        ((buildMap cs).getD i 255 < N_FULL_DECK ∧
          (e >>> ((buildMap cs).getD i 255)) % 2 = 0) →
        (buildMap cs).getD i 255 = s → i = (cs.getD s Card.FAKE).v :=
      fun i _ _ hi => hval i hi
    have h := foldl_ite_set_getD_unique (fun i => (buildMap cs).getD i 255)
      (fun i => (⟨i⟩ : Card))
      (fun i => (buildMap cs).getD i 255 < N_FULL_DECK ∧
        (e >>> ((buildMap cs).getD i 255)) % 2 = 0)
      s Card.FAKE ((cs.getD s Card.FAKE).v) hmap hP (List.range 52)
      (List.mem_range.mpr hcv) huniq (List.replicate N_FULL_DECK Card.FAKE)
      (by simpa using hs)
    rw [h]
  · rw [if_neg hmem]
    have hbits : e.testBit s = true := by
      cases hb : e.testBit s with
      | true => rfl
      | false =>
          exfalso
          apply hmem
          by_contra hcon
          exact absurd ((hbit s hs).mpr hcon) (by rw [hb]; simp)
    have hno : ∀ i ∈ List.range 52,
        ((buildMap cs).getD i 255 < N_FULL_DECK ∧
          (e >>> ((buildMap cs).getD i 255)) % 2 = 0) →
        (buildMap cs).getD i 255 ≠ s := by
      intro i _ hPi hi
      have hiv := hval i hi
      rw [hiv, hmap] at hPi
      have := (testBit_false_iff e s).mpr hPi.2
      rw [hbits] at this
      cases this
    rw [foldl_ite_set_getD_not_written _ _ _ _ _ _ hno, replicate_getD]

/-- `decodeRevMap` rebuilds, slot by slot, the deal with the absent
cards blanked out. -/
theorem decodeRevMap_eq_map (cs : List Card) (e : Nat) (cards : List Card)
    (h24 : cs.length = 24) (hnd : (cs.map Card.v).Nodup)
    (hv : ∀ c ∈ cs, c.v < 52)
    (hbit : ∀ s, s < 24 → (e.testBit s = true ↔ cs.getD s Card.FAKE ∉ cards)) :
    decodeRevMap (buildMap cs) e
      = cs.map (fun c => if c ∈ cards then c else Card.FAKE) := by
  have hlen : (decodeRevMap (buildMap cs) e).length = 24 := by
    unfold decodeRevMap
    rw [foldl_ite_set_length, List.length_replicate]
    rfl
  apply List.ext_getElem?
  intro i
  by_cases hi : i < 24
  · have h1 : i < (decodeRevMap (buildMap cs) e).length := by
      rw [hlen]
      exact hi
    have h2 : i < cs.length := by omega
    have h3 : i < (cs.map (fun c => if c ∈ cards then c else Card.FAKE)).length := by
      simpa using h2
    rw [List.getElem?_eq_getElem h1, List.getElem?_eq_getElem h3]
    have h4 : (decodeRevMap (buildMap cs) e)[i]
        = (decodeRevMap (buildMap cs) e).getD i Card.FAKE := by
      rw [List.getD_eq_getElem?_getD, List.getElem?_eq_getElem h1]
      rfl
    have h5 : (cs.map (fun c => if c ∈ cards then c else Card.FAKE))[i]
        = if cs.getD i Card.FAKE ∈ cards then cs.getD i Card.FAKE
          else Card.FAKE := by
      rw [List.getElem_map]
      have : cs[i] = cs.getD i Card.FAKE := by
        rw [List.getD_eq_getElem?_getD, List.getElem?_eq_getElem h2]
        rfl
      rw [this]
    rw [h4, h5, decodeRevMap_getD cs e cards h24 hnd hv hbit i hi]
  · have h1 : (decodeRevMap (buildMap cs) e).length ≤ i := by omega
    have h2 : (cs.map (fun c => if c ∈ cards then c else Card.FAKE)).length
        ≤ i := by
      simp only [List.length_map]
      omega
    rw [List.getElem?_eq_none h1, List.getElem?_eq_none h2]

/-- Filtering a duplicate-free list down to a sublist's members gives
back the sublist. -/
theorem sublist_filter_self {α : Type} [DecidableEq α] :
    ∀ {l L : List α}, List.Sublist l L → L.Nodup →
      L.filter (fun x => decide (x ∈ l)) = l := by
  intro l L hs
  induction hs with
  | slnil =>
      intro _
      rfl
  | cons a hsub ih =>
      intro hnd
      rename_i l1 l2
      have hna : a ∉ l1 := fun hal =>
        (List.nodup_cons.mp hnd).1 (hsub.subset hal)
      have hd : decide (a ∈ l1) = false := by simp [hna]
      rw [List.filter_cons, hd]
      simpa using ih (List.nodup_cons.mp hnd).2
  | cons₂ a hsub ih =>
      intro hnd
      rename_i l1 l2
      have hnaL : a ∉ l2 := (List.nodup_cons.mp hnd).1
      rw [List.filter_cons]
      have ht : decide (a ∈ a :: l1) = true := by simp
      rw [ht]
      have hcong : l2.filter (fun x => decide (x ∈ a :: l1))
          = l2.filter (fun x => decide (x ∈ l1)) := by
        apply List.filter_congr
        intro x hx
        have hxa : x ≠ a := fun he => hnaL (he ▸ hx)
        exact decide_eq_decide.mpr (by simp [List.mem_cons, hxa])
      rw [if_pos rfl, hcong, ih (List.nodup_cons.mp hnd).2]

/-- Dropping the blanked entries of the rebuilt deal keeps exactly the
present cards. -/
theorem filter_map_ite (cs cards : List Card)
    (hfk : ∀ c ∈ cs, c ≠ Card.FAKE) :
    (cs.map (fun c => if c ∈ cards then c else Card.FAKE)).filter
        (fun c => c ≠ Card.FAKE)
      = cs.filter (fun c => decide (c ∈ cards)) := by
  induction cs with
  | nil => rfl
  | cons a t ih =>
      have hrest := ih (fun c hc => hfk c (List.mem_cons_of_mem _ hc))
      by_cases ha : a ∈ cards
      · have hfa := hfk a (List.mem_cons_self _ _)
        simp only [List.map_cons, List.filter_cons, if_pos ha]
        simp [hfa, ha]
        simpa using hrest
      · simp only [List.map_cons, List.filter_cons, if_neg ha]
        simp [ha]
        simpa using hrest

/-- `Deck::decode` of the deck's own encoding rebuilds the same deck
with the cursor moved to `normalized_offset`. -/
theorem deck_decode_eq (cs : List Card) (k : Nat) (d : Deck)
    (hinv : DeckInv cs k d) :
    d.decode d.encode = { d with drawCur := d.normalizedOffset } := by
  obtain ⟨h24, hnd, hv, hk, hmap, hstep, hcur, hmask, hbit, hsub⟩ := hinv
  have hcsnd : cs.Nodup := List.Nodup.of_map _ hnd
  have hebit : ∀ s, s < 24 →
      (d.encode.testBit s = true ↔ cs.getD s Card.FAKE ∉ d.cards) := by
    intro s hs
    have h1 : d.encode.testBit s = d.mask.testBit s := by
      show (d.mask ||| d.normalizedOffset <<< 24).testBit s = d.mask.testBit s
      exact encode_low_testBit _ _ _ hs
    rw [h1]
    exact hbit s hs
  have hfk : ∀ c ∈ cs, c ≠ Card.FAKE := by
    intro c hc he
    have h1 := hv c hc
    rw [he] at h1
    exact absurd h1 (by decide)
  apply deckExt2
  · show (decodeRevMap d.map d.encode).filter (fun c => c ≠ Card.FAKE) = d.cards
    rw [hmap, decodeRevMap_eq_map cs d.encode d.cards h24 hnd hv hebit,
      filter_map_ite cs d.cards hfk, sublist_filter_self hsub hcsnd]
  · rfl
  · show d.encode >>> N_FULL_DECK = d.normalizedOffset
    show (d.mask ||| d.normalizedOffset <<< 24) >>> 24 = d.normalizedOffset
    exact encode_high_shift _ _ hmask
  · show d.encode &&& (2 ^ N_FULL_DECK - 1) = d.mask
    show (d.mask ||| d.normalizedOffset <<< 24) &&& (2 ^ 24 - 1) = d.mask
    exact encode_low_and _ _ hmask
  · rfl

/-- An `all` over a zip follows from a pointwise property. -/
theorem zip_all_of_pointwise {α β : Type} (l1 : List α) (l2 : List β)
    (p : α × β → Bool)
    (h : ∀ (i : Nat) (x1 : α) (x2 : β), l1[i]? = some x1 → l2[i]? = some x2 →
      p (x1, x2) = true) :
    (l1.zip l2).all p = true := by
  rw [List.all_eq_true]
  intro x hx
  obtain ⟨i, hi⟩ := List.mem_iff_getElem?.mp hx
  rcases x with ⟨x1, x2⟩
  obtain ⟨h1, h2⟩ := List.getElem?_zip_eq_some.mp hi
  exact h i x1 x2 h1 h2

/-- Every deck is equivalent to itself. -/
theorem equivalentTo_refl (d : Deck) : d.equivalentTo d = true := by
  unfold Deck.equivalentTo
  apply zip_all_of_pointwise
  intro i x1 x2 h1 h2
  rw [h1] at h2
  injection h2 with h3
  subst h3
  simp

/-- Indexing a mapped enumeration. -/
theorem enum_map_getElem? {α β : Type} (X : List α) (f : Nat × α → β)
    (i : Nat) : ((X.enum).map f)[i]? = X[i]?.map (fun a => f (i, a)) := by
  rw [List.getElem?_map]
  show ((X.enumFrom 0)[i]?).map f = _
  rw [List.getElem?_enumFrom]
  cases X[i]? <;> simp

/-- The waste part of `iter_all`, elementwise. -/
theorem iterAll_getElem?_waste (dd : Deck) (i : Nat) (hi : i < dd.drawCur)
    (hin : i < dd.cards.length) :
    dd.iterAll[i]? = some (i, dd.cards.getD i Card.FAKE,
      if i + 1 = dd.drawCur then Drawable.Current
      else if (i + 1) % dd.drawStep = 0 then Drawable.Next
      else Drawable.NoneD) := by
  show (dd.iterWaste ++ dd.iterDeck)[i]? = _
  have hlw : dd.iterWaste.length = min dd.drawCur dd.cards.length := by
    show ((dd.cards.take dd.drawCur).enum.map _).length = _
    simp
  rw [List.getElem?_append_left (by rw [hlw]; omega)]
  show ((dd.cards.take dd.drawCur).enum.map _)[i]? = _
  rw [enum_map_getElem?, List.getElem?_take_of_lt hi,
    List.getElem?_eq_getElem hin]
  rw [List.getD_eq_getElem?_getD, List.getElem?_eq_getElem hin]
  rfl

/-- The stock part of `iter_all`, elementwise. -/
theorem iterAll_getElem?_stock (dd : Deck) (i : Nat) (hcur : dd.drawCur ≤ i)
    (hin : i < dd.cards.length) (hcl : dd.drawCur ≤ dd.cards.length) :
    dd.iterAll[i]? = some (i, dd.cards.getD i Card.FAKE,
      if i - dd.drawCur + 1 = dd.len - dd.drawCur
          ∨ (i - dd.drawCur + 1) % dd.drawStep = 0 then Drawable.Current
      else if (i + 1) % dd.drawStep = 0 then Drawable.Next
      else Drawable.NoneD) := by
  show (dd.iterWaste ++ dd.iterDeck)[i]? = _
  have hlw : dd.iterWaste.length = dd.drawCur := by
    show ((dd.cards.take dd.drawCur).enum.map _).length = _
    simp
    omega
  rw [List.getElem?_append_right (by rw [hlw]; omega)]
  rw [hlw]
  show ((dd.cards.drop dd.drawCur).enum.map _)[i - dd.drawCur]? = _
  rw [enum_map_getElem?, List.getElem?_drop]
  have hidx : dd.drawCur + (i - dd.drawCur) = i := Nat.add_sub_cancel' hcur
  rw [hidx, List.getElem?_eq_getElem hin]
  rw [List.getD_eq_getElem?_getD, List.getElem?_eq_getElem hin]
  show some (dd.drawCur + (i - dd.drawCur), dd.cards[i],
      if i - dd.drawCur + 1 = dd.len - dd.drawCur
          ∨ (i - dd.drawCur + 1) % dd.drawStep = 0 then Drawable.Current
      else if (dd.drawCur + (i - dd.drawCur) + 1) % dd.drawStep = 0 then
        Drawable.Next
      else Drawable.NoneD) = _
  rw [hidx]
  rfl

/-- The length of the `iter_all` stream. -/
theorem iterAll_length (dd : Deck) (hcl : dd.drawCur ≤ dd.cards.length) :
    dd.iterAll.length = dd.cards.length := by
  show (dd.iterWaste ++ dd.iterDeck).length = _
  rw [List.length_append]
  have h1 : dd.iterWaste.length = dd.drawCur := by
    show ((dd.cards.take dd.drawCur).enum.map _).length = _
    simp
    omega
  have h2 : dd.iterDeck.length = dd.cards.length - dd.drawCur := by
    show ((dd.cards.drop dd.drawCur).enum.map _).length = _
    simp
  rw [h1, h2]
  omega

/-- Moving a pure cursor (a cursor on a step boundary) to the end of the
deck preserves the card stream and the drawability pattern. -/
theorem equivalentTo_full_waste (d : Deck) (hcur : d.drawCur ≤ d.len)
    (hmod : d.drawCur % d.drawStep = 0) :
    Deck.equivalentTo { d with drawCur := d.cards.length } d = true := by
  have hcur' : d.drawCur ≤ d.cards.length := hcur
  obtain ⟨q, hq⟩ := Nat.dvd_of_mod_eq_zero hmod
  unfold Deck.equivalentTo
  apply zip_all_of_pointwise
  intro i x1 x2 h1 h2
  have hi : i < d.cards.length := by
    by_contra hcon
    have hlen := iterAll_length ({ d with drawCur := d.cards.length } : Deck)
      (by show d.cards.length ≤ d.cards.length; omega)
    dsimp only at hlen
    rw [List.getElem?_eq_none (by rw [hlen]; omega)] at h1
    cases h1
  have e1 := iterAll_getElem?_waste ({ d with drawCur := d.cards.length } : Deck)
    i hi hi
  dsimp only at e1
  rw [e1] at h1
  injection h1 with h1'
  subst h1'
  by_cases hic : i < d.drawCur
  · have e2 := iterAll_getElem?_waste d i hic hi
    rw [e2] at h2
    injection h2 with h2'
    subst h2'
    rw [Bool.and_eq_true]
    refine ⟨by simp, ?_⟩
    rw [decide_eq_true_eq, eq_iff_iff]
    by_cases hk : (i + 1) % d.drawStep = 0
    · have hD1 : (if i + 1 = d.cards.length then Drawable.Current
          else if (i + 1) % d.drawStep = 0 then Drawable.Next
          else Drawable.NoneD) ≠ Drawable.NoneD := by
        split <;> simp_all
      have hW : (if i + 1 = d.drawCur then Drawable.Current
          else if (i + 1) % d.drawStep = 0 then Drawable.Next
          else Drawable.NoneD) ≠ Drawable.NoneD := by
        split <;> simp_all
      simp [hD1, hW]
    · have hne_c : i + 1 ≠ d.drawCur := fun he => hk (by rw [he]; exact hmod)
      have hne_n : i + 1 ≠ d.cards.length := by
        intro he
        have hc2 : d.drawCur = i + 1 := by omega
        exact hk (by rw [← hc2]; exact hmod)
      rw [if_neg hne_n, if_neg hk, if_neg hne_c]
  · have hic2 : d.drawCur ≤ i := Nat.le_of_not_lt hic
    have e2 := iterAll_getElem?_stock d i hic2 hi hcur'
    rw [e2] at h2
    injection h2 with h2'
    subst h2'
    rw [Bool.and_eq_true]
    refine ⟨by simp, ?_⟩
    rw [decide_eq_true_eq, eq_iff_iff]
    have hmodtr : (i - d.drawCur + 1) % d.drawStep = (i + 1) % d.drawStep := by
      have h3 : i + 1 = (i - d.drawCur + 1) + d.drawStep * q := by omega
      rw [h3, Nat.add_mul_mod_self_left]
    by_cases hk : (i + 1) % d.drawStep = 0
    · have hD1 : (if i + 1 = d.cards.length then Drawable.Current
          else if (i + 1) % d.drawStep = 0 then Drawable.Next
          else Drawable.NoneD) ≠ Drawable.NoneD := by
        split <;> simp_all
      have hS : (if i - d.drawCur + 1 = d.len - d.drawCur
              ∨ (i - d.drawCur + 1) % d.drawStep = 0 then Drawable.Current
          else if (i + 1) % d.drawStep = 0 then Drawable.Next
          else Drawable.NoneD) ≠ Drawable.NoneD := by
        split <;> simp_all
      simp [hD1, hS]
    · have hk2 : (i - d.drawCur + 1) % d.drawStep ≠ 0 := by
        rw [hmodtr]
        exact hk
      by_cases hn : i + 1 = d.cards.length
      · have hn2 : i - d.drawCur + 1 = d.len - d.drawCur := by
          show i - d.drawCur + 1 = d.cards.length - d.drawCur
          omega
        rw [if_pos hn, if_pos (Or.inl hn2)]
      · have hn2 : ¬(i - d.drawCur + 1 = d.len - d.drawCur
            ∨ (i - d.drawCur + 1) % d.drawStep = 0) := by
          push_neg
          refine ⟨?_, hk2⟩
          show i - d.drawCur + 1 ≠ d.cards.length - d.drawCur
          omega
        rw [if_neg hn, if_neg hk, if_neg hn2]

/-- Deals and draws preserve the deck invariant. -/
theorem dreachable_inv (cs : List Card) (k : Nat) (d : Deck)
    (hr : Deck.DReachable cs k d) : DeckInv cs k d := by
  induction hr with
  | base h24 hnd hv hk =>
      refine ⟨h24, hnd, hv, hk, rfl, rfl, ?_, ?_, ?_, List.Sublist.refl cs⟩
      · show min 24 k ≤ cs.length
        omega
      · show (0 : Nat) < 2 ^ 24
        decide
      · intro s hs
        show (0 : Nat).testBit s = true ↔ cs.getD s Card.FAKE ∉ cs
        rw [Nat.zero_testBit]
        simp only [Bool.false_eq_true, false_iff, not_not]
        exact getD_mem _ _ _ (by omega)
  | deal hr' ih =>
      rename_i d0
      obtain ⟨h24, hnd, hv, hk, hmap, hstep, hcur, hmask, hbit, hsub⟩ := ih
      refine ⟨h24, hnd, hv, hk, hmap, hstep, ?_, hmask, hbit, hsub⟩
      show d0.offsetOnce ≤ d0.cards.length
      unfold Deck.offsetOnce
      dsimp only [Deck.getOffset, Deck.len]
      split <;> omega
  | draw id hr' hlt ih =>
      rename_i d0
      obtain ⟨h24, hnd, hv, hk, hmap, hstep, hcur, hmask, hbit, hsub⟩ := ih
      have hcsnd : cs.Nodup := List.Nodup.of_map _ hnd
      have hcardnd : d0.cards.Nodup := List.Nodup.sublist hsub hcsnd
      have hclt : id < d0.cards.length := hlt
      have hcmem : d0.cards.getD id Card.FAKE ∈ d0.cards := getD_mem _ _ _ hclt
      have hcsmem : d0.cards.getD id Card.FAKE ∈ cs := hsub.subset hcmem
      obtain ⟨s0, hs0lt, hs0⟩ := List.mem_iff_getElem.mp hcsmem
      have hs0' : cs.getD s0 Card.FAKE = d0.cards.getD id Card.FAKE := by
        rw [List.getD_eq_getElem?_getD, List.getElem?_eq_getElem hs0lt, hs0]
        rfl
      have hs024 : s0 < 24 := by omega
      have hmapc : d0.map.getD (d0.cards.getD id Card.FAKE).v 255 = s0 := by
        rw [hmap, ← hs0']
        exact buildMap_getD_eq cs hnd s0 hs0lt (by rw [hs0']; exact hv _ hcsmem)
      have hpermc : List.Perm d0.cards
          (d0.cards.getD id Card.FAKE :: d0.cards.eraseIdx id) :=
        perm_getD_cons_eraseIdx _ _ _ hclt
      refine ⟨h24, hnd, hv, hk, hmap, hstep, ?_, ?_, ?_, ?_⟩
      · show id ≤ (d0.cards.eraseIdx id).length
        rw [List.length_eraseIdx_of_lt hclt]
        omega
      · show d0.mask ^^^
            2 ^ (d0.map.getD (d0.cards.getD id Card.FAKE).v 255) < 2 ^ 24
        rw [hmapc]
        exact Nat.xor_lt_two_pow hmask
          (Nat.pow_lt_pow_right (by omega) hs024)
      · intro s hs
        show (d0.mask ^^^
            2 ^ (d0.map.getD (d0.cards.getD id Card.FAKE).v 255)).testBit s
              = true
          ↔ cs.getD s Card.FAKE ∉ d0.cards.eraseIdx id
        rw [hmapc, Nat.testBit_xor, Nat.testBit_two_pow]
        have hsl : s < cs.length := by omega
        by_cases hss : s = s0
        · subst hss
          have hold : d0.mask.testBit s = false := by
            cases hb : d0.mask.testBit s with
            | false => rfl
            | true =>
                have h1 := (hbit s hs).mp hb
                rw [hs0'] at h1
                exact absurd hcmem h1
          have hnderase := (List.Perm.nodup_iff hpermc).mp hcardnd
          have hcne : d0.cards.getD id Card.FAKE ∉ d0.cards.eraseIdx id :=
            (List.nodup_cons.mp hnderase).1
          rw [hold]
          simp only [Bool.false_xor]
          rw [hs0']
          constructor
          · intro _
            exact hcne
          · intro _
            simp
        · have hd : (decide (s0 = s) : Bool) = false := by
            simp
            exact fun h => hss h.symm
          rw [hd]
          simp only [Bool.xor_false]
          rw [hbit s hs]
          have hnecs : cs.getD s Card.FAKE ≠ d0.cards.getD id Card.FAKE := by
            rw [← hs0']
            intro he
            apply hss
            have h1 : cs[s] = cs[s0] := by
              have e1 : cs.getD s Card.FAKE = cs[s] := by
                rw [List.getD_eq_getElem?_getD, List.getElem?_eq_getElem hsl]
                rfl
              have e2 : cs.getD s0 Card.FAKE = cs[s0] := by
                rw [List.getD_eq_getElem?_getD, List.getElem?_eq_getElem hs0lt]
                rfl
              rw [← e1, ← e2, he]
            exact (List.Nodup.getElem_inj_iff hcsnd).mp h1
          constructor
          · intro hno hmem
            exact hno (hpermc.mem_iff.mpr (List.mem_cons_of_mem _ hmem))
          · intro hno hmem
            rcases List.mem_cons.mp (hpermc.mem_iff.mp hmem) with he | he
            · exact hnecs he
            · exact hno he
      · exact List.Sublist.trans (List.eraseIdx_sublist _ _) hsub

/-- C2: for every deck reachable by any sequence of deals and draws from
a valid construction, decoding the deck's own encoding (into a deck
built from the same deal) produces a deck that is `equivalent_to` the
original: at every logical position both hold the same card, and a
position is drawable in one iff it is drawable in the other. -/
theorem deck_decode_encode_equivalent (cs : List Card) (k : Nat) (d : Deck)
    (hr : Deck.DReachable cs k d) :
    (d.decode d.encode).equivalentTo d = true := by
  obtain ⟨h24, hnd, hv, hk, hmap, hstep, hcur, hmask, hbit, hsub⟩ :=
    dreachable_inv cs k d hr
  rw [deck_decode_eq cs k d
    ⟨h24, hnd, hv, hk, hmap, hstep, hcur, hmask, hbit, hsub⟩]
  unfold Deck.normalizedOffset
  by_cases hm : d.drawCur % d.drawStep = 0
  · rw [if_pos hm]
    exact equivalentTo_full_waste d hcur hm
  · rw [if_neg hm]
    have h1 : ({ d with drawCur := d.drawCur } : Deck) = d := by
      cases d
      rfl
    rw [h1]
    exact equivalentTo_refl d

/-- Witness for C2 at the freshly constructed 24-card stock with draw
step 3: its cursor sits on a step boundary, so decode moves the cursor
to the deck end, and the streams still agree. -/
theorem deck_decode_encode_equivalent_witness :
    Deck.DReachable deckCards0 3 (Deck.new deckCards0 3) ∧
      ((Deck.new deckCards0 3).decode
        (Deck.new deckCards0 3).encode).equivalentTo
          (Deck.new deckCards0 3) = true :=
  ⟨Deck.DReachable.base (by decide) (by decide) (by decide) (by decide),
    deck_decode_encode_equivalent deckCards0 3 (Deck.new deckCards0 3)
      (Deck.DReachable.base (by decide) (by decide) (by decide) (by decide))⟩

end Lonelybot
